import Mathlib

set_option maxRecDepth 8000

/-!
Verification of the PyCraft NBT codec (Src/con.py, Src/low.py) and the
Anvil region store (Src/anvil.py) against their natural-language
specification.

Conventions of the shallow embedding:

* A binary flow is a `List Nat` of octets (each < 256); reading returns the
  parsed value together with the unconsumed rest of the flow.
* Python `struct` reads/writes of signed big-endian integers are modelled
  exactly, including the range checks that make `struct.pack` raise.
* A Python `float` (a binary64 value) is represented by its IEEE-754 bit
  pattern, a `Nat` below `2 ^ 64`.  `struct.pack(">f", x)` is modelled as
  bit-exact narrowing with round-to-nearest-even (`f64ToF32bits`), and
  `struct.unpack(">f", b)` as exact widening (`f32ToF64bits`).
* A Python `str` is represented by its UTF-8 byte sequence (UTF-8 encoding
  is injective, so equality of representations is equality of strings);
  `bytes.decode("utf-8")` is modelled as a validity check of the byte
  sequence, and `str.encode("utf-8")` as the identity on valid sequences.
* Functions that can raise return `Option` / `Except`; `none` (or the
  error value) models the exception.
-/

namespace PyCraft

/-! ### Byte-level primitives (Src/low.py) -/

/-- Big-endian base-256 digits of `n`, `k` octets wide (`n < 2 ^ (8 * k)`). -/
def beBytes : Nat → Nat → List Nat
  | 0, _ => []
  | k + 1, n => (n / 256 ^ k) % 256 :: beBytes k n

/-- Big-endian value of a byte list. -/
def beVal (bs : List Nat) : Nat :=
  bs.foldl (fun acc b => acc * 256 + b) 0

/-- Two's-complement reading: interpret `n < 2 ^ (8 * k)` as a signed
integer of `k` octets. -/
def toSigned (k : Nat) (n : Nat) : Int :=
  if n < 2 ^ (8 * k - 1) then (n : Int) else (n : Int) - 2 ^ (8 * k)

/-- Two's-complement image of the signed integer `v` in `k` octets
(defined for `-2 ^ (8k - 1) ≤ v < 2 ^ (8k - 1)`). -/
def ofSigned (k : Nat) (v : Int) : Nat :=
  (v % (2 ^ (8 * k) : Nat)).toNat

/-- `flow.read(size)` followed by `struct.unpack`: fails (struct.error)
when fewer than `k` octets remain. -/
def readExact (k : Nat) (s : List Nat) : Option (List Nat × List Nat) :=
  if k ≤ s.length then some (s.take k, s.drop k) else none

/-- `low.read_byte` on a single value: one signed octet. -/
def read_byte (s : List Nat) : Option (Int × List Nat) := do
  let (bs, rest) ← readExact 1 s
  return (toSigned 1 (beVal bs), rest)

/-- `low.read_short`: big-endian 16-bit signed integer. -/
def read_short (s : List Nat) : Option (Int × List Nat) := do
  let (bs, rest) ← readExact 2 s
  return (toSigned 2 (beVal bs), rest)

/-- `low.read_int`: big-endian 32-bit signed integer. -/
def read_int (s : List Nat) : Option (Int × List Nat) := do
  let (bs, rest) ← readExact 4 s
  return (toSigned 4 (beVal bs), rest)

/-- `low.read_long`: big-endian 64-bit signed integer. -/
def read_long (s : List Nat) : Option (Int × List Nat) := do
  let (bs, rest) ← readExact 8 s
  return (toSigned 8 (beVal bs), rest)

/-- Order test on `Int` kept at the constructor level (so that a stuck
comparison against a large bound stays shallow under reduction);
`bleInt_eq_true` relates it to `≤`. -/
def bleInt : Int → Int → Bool
  | .ofNat a, .ofNat b => Nat.ble a b
  | .ofNat _, .negSucc _ => false
  | .negSucc _, .ofNat _ => true
  | .negSucc a, .negSucc b => Nat.ble b a

/-- `struct.pack` of one signed integer into `k` octets; raises
(`none`) outside the representable range
`-2 ^ (8k - 1) ≤ v < 2 ^ (8k - 1)`. -/
def packSigned (k : Nat) (v : Int) : Option (List Nat) :=
  if bleInt (-((2 ^ (8 * k - 1) : Nat) : Int)) v &&
     bleInt (v + 1) ((2 ^ (8 * k - 1) : Nat) : Int) then
    some (beBytes k (ofSigned k v))
  else
    none

/-! ### IEEE-754 bit-pattern conversions

`struct.unpack(">f", ·)` widens a binary32 pattern to the binary64 value
held by a Python float; the widening is exact.  `struct.pack(">f", ·)`
narrows with round-to-nearest-even and raises `OverflowError` when a
finite value does not fit.  Both are modelled on bit patterns.  (NaN
conversions are modelled as bit truncation / extension of the payload;
hardware quieting of signaling NaNs is not modelled.) -/

/-- Exact widening of a binary32 bit pattern to a binary64 bit pattern. -/
def f32ToF64bits (b : Nat) : Nat :=
  let s := b / 2 ^ 31 % 2
  let e := b / 2 ^ 23 % 2 ^ 8
  let m := b % 2 ^ 23
  if e = 255 then
    s * 2 ^ 63 + 2047 * 2 ^ 52 + m * 2 ^ 29
  else if e = 0 then
    if m = 0 then s * 2 ^ 63
    else
      let t := Nat.log 2 m
      s * 2 ^ 63 + (874 + t) * 2 ^ 52 + (m - 2 ^ t) * 2 ^ (52 - t)
  else
    s * 2 ^ 63 + (e + 896) * 2 ^ 52 + m * 2 ^ 29

/-- Round-to-nearest-even of `S / 2 ^ d` (for `d ≥ 1`). -/
def rne (S : Nat) (d : Nat) : Nat :=
  let q := S / 2 ^ d
  let r := S % 2 ^ d
  if r > 2 ^ (d - 1) then q + 1
  else if r = 2 ^ (d - 1) then (if q % 2 = 1 then q + 1 else q)
  else q

/-- Narrowing of a binary64 bit pattern to a binary32 bit pattern with
round-to-nearest-even; `none` models `OverflowError` (finite value too
large for the single-precision format). -/
def f64ToF32bits (b : Nat) : Option Nat :=
  let s := b / 2 ^ 63 % 2
  let e := b / 2 ^ 52 % 2 ^ 11
  let m := b % 2 ^ 52
  if e = 2047 then
    if m = 0 then some (s * 2 ^ 31 + 255 * 2 ^ 23)
    else
      let m32 := m / 2 ^ 29
      some (s * 2 ^ 31 + 255 * 2 ^ 23 + (if m32 = 0 then 2 ^ 22 else m32))
  else if e = 0 then
    some (s * 2 ^ 31)
  else if 897 ≤ e then
    let q := rne (2 ^ 52 + m) 29
    if 255 ≤ e - 897 + q / 2 ^ 23 then none
    else some (s * 2 ^ 31 + (e - 897) * 2 ^ 23 + q)
  else
    let q := rne (2 ^ 52 + m) (926 - e)
    some (s * 2 ^ 31 + q)

/-- A binary64 pattern is exactly representable in binary32: narrowing
succeeds and widening the result restores the pattern. -/
def isF32Exact (bits : Nat) : Bool :=
  match f64ToF32bits bits with
  | some b32 => f32ToF64bits b32 = bits
  | none => false

/-- `low.read_float`: 4 octets, widened to the binary64 value of the
resulting Python float. -/
def read_float (s : List Nat) : Option (Nat × List Nat) := do
  let (bs, rest) ← readExact 4 s
  return (f32ToF64bits (beVal bs), rest)

/-- `low.read_double`: 8 octets, the binary64 bit pattern itself. -/
def read_double (s : List Nat) : Option (Nat × List Nat) := do
  let (bs, rest) ← readExact 8 s
  return (beVal bs, rest)

/-- `low.write_float` on a single float: narrow (may raise) and emit
4 octets. -/
def write_float_bits (bits : Nat) : Option (List Nat) := do
  let b32 ← f64ToF32bits bits
  return beBytes 4 b32

/-- `low.write_double` on a single float: emit the 8 octets of the bit
pattern. -/
def write_double_bits (bits : Nat) : Option (List Nat) :=
  if bits < 2 ^ 64 then some (beBytes 8 bits) else none

/-! ### UTF-8 validity (`bytes.decode("utf-8")`)

Strict UTF-8 validity of a byte sequence, as a deterministic automaton
(RFC 3629: no overlong forms, no surrogates, at most U+10FFFF).  State 0
accepts; state 8 is the dead state; states 1–7 await continuation bytes. -/

def utf8Step (st : Nat) (b : Nat) : Nat :=
  match st with
  | 0 =>
    if b < 0x80 then 0
    else if 0xC2 ≤ b ∧ b ≤ 0xDF then 1
    else if b = 0xE0 then 2
    else if (0xE1 ≤ b ∧ b ≤ 0xEC) ∨ (0xEE ≤ b ∧ b ≤ 0xEF) then 3
    else if b = 0xED then 4
    else if b = 0xF0 then 5
    else if 0xF1 ≤ b ∧ b ≤ 0xF3 then 6
    else if b = 0xF4 then 7
    else 8
  | 1 => if 0x80 ≤ b ∧ b ≤ 0xBF then 0 else 8
  | 2 => if 0xA0 ≤ b ∧ b ≤ 0xBF then 1 else 8
  | 3 => if 0x80 ≤ b ∧ b ≤ 0xBF then 1 else 8
  | 4 => if 0x80 ≤ b ∧ b ≤ 0x9F then 1 else 8
  | 5 => if 0x90 ≤ b ∧ b ≤ 0xBF then 3 else 8
  | 6 => if 0x80 ≤ b ∧ b ≤ 0xBF then 3 else 8
  | 7 => if 0x80 ≤ b ∧ b ≤ 0x8F then 3 else 8
  | _ => 8

def utf8Valid (s : List Nat) : Bool :=
  s.foldl utf8Step 0 = 0

/-- A Python `str`, represented by its UTF-8 octet sequence. -/
abbrev PyStr := List Nat

/-- `low.read_string`: a 16-bit signed length then that many octets,
decoded as UTF-8 (`none` models `UnicodeDecodeError`).  A negative
length makes `flow.read` consume the whole rest of the flow; a short
read returns the octets that are available (BytesIO semantics). -/
def read_string (s : List Nat) : Option (PyStr × List Nat) := do
  let (len, s) ← read_short s
  let n := if len < 0 then s.length else min len.toNat s.length
  let raw := s.take n
  if utf8Valid raw then return (raw, s.drop n) else none

/-- `low.write_string`: UTF-8 encode (identity on the representation;
raises — `none` — on a sequence not representing an encodable string),
then a 16-bit signed length and the octets. -/
def write_string (v : PyStr) : Option (List Nat) := do
  if utf8Valid v then
    let lb ← packSigned 2 (v.length : Int)
    return lb ++ v
  else none

/-! ### The NBT value model (Src/con.py)

Python values handled by the codec are ints, floats, strs, `List`
objects (a kind discriminant — `None` when unset — plus items) and
`Dict` objects (an ordered mapping from string keys to
`(kind, value)` pairs). -/

def TAG_BYTE : Int := 1
def TAG_SHORT : Int := 2
def TAG_INT : Int := 3
def TAG_LONG : Int := 4
def TAG_FLOAT : Int := 5
def TAG_DOUBLE : Int := 6
def TAG_STRING : Int := 8
def TAG_LIST : Int := 9
def TAG_COMPOUND : Int := 10

/-- `_VALID_TAGS` of con.py. -/
def VALID_TAGS : List Int := [1, 2, 3, 4, 5, 6, 8, 9, 10]

/-- A Python value in the domain of the codec.  `float` carries the
binary64 bit pattern; `str` the UTF-8 octets; `list` the kind
discriminant (`none` = Python `None`) and the items; `dict` the ordered
`(key, kind, value)` entries. -/
inductive PyVal : Type where
  | int (n : Int)
  | float (bits : Nat)
  | str (s : PyStr)
  | list (kind : Option Int) (items : List PyVal)
  | dict (entries : List (PyStr × Int × PyVal))
deriving Repr

/-- `con.is_accepted`: does the value correspond to the specificities of
the kind?  `none` models the `ValueError` raised on an unknown kind. -/
def is_accepted (kind : Int) (value : PyVal) : Option Bool :=
  if kind = TAG_BYTE then
    some (match value with
          | .int n => decide (-128 ≤ n ∧ n < 128)
          | _ => false)
  else if kind = TAG_SHORT then
    some (match value with
          | .int n => decide (-32768 ≤ n ∧ n < 32768)
          | _ => false)
  else if kind = TAG_INT then
    some (match value with
          | .int n => decide (-2147483648 ≤ n ∧ n < 2147483648)
          | _ => false)
  else if kind = TAG_LONG then
    some (match value with
          | .int n => decide (-9223372036854775808 ≤ n ∧ n < 9223372036854775808)
          | _ => false)
  else if kind = TAG_FLOAT ∨ kind = TAG_DOUBLE then
    some (match value with
          | .float _ => true
          | _ => false)
  else if kind = TAG_STRING then
    some (match value with
          | .str _ => true
          | _ => false)
  else if kind = TAG_LIST then
    some (match value with
          | .list _ _ => true
          | _ => false)
  else if kind = TAG_COMPOUND then
    some (match value with
          | .dict _ => true
          | _ => false)
  else none

/-- `Oracle.default_kind`: the largest suitable kind for a value.  (The
Python function returns `None` on foreign types; every `PyVal` is one of
the five supported shapes, so the result is total here.) -/
def default_kind (value : PyVal) : Int :=
  match value with
  | .int _ => TAG_LONG
  | .float _ => TAG_DOUBLE
  | .str _ => TAG_STRING
  | .list _ _ => TAG_LIST
  | .dict _ => TAG_COMPOUND

/-- `Oracle.default_value`: default value of a kind.  (con.py returns the
Python `None` object on a kind outside the table; its callers validate
the kind first, so that branch is unreachable and is mapped to `int 0`.) -/
def default_value (kind : Int) : PyVal :=
  if kind = TAG_BYTE ∨ kind = TAG_SHORT ∨ kind = TAG_INT ∨ kind = TAG_LONG then
    .int 0
  else if kind = TAG_FLOAT ∨ kind = TAG_DOUBLE then
    .float 0
  else if kind = TAG_STRING then
    .str []
  else if kind = TAG_LIST then
    .list none []
  else if kind = TAG_COMPOUND then
    .dict []
  else
    .int 0

/-- Errors raised by the mutation interface of the value model.
`valueErr` is Python's `ValueError`, `keyErr` Python's `KeyError`; the
specification groups both under `KindMismatch`. -/
inductive ConErr : Type where
  | valueErr
  | keyErr
deriving DecidableEq, Repr

/-- Entries of a `Dict`: the ordered dictionary `_pairs`. -/
abbrev DictPairs := List (PyStr × Int × PyVal)

/-- Lookup in an ordered dictionary. -/
def pairsFind (d : DictPairs) (key : PyStr) : Option (Int × PyVal) :=
  match d with
  | [] => none
  | e :: rest => if e.1 = key then some e.2 else pairsFind rest key

/-- `self._pairs[key] = _DictPair(kind, item)`: replace in place if the
key is present, append otherwise (OrderedDict assignment). -/
def pairsStore (d : DictPairs) (key : PyStr) (kind : Int) (item : PyVal) :
    DictPairs :=
  match d with
  | [] => [(key, kind, item)]
  | e :: rest =>
    if e.1 = key then (key, kind, item) :: rest
    else e :: pairsStore rest key kind item

/-- `Dict.__setitem__`: on a present key the value must satisfy the
declared kind (`ValueError` otherwise); on an absent key the default
kind of the value is declared. -/
def dictSetItem (d : DictPairs) (key : PyStr) (value : PyVal) :
    Except ConErr DictPairs :=
  match pairsFind d key with
  | some (kind, _) =>
    match is_accepted kind value with
    | none => .error .valueErr
    | some false => .error .valueErr
    | some true => .ok (pairsStore d key kind value)
  | none => .ok (pairsStore d key (default_kind value) value)

/-- `Dict.set_kind`: an invalid kind raises `ValueError`; on a present
key the current value must satisfy the new kind (`KeyError` otherwise);
on an absent key the entry is created with the kind's default value. -/
def dictSetKind (d : DictPairs) (key : PyStr) (kind : Int) :
    Except ConErr DictPairs :=
  if kind ∉ VALID_TAGS then .error .valueErr
  else
    match pairsFind d key with
    | some (_, item) =>
      match is_accepted kind item with
      | none => .error .valueErr
      | some false => .error .keyErr
      | some true => .ok (pairsStore d key kind item)
    | none => .ok (pairsStore d key kind (default_value kind))

/-- `List.set_kind`: on an empty list the kind is recorded without any
check; on a non-empty list every item must satisfy the kind
(`ValueError` from `is_accepted` on an unknown kind, `KeyError` on a
mismatch). -/
def listSetKind (newKind : Option Int) (kind : Option Int)
    (items : List PyVal) : Except ConErr (Option Int × List PyVal) :=
  if items.isEmpty then .ok (newKind, items)
  else
    match newKind with
    | none => .error .valueErr
    | some k =>
      let check := items.mapM (fun v => is_accepted k v)
      match check with
      | none => .error .valueErr
      | some oks =>
        if oks.all (· = true) then .ok (newKind, items)
        else .error .keyErr

/-- `List.insert` at the end (`append`): infer the kind from the value
when unset, then check acceptance (`ValueError` on mismatch). -/
def listAppend (kind : Option Int) (items : List PyVal) (value : PyVal) :
    Except ConErr (Option Int × List PyVal) :=
  let kind := match kind with
              | none => some (default_kind value)
              | some k => some k
  match kind with
  | none => .error .keyErr
  | some k =>
    match is_accepted k value with
    | none => .error .valueErr
    | some false => .error .valueErr
    | some true => .ok (some k, items ++ [value])

/-! ### The NBT writer (con.py, class `Writer`)

`Writer.save` records a named `(kind, name, value)` triple.  A `LIST`
kind is refined to `BYTE_ARRAY` / `INT_ARRAY` when the list's inner kind
is `BYTE` / `INT`.  `_save_list` applies the same promotion to an inner
kind that is itself `LIST`, by inspecting the kinds of all elements. -/

/-- `low.write_byte` on a scalar int. -/
def write_byte_int (v : Int) : Option (List Nat) := packSigned 1 v

/-- `low.write_byte` on a container: `len(value)` octets packed from the
items, each of which must be an int in range (struct.error otherwise). -/
def write_byte_seq (items : List PyVal) : Option (List Nat) := do
  let chunks ← items.mapM (fun v =>
    match v with
    | .int n => packSigned 1 n
    | _ => none)
  return chunks.flatten

/-- `low.write_int` on a container. -/
def write_int_seq (items : List PyVal) : Option (List Nat) := do
  let chunks ← items.mapM (fun v =>
    match v with
    | .int n => packSigned 4 n
    | _ => none)
  return chunks.flatten

/-- `low.write_byte_array`: an i32 length then the packed items. -/
def write_byte_array (value : PyVal) : Option (List Nat) := do
  match value with
  | .list _ items => do
    let lb ← packSigned 4 (items.length : Int)
    let bb ← write_byte_seq items
    return lb ++ bb
  | .str s => do
    -- len(str) works; packing the characters as signed bytes fails
    -- unless the string is empty.
    let lb ← packSigned 4 (s.length : Int)
    if s.length = 0 then return lb else none
  | _ => none

/-- `low.write_int_array`: an i32 length then the packed items. -/
def write_int_array (value : PyVal) : Option (List Nat) := do
  match value with
  | .list _ items => do
    let lb ← packSigned 4 (items.length : Int)
    let bb ← write_int_seq items
    return lb ++ bb
  | .str s => do
    let lb ← packSigned 4 (s.length : Int)
    if s.length = 0 then return lb else none
  | _ => none

/-- The scalar entries of `Writer.writers`: record one value of the given
wire tag.  `none` models the exception raised on a value of the wrong
shape or out of range. -/
def writeScalar (tag : Int) (value : PyVal) : Option (List Nat) :=
  if tag = 1 then
    match value with
    | .int n => write_byte_int n
    | .list _ items => write_byte_seq items
    | .str s => if s.length = 0 then some [] else none
    | _ => none
  else if tag = 2 then
    match value with
    | .int n => packSigned 2 n
    | _ => none
  else if tag = 3 then
    match value with
    | .int n => packSigned 4 n
    | _ => none
  else if tag = 4 then
    match value with
    | .int n => packSigned 8 n
    | _ => none
  else if tag = 5 then
    match value with
    | .float bits => write_float_bits bits
    | _ => none
  else if tag = 6 then
    match value with
    | .float bits => write_double_bits bits
    | _ => none
  else if tag = 8 then
    match value with
    | .str s => write_string s
    | _ => none
  else none

/-- `Writer.save`'s refinement of a named `LIST` kind from the value's
inner kind (`value.get_kind()`; `none` models the `AttributeError` /
`TypeError` when the value is not a `List`). -/
def refineKind (kind : Int) (value : PyVal) : Option Int :=
  if kind = TAG_LIST then
    match value with
    | .list lk _ =>
      some (if lk = some TAG_BYTE then 7
            else if lk = some TAG_INT then 11
            else kind)
    | _ => none
  else some kind

/-- `_save_list`'s promotion of an inner kind that is itself `LIST`:
scan the elements' kinds; `none` models the `AttributeError` raised by
`inner_v.get_kind()` on a non-`List` element.  Returns the wire tag to
emit for the elements. -/
def promoteInner (items : List PyVal) : Option Int :=
  let kinds := items.mapM (fun v =>
    match v with
    | .list lk _ => some lk
    | _ => none)
  match kinds with
  | none => none
  | some lks =>
    let declared := lks.filterMap id
    if declared.isEmpty then some 9
    else if declared.all (· = TAG_BYTE) then some 7
    else if declared.all (· = TAG_INT) then some 11
    else some 9

mutual

/-- `Writer.save`: tag octet (after refinement), name, payload. -/
def writerSave (kind : Int) (name : PyStr) (value : PyVal) :
    Option (List Nat) := do
  let kind ← refineKind kind value
  let tb ← packSigned 1 kind
  let nb ← write_string name
  let pb ← writeDispatch kind value
  return tb ++ nb ++ pb
termination_by (sizeOf value, 1)

/-- `Writer.writers[kind]` applied to a value.  Index 0 is `None`
(`TypeError` when used); a negative index in `[-12, 0)` selects from the
end of the list (Python list indexing, realized here by adding 12 up
front); an index outside `[-12, 12)` raises `IndexError`. -/
def writeDispatch (kind : Int) (value : PyVal) : Option (List Nat) :=
  let kind := if -12 ≤ kind ∧ kind < 0 then kind + 12 else kind
  if kind = 7 then write_byte_array value
  else if kind = 9 then
    match value with
    | .list lk items => writeListPayload lk items
    | _ => none
  else if kind = 10 then
    match value with
    | .dict entries => writeDictPayload entries
    | _ => none
  else if kind = 11 then write_int_array value
  else if kind = 1 ∨ kind = 2 ∨ kind = 3 ∨ kind = 4 ∨ kind = 5 ∨ kind = 6 ∨ kind = 8 then
    writeScalar kind value
  else none
termination_by (sizeOf value, 0)

/-- `Writer._save_list`: elements kind (after the list-of-list
promotion), then the element count, then the bare element payloads. -/
def writeListPayload (lk : Option Int) (items : List PyVal) :
    Option (List Nat) := do
  let innerKind ←
    match lk with
    | none => some 0
    | some k => if k = TAG_LIST then promoteInner items else some k
  let kb ← packSigned 1 innerKind
  let cb ← packSigned 4 (items.length : Int)
  let eb ← writeElems innerKind items
  return kb ++ cb ++ eb
termination_by (sizeOf items, 1)

/-- The element loop of `_save_list`: each element through
`Writer.writers[innerKind]`. -/
def writeElems (innerKind : Int) (items : List PyVal) :
    Option (List Nat) :=
  match items with
  | [] => some []
  | v :: rest => do
    let b ← writeDispatch innerKind v
    let bs ← writeElems innerKind rest
    return b ++ bs
termination_by (sizeOf items, 0)

/-- `Writer._save_dict`: each entry as a named tag, then the END
octet. -/
def writeDictPayload (entries : DictPairs) : Option (List Nat) :=
  match entries with
  | [] => some [0]
  | (key, kd, v) :: rest => do
    let b ← writerSave kd key v
    let bs ← writeDictPayload rest
    return b ++ bs
termination_by (sizeOf entries, 1)

end

/-! ### The NBT reader (con.py, class `Reader`)

`Reader.load` reads one named tag.  `BYTE_ARRAY` / `INT_ARRAY` payloads
are loaded as `List`s of kind `BYTE` / `INT` and the returned tag is
normalized to `LIST`.  The functions carry a fuel argument, decremented
on every recursive call; on exhausted fuel they return `none` (any fuel
larger than the length of the flow plus one is sufficient, see the
round-trip theorems). -/

/-- `Reader._load_list_byte`: a `TAG_BYTE_ARRAY` payload, loaded as a
`List` of kind `BYTE` via `low.read_byte_array`. -/
def readListByte (s : List Nat) : Option (PyVal × List Nat) := do
  let (len, s) ← read_int s
  let n := len.toNat
  let (bs, rest) ← readExact n s
  return (.list (some TAG_BYTE) (bs.map (fun b => .int (toSigned 1 b))), rest)

/-- `Reader._load_list_int`: a `TAG_INT_ARRAY` payload, loaded as a
`List` of kind `INT` via `low.read_int_array`. -/
def readListInt (s : List Nat) : Option (PyVal × List Nat) := do
  let (len, s) ← read_int s
  let n := len.toNat
  let (bs, rest) ← readExact (4 * n) s
  let words := (List.range n).map (fun i =>
    PyVal.int (toSigned 4 (beVal ((bs.drop (4 * i)).take 4))))
  return (.list (some TAG_INT) words, rest)

/-- The wire-tag normalization applied by `Reader.load` and
`Reader._load_list`: the array tags collapse to `LIST`. -/
def normTag (kind : Int) : Int :=
  if kind = 7 ∨ kind = 11 then TAG_LIST else kind

mutual

/-- `Reader.load`: one named tag; `some (none, rest)` is the Python
`None` result on an END tag. -/
def readerLoad (fuel : Nat) (s : List Nat) :
    Option (Option (Int × PyStr × PyVal) × List Nat) :=
  match fuel with
  | 0 => none
  | f + 1 => do
    let (kind, s) ← read_byte s
    if kind = 0 then return (none, s)
    else do
      let (name, s) ← read_string s
      let (value, s) ← readDispatch f kind s
      return (some (normTag kind, name, value), s)

/-- `Reader.readers[kind]` applied to the flow.  Index 0 is `None`
(`TypeError` when called); a negative index in `[-12, 0)` selects from
the end (Python list indexing); outside `[-12, 12)` an `IndexError` is
raised. -/
def readDispatch (fuel : Nat) (kind : Int) (s : List Nat) :
    Option (PyVal × List Nat) :=
  match fuel with
  | 0 => none
  | f + 1 =>
    let kind := if -12 ≤ kind ∧ kind < 0 then kind + 12 else kind
    if kind = 1 then do
      let (v, s) ← read_byte s
      return (.int v, s)
    else if kind = 2 then do
      let (v, s) ← read_short s
      return (.int v, s)
    else if kind = 3 then do
      let (v, s) ← read_int s
      return (.int v, s)
    else if kind = 4 then do
      let (v, s) ← read_long s
      return (.int v, s)
    else if kind = 5 then do
      let (v, s) ← read_float s
      return (.float v, s)
    else if kind = 6 then do
      let (v, s) ← read_double s
      return (.float v, s)
    else if kind = 7 then readListByte s
    else if kind = 8 then do
      let (v, s) ← read_string s
      return (.str v, s)
    else if kind = 9 then readList f s
    else if kind = 10 then readDict f s
    else if kind = 11 then readListInt s
    else none

/-- `Reader._load_list`: elements tag, element count, then `count` bare
payloads through `Reader.readers[tag]` (the dispatch uses the raw wire
tag; the recorded kind is the normalized one, or `None` on tag END).
Fetching `Reader.readers[kind]` raises `IndexError` up front for a tag
outside `[-12, 12)`, even when the count is zero. -/
def readList (fuel : Nat) (s : List Nat) : Option (PyVal × List Nat) :=
  match fuel with
  | 0 => none
  | f + 1 => do
    let (kind, s) ← read_byte s
    let (count, s) ← read_int s
    if kind < -12 ∨ 12 ≤ kind then none
    else
      let lk : Option Int :=
        if kind = 0 then none else some (normTag kind)
      let (items, s) ← readElems f kind count.toNat s
      return (.list lk items, s)

/-- The element loop of `_load_list`.  (Each loaded element is
`append`ed; the appends cannot fail because a loaded element always
satisfies the recorded kind.) -/
def readElems (fuel : Nat) (kind : Int) (count : Nat) (s : List Nat) :
    Option (List PyVal × List Nat) :=
  match fuel, count with
  | 0, _ => none
  | _ + 1, 0 => some ([], s)
  | f + 1, c + 1 => do
    let (v, s) ← readDispatch f kind s
    let (vs, s) ← readElems f kind c s
    return (v :: vs, s)

/-- `Reader._load_dict`: named tags until an END tag; each one entered
into the dictionary built so far with `set_kind` followed by item
assignment. -/
def readDict (fuel : Nat) (s : List Nat) : Option (PyVal × List Nat) :=
  match fuel with
  | 0 => none
  | f + 1 => do
    let (entries, s) ← readDictLoop f [] s
    return (.dict entries, s)

/-- The loop of `_load_dict`: `acc` is the dictionary built so far;
`result.set_kind(inner_v[1], inner_v[0])` then
`result[inner_v[1]] = inner_v[2]` on each loaded named tag (an
exception from either aborts the load). -/
def readDictLoop (fuel : Nat) (acc : DictPairs) (s : List Nat) :
    Option (DictPairs × List Nat) :=
  match fuel with
  | 0 => none
  | f + 1 => do
    let (entry, s) ← readerLoad f s
    match entry with
    | none => return (acc, s)
    | some (kd, key, v) => do
      let acc ← match dictSetKind acc key kd with
                | .ok d => some d
                | .error _ => none
      let acc ← match dictSetItem acc key v with
                | .ok d => some d
                | .error _ => none
      readDictLoop f acc s

end

/-! ### The Anvil region store (Src/anvil.py)

The store keeps a table of 1024 `Metadata` records, a set of free
sectors, the sector count of the file, and the octet content of the
backing flow (`file : Nat → Nat`, octet value at each position; a fresh
flow is all zeros).

The free-sector set is a Python `set`; its iteration order is
implementation-defined (CPython iterates the hash table in slot order,
which for small integers is not in general ascending).  The model
therefore takes the enumeration used by the allocator scan as an
explicit argument `ord`; a faithful run supplies some permutation of the
current free set.

The chunk payload codec is passed as parameters `enc` / `dec`.
Modelled from the spec: `save_chunk` calls `nbt.save` and `load_chunk`
calls `nbt.load`, but `Src/nbt.py` defines no such functions (the NBT
codec of the package, `Src/con.py`, names them `save` / `load`); per
§4.5 of the specification the payload is the zlib-compressed NBT
encoding of the value, abstracted here as an encoding function with a
left-inverse decoder (§8 P2). -/

/-- Per-slot metadata (class `Metadata` of anvil.py). -/
structure Metadata where
  offset : Nat
  length : Nat
  timestamp : Nat
deriving DecidableEq, Repr

instance : Inhabited Metadata := ⟨0, 0, 0⟩

/-- The packed location word `(offset << 8) | length`
(`length < 256` in every reachable state, so the bitwise or is plain
addition). -/
def Metadata.location (m : Metadata) : Nat := m.offset * 256 + m.length

/-- State of an `Anvil` object over a binary flow. -/
structure AnvilState where
  path : Option PyStr
  toc : List Metadata
  free : List Nat
  nbSectors : Nat
  file : Nat → Nat

/-- Overwrite `bs.length` octets of the flow starting at `p`. -/
def writeBytesAt (f : Nat → Nat) (p : Nat) (bs : List Nat) : Nat → Nat :=
  fun q => if p ≤ q ∧ q < p + bs.length then bs.getD (q - p) 0 else f q

/-- Read `n` octets of the flow starting at `p`. -/
def readBytesAt (f : Nat → Nat) (p : Nat) (n : Nat) : List Nat :=
  (List.range n).map (fun i => f (p + i))

/-- Errors of the store operations: `assertErr` for a failed Python
`assert` on an index, timestamp or offset; `chunkTooLarge` for the
failed `assert` in the `length` setter (the spec's `ChunkTooLarge`);
`packErr` for `struct.error` from a header word out of range. -/
inductive AnvilErr : Type where
  | assertErr
  | chunkTooLarge
  | packErr
deriving DecidableEq, Repr

/-- `Anvil._free_used_sectors`: the free set after adding the sectors of
`m` (set insertion: octets already present are not duplicated). -/
def releaseSectors (free : List Nat) (m : Metadata) : List Nat :=
  free ++ (((List.range m.length).map (m.offset + ·)).filter (· ∉ free))

/-- The inner loop of the allocator scan: are the `n` sectors starting
at `a` all free? -/
def runIsFree (free : List Nat) (a : Nat) (n : Nat) : Bool :=
  (List.range n).all (fun j => (a + j) ∈ free)

/-- `Anvil._write_meta` followed by the payload write of `save_chunk`:
the location word at `4 * i`, the timestamp at `4096 + 4 * i`, then at
`offset * 4096` the i32 `total - 4`, the compression octet `2`, the
compressed payload, and — when the sectors were newly appended — zero
padding to the next sector boundary. -/
def saveWriteBackFile (i : Nat) (m : Metadata) (bs : List Nat) (total : Nat)
    (pad : Bool) (f0 : Nat → Nat) : Option AnvilErr × (Nat → Nat) :=
  match packSigned 4 (m.location : Int) with
  | none => (some .packErr, f0)
  | some lb =>
    let f1 := writeBytesAt f0 (4 * i) lb
    match packSigned 4 (m.timestamp : Int) with
    | none => (some .packErr, f1)
    | some tb =>
      let f2 := writeBytesAt f1 (4096 + 4 * i) tb
      match packSigned 4 ((total : Int) - 4) with
      | none => (some .packErr, f2)
      | some sb =>
        let padding :=
          if pad then List.replicate ((4096 - total % 4096) % 4096) 0 else []
        let f3 := writeBytesAt f2 (m.offset * 4096) (sb ++ [2] ++ bs ++ padding)
        (none, f3)

/-- The writes of `saveWriteBackFile`, packaged as a state update: only
the flow content changes. -/
def saveWriteBack (i : Nat) (m : Metadata) (bs : List Nat) (total : Nat)
    (pad : Bool) (s : AnvilState) : Option AnvilErr × AnvilState :=
  ((saveWriteBackFile i m bs total pad s.file).1,
   { s with file := (saveWriteBackFile i m bs total pad s.file).2 })

/-- `Anvil.save_chunk`, with the payload encoding `enc` (see the section
comment) and the free-set enumeration `ord` used by the scan.  The state
mutations follow the order of the source: free the slot's sectors,
encode, scan, update the metadata fields (each setter's `assert` can
fail, leaving the earlier mutations in place), write the header words,
write the payload. -/
def saveChunk (enc : V → List Nat) (ord : List Nat) (now : Nat)
    (i : Nat) (v : V) (s : AnvilState) : Option AnvilErr × AnvilState :=
  if ¬ (i < 1024 ∧ i < s.toc.length) then (some .assertErr, s)
  else
    let meta := s.toc.getD i default
    let free1 := releaseSectors s.free meta
    let bs := enc v
    let total := bs.length + 5
    let needed := (total + 4095) / 4096
    let first? := ord.find? (fun a => runIsFree free1 a needed)
    if ¬ needed < 256 then
      (some .chunkTooLarge, { s with free := free1 })
    else if ¬ now < 2 ^ 32 then
      (some .assertErr,
       { s with free := free1,
                toc := s.toc.set i { meta with length := needed } })
    else
      let m1 : Metadata := { meta with length := needed, timestamp := now }
      match first? with
      | none =>
        if 2 ≤ s.nbSectors ∧ s.nbSectors < 2 ^ 24 then
          let m2 := { m1 with offset := s.nbSectors }
          saveWriteBack i m2 bs total true
            { s with free := free1,
                     toc := s.toc.set i m2,
                     nbSectors := s.nbSectors + needed }
        else
          (some .assertErr, { s with free := free1, toc := s.toc.set i m1 })
      | some a =>
        if 2 ≤ a ∧ a < 2 ^ 24 then
          let m2 := { m1 with offset := a }
          saveWriteBack i m2 bs total false
            { s with free := free1.filter (fun x => ¬ (a ≤ x ∧ x < a + needed)),
                     toc := s.toc.set i m2 }
        else
          (some .assertErr, { s with free := free1, toc := s.toc.set i m1 })

/-- `Anvil.wipe_chunk`: free the sectors, zero the length, stamp, and
rewrite the two header words.  A no-op on an empty slot. -/
def wipeChunk (now : Nat) (i : Nat) (s : AnvilState) :
    Option AnvilErr × AnvilState :=
  if ¬ (i < 1024 ∧ i < s.toc.length) then (some .assertErr, s)
  else
    let meta := s.toc.getD i default
    if meta.length = 0 then (none, s)
    else
      let free1 := releaseSectors s.free meta
      if ¬ now < 2 ^ 32 then
        (some .assertErr,
         { s with free := free1,
                  toc := s.toc.set i { meta with length := 0 } })
      else
        let m1 : Metadata := { meta with length := 0, timestamp := now }
        let s1 := { s with free := free1, toc := s.toc.set i m1 }
        match packSigned 4 (m1.location : Int) with
        | none => (some .packErr, s1)
        | some lb =>
          let f1 := writeBytesAt s1.file (4 * i) lb
          match packSigned 4 (m1.timestamp : Int) with
          | none => (some .packErr, { s1 with file := f1 })
          | some tb =>
            (none, { s1 with file := writeBytesAt f1 (4096 + 4 * i) tb })

/-- `Anvil.load_chunk`, with the payload decoding `dec` (see the section
comment): `None` on an empty slot; otherwise read the i32 payload size
and the compression octet at the slot's position and decode the
following `size - 1` octets.  Compression type 2 (zlib) is the only one
the store writes; on type 1 the source passes a misspelled keyword
(`file_obj`) to `gzip.GzipFile`, raising `TypeError`, and on any other
type it raises `NameError` — both are `none` here. -/
def loadChunk (dec : List Nat → Option V) (s : AnvilState) (i : Nat) :
    Option V :=
  if ¬ (i < 1024 ∧ i < s.toc.length) then none
  else
    let meta := s.toc.getD i default
    if meta.length = 0 then none
    else
      let pos := meta.offset * 4096
      let size := toSigned 4 (beVal (readBytesAt s.file pos 4))
      let comp := toSigned 1 (s.file (pos + 4))
      if comp = 2 then dec (readBytesAt s.file (pos + 5) (size - 1).toNat)
      else none

/-- `Anvil.__del__`'s removal decision: close, and when the store was
opened by path, unlink the file iff no slot is populated (the
`for`/`else` search for a referenced chunk). -/
def delUnlinks (s : AnvilState) : Bool :=
  match s.path with
  | none => false
  | some _ => (s.toc.find? (fun m => m.length != 0)).isNone

/-- A store over a fresh (empty) flow: two zeroed header sectors, an
empty table of contents, no free sectors. -/
def initAnvil (path : Option PyStr) : AnvilState :=
  { path := path
    toc := List.replicate 1024 default
    free := []
    nbSectors := 2
    file := fun _ => 0 }

/-- One recorded operation on a store.  A `save` carries the free-set
enumeration its scan observed and the timestamp; a `wipe` the
timestamp. -/
inductive AnvilOp (V : Type) : Type where
  | save (i : Nat) (v : V) (ord : List Nat) (now : Nat)
  | wipe (i : Nat) (now : Nat)

/-- Apply one operation. -/
def applyOp (enc : V → List Nat) (s : AnvilState) :
    AnvilOp V → Option AnvilErr × AnvilState
  | .save i v ord now => saveChunk enc ord now i v s
  | .wipe i now => wipeChunk now i s

/-- Run a list of operations. -/
def runOps (enc : V → List Nat) (s : AnvilState) :
    List (AnvilOp V) → AnvilState
  | [] => s
  | op :: rest => runOps enc (applyOp enc s op).2 rest

/-- Validity of one operation at a state: the index in range, the
enumeration a permutation of the free set the scan observes, the
payload at most 255 sectors, the timestamp below `2 ^ 31` (so the
signed header pack succeeds), and room below `2 ^ 24` for the offset. -/
def validOpB (enc : V → List Nat) (s : AnvilState) : AnvilOp V → Bool
  | .save i v ord now =>
    decide (i < 1024) &&
    decide (ord.Perm (releaseSectors s.free (s.toc.getD i default))) &&
    decide ((enc v).length + 5 ≤ 255 * 4096) &&
    decide (now < 2 ^ 31) &&
    decide (s.nbSectors + 256 ≤ 2 ^ 23)
  | .wipe i now => decide (i < 1024) && decide (now < 2 ^ 31)

/-- Validity of a whole run. -/
def validTraceB (enc : V → List Nat) (s : AnvilState) :
    List (AnvilOp V) → Bool
  | [] => true
  | op :: rest =>
    validOpB enc s op && validTraceB enc (applyOp enc s op).2 rest

/-- The reference slot map of the claim: the value of the most recent
`save` on each index, `none` after a `wipe` or when no save occurred. -/
def lastSaved (ops : List (AnvilOp V)) (k : Nat) : Option V :=
  ops.foldl (fun acc op =>
    match op with
    | .save i v _ _ => if i = k then some v else acc
    | .wipe i _ => if i = k then none else acc) none

/-- A concrete payload codec over `V = Nat` used to instantiate the
store theorems: `n` encodes to `n` constant octets and decoding
recovers the length. -/
def encLen (n : Nat) : List Nat := List.replicate n 7

/-- The decoder matching `encLen`. -/
def decLen (bs : List Nat) : Option Nat := some bs.length

/-! ### Model invariants and the stability predicate

`valOk kind v` is the conjunction of the specification's model
invariants (I1–I5) for a value stored under a declared kind: kind
acceptance with integer range checks, valid declared kinds everywhere,
kind-`None` lists empty, unique compound keys, strings valid UTF-8 of
octet length below `2 ^ 15` (so their length packs).

`stableVal kind v` marks the values whose decoded image is structurally
identical to `v`: every `FLOAT`-kinded float is exactly representable in
binary32, and no list-of-lists subject to the array promotion mixes
kind-`None` inner lists with `BYTE`/`INT`-kinded ones (the reader gives
all of them the promoted kind). -/

/-- Integer range check of `is_accepted` for the four integer kinds. -/
def intFits (kind : Int) (n : Int) : Bool :=
  if kind = 1 then decide (-128 ≤ n ∧ n < 128)
  else if kind = 2 then decide (-32768 ≤ n ∧ n < 32768)
  else if kind = 3 then decide (-2147483648 ≤ n ∧ n < 2147483648)
  else if kind = 4 then
    decide (-9223372036854775808 ≤ n ∧ n < 9223372036854775808)
  else false

mutual

/-- The model invariants for a value under a declared kind. -/
def valOk (kind : Int) (v : PyVal) : Bool :=
  if kind = 1 ∨ kind = 2 ∨ kind = 3 ∨ kind = 4 then
    match v with
    | .int n => intFits kind n
    | _ => false
  else if kind = 5 ∨ kind = 6 then
    match v with
    | .float bits => decide (bits < 2 ^ 64)
    | _ => false
  else if kind = 8 then
    match v with
    | .str s => utf8Valid s && decide (s.length < 2 ^ 15)
    | _ => false
  else if kind = 9 then
    match v with
    | .list lk items =>
      match lk with
      | none => items.isEmpty
      | some k => decide (k ∈ VALID_TAGS) && itemsOk k items
    | _ => false
  else if kind = 10 then
    match v with
    | .dict entries =>
      decide ((entries.map (fun e => e.1)).Nodup) && entriesOk entries
    | _ => false
  else false
termination_by (sizeOf v, 1)

/-- All items of a list satisfy the model invariants under the list's
kind. -/
def itemsOk (kind : Int) (items : List PyVal) : Bool :=
  match items with
  | [] => true
  | v :: rest => valOk kind v && itemsOk kind rest
termination_by (sizeOf items, 0)

/-- All entries of a compound have a valid declared kind, an encodable
key, and an invariant value. -/
def entriesOk (entries : DictPairs) : Bool :=
  match entries with
  | [] => true
  | (key, kd, v) :: rest =>
    utf8Valid key && decide (key.length < 2 ^ 15) &&
    decide (kd ∈ VALID_TAGS) && valOk kd v && entriesOk rest
termination_by (sizeOf entries, 0)

end

/-- Kind of a list value is declared (not the `None` sentinel). -/
def hasDeclaredKind (v : PyVal) : Bool :=
  match v with
  | .list (some _) _ => true
  | _ => false

mutual

/-- Stability of a value under a declared kind: its decoded image after
encoding is structurally identical (see the section comment). -/
def stableVal (kind : Int) (v : PyVal) : Bool :=
  if kind = 5 then
    match v with
    | .float bits => isF32Exact bits
    | _ => true
  else if kind = 9 then
    match v with
    | .list lk items =>
      match lk with
      | none => true
      | some k =>
        if k = 9 then
          match promoteInner items with
          | some 7 => items.all hasDeclaredKind
          | some 11 => items.all hasDeclaredKind
          | some _ => stableItems 9 items
          | none => true
        else stableItems k items
    | _ => true
  else if kind = 10 then
    match v with
    | .dict entries => stableEntries entries
    | _ => true
  else true
termination_by (sizeOf v, 1)

/-- Stability of all items of a list under the list's kind. -/
def stableItems (kind : Int) (items : List PyVal) : Bool :=
  match items with
  | [] => true
  | v :: rest => stableVal kind v && stableItems kind rest
termination_by (sizeOf items, 0)

/-- Stability of all entries of a compound. -/
def stableEntries (entries : DictPairs) : Bool :=
  match entries with
  | [] => true
  | (_, kd, v) :: rest => stableVal kd v && stableEntries rest
termination_by (sizeOf entries, 0)

end

/-- The model invariants carried down to a *wire* tag: at the array
tags 7 / 11 the payload is a list whose items are in-range ints (this is
what `valOk` at the originating `LIST` kind provides through the
refinement and the promotion); at every other tag it is `valOk`. -/
def wireOk (k : Int) (v : PyVal) : Bool :=
  if k = 7 then
    match v with
    | .list _ items => itemsOk 1 items
    | _ => false
  else if k = 11 then
    match v with
    | .list _ items => itemsOk 3 items
    | _ => false
  else valOk k v

/-- Stability at a wire tag: at 7 / 11 the list's kind is already the
declared `BYTE` / `INT` the reader will record; otherwise `stableVal`. -/
def wireStable (k : Int) (v : PyVal) : Bool :=
  if k = 7 then
    match v with
    | .list lk _ => lk = some 1
    | _ => false
  else if k = 11 then
    match v with
    | .list lk _ => lk = some 3
    | _ => false
  else stableVal k v

/-- The kind discriminants of a list of `List` values (the `kinds` scan
of `_save_list`'s promotion). -/
def listKinds (items : List PyVal) : Option (List (Option Int)) :=
  items.mapM (fun v =>
    match v with
    | .list lk _ => some lk
    | _ => none)

/-- `con.save` on a flow: anonymous name, automatically determined
kind. -/
def conSave (value : PyVal) : Option (List Nat) :=
  writerSave (default_kind value) [] value

/-- `con.load` on a flow: the value component of the loaded triple
(`content[2]`; a `None` content — an END tag — raises `TypeError`). -/
def conLoad (fuel : Nat) (s : List Nat) : Option PyVal :=
  match readerLoad fuel s with
  | some (some (_, _, v), _) => some v
  | _ => none

/-! ### The sector-disjointness invariant (claim P4) -/

/-- Slot `k` is populated. -/
def slotFilled (s : AnvilState) (k : Nat) : Prop :=
  (s.toc.getD k default).length ≠ 0

/-- Sector `x` lies in the range of metadata `m`. -/
def inSlot (m : Metadata) (x : Nat) : Prop :=
  m.offset ≤ x ∧ x < m.offset + m.length

/-- Well-formedness of a store: 1024 slots; populated ranges start at
sector 2 or later, end within the file, and are shorter than 256
sectors; distinct populated ranges are disjoint; free sectors lie in
`[2, nbSectors)` and in no populated range. -/
def DisjointInv (s : AnvilState) : Prop :=
  s.toc.length = 1024 ∧ 2 ≤ s.nbSectors ∧
  (∀ k, k < 1024 → slotFilled s k →
     2 ≤ (s.toc.getD k default).offset ∧
     (s.toc.getD k default).offset + (s.toc.getD k default).length ≤ s.nbSectors ∧
     (s.toc.getD k default).length < 256) ∧
  (∀ j k, j < 1024 → k < 1024 → j ≠ k → slotFilled s j → slotFilled s k →
     ∀ x, ¬ (inSlot (s.toc.getD j default) x ∧ inSlot (s.toc.getD k default) x)) ∧
  (∀ x ∈ s.free, (2 ≤ x ∧ x < s.nbSectors) ∧
     ∀ k, k < 1024 → slotFilled s k → ¬ inSlot (s.toc.getD k default) x)

/-! ### Round-trip contracts of the codec master induction, and the
store-trace invariant -/

def DispConc (k : Int) (v : PyVal) (pb : List Nat) : Prop :=
  ∀ fuel t, 2 * pb.length + 2 ≤ fuel →
    ∃ rv, readDispatch fuel k (pb ++ t) = some (rv, t) ∧
      writeDispatch k rv = some pb ∧
      valOk (normTag k) rv = true ∧
      (k = 7 → ∃ its, rv = PyVal.list (some 1) its) ∧
      (k = 11 → ∃ its, rv = PyVal.list (some 3) its) ∧
      (∀ lk its, k = 9 → v = PyVal.list lk its →
        ∃ its2, rv = PyVal.list lk its2) ∧
      (wireStable k v = true → rv = v)

def ListConc (lk : Option Int) (items : List PyVal) (pb : List Nat) :
    Prop :=
  ∀ fuel t, 2 * pb.length + 1 ≤ fuel →
    ∃ rvs, readList fuel (pb ++ t) = some (PyVal.list lk rvs, t) ∧
      writeListPayload lk rvs = some pb ∧
      valOk 9 (PyVal.list lk rvs) = true ∧
      (stableVal 9 (PyVal.list lk items) = true → rvs = items)

def ElemsConc (d : Int) (items : List PyVal) (eb : List Nat) : Prop :=
  ∀ fuel t, 2 * eb.length + 3 ≤ fuel →
    ∃ rvs, readElems fuel d items.length (eb ++ t) = some (rvs, t) ∧
      writeElems d rvs = some eb ∧
      rvs.length = items.length ∧
      itemsOk (normTag d) rvs = true ∧
      (d = 7 → ∀ rv ∈ rvs, ∃ its, rv = PyVal.list (some 1) its) ∧
      (d = 11 → ∀ rv ∈ rvs, ∃ its, rv = PyVal.list (some 3) its) ∧
      (d = 9 → listKinds rvs = listKinds items) ∧
      ((∀ v ∈ items, wireStable d v = true) → rvs = items)

def DictConc (entries : DictPairs) (pb : List Nat) : Prop :=
  ∀ fuel t acc, 2 * pb.length ≤ fuel →
    (∀ e ∈ entries, pairsFind acc e.1 = none) →
    ∃ res, readDictLoop fuel acc (pb ++ t) = some (acc ++ res, t) ∧
      writeDictPayload res = some pb ∧
      res.map (fun e => e.1) = entries.map (fun e => e.1) ∧
      entriesOk res = true ∧
      (stableEntries entries = true → res = entries)

def SaveConc (kd : Int) (name : PyStr) (v : PyVal) (B : List Nat) :
    Prop :=
  ∀ fuel t, 2 * B.length ≤ fuel →
    ∃ rv, readerLoad fuel (B ++ t) = some (some (kd, name, rv), t) ∧
      writerSave kd name rv = some B ∧
      valOk kd rv = true ∧
      (stableVal kd v = true → rv = v)

def PSave (μ : Nat) : Prop :=
  ∀ kd name v B, 4 * sizeOf v + 3 ≤ μ → kd ∈ VALID_TAGS →
    valOk kd v = true → writerSave kd name v = some B →
    SaveConc kd name v B

def PDisp (μ : Nat) : Prop :=
  ∀ k v pb, 4 * sizeOf v + 2 ≤ μ → 1 ≤ k → k ≤ 11 →
    wireOk k v = true → writeDispatch k v = some pb → DispConc k v pb

def PList (μ : Nat) : Prop :=
  ∀ lk items pb, 4 * sizeOf items + 1 ≤ μ →
    valOk 9 (PyVal.list lk items) = true →
    writeListPayload lk items = some pb → ListConc lk items pb

def PElems (μ : Nat) : Prop :=
  ∀ d items eb, 4 * sizeOf items ≤ μ → 1 ≤ d → d ≤ 11 →
    (∀ v ∈ items, wireOk d v = true) → writeElems d items = some eb →
    ElemsConc d items eb

def PDict (μ : Nat) : Prop :=
  ∀ entries pb, 4 * sizeOf entries + 1 ≤ μ →
    (entries.map (fun e => e.1)).Nodup → entriesOk entries = true →
    writeDictPayload entries = some pb → DictConc entries pb

def MasterAll (μ : Nat) : Prop :=
  PSave μ ∧ PDisp μ ∧ PList μ ∧ PElems μ ∧ PDict μ

/-- The load of a populated slot stays within the slot's sectors: the
stored size word plus the five header octets fit in `length` sectors. -/
def slotSizeOk (s : AnvilState) (k : Nat) : Prop :=
  (s.toc.getD k default).length ≠ 0 →
    5 + ((toSigned 4 (beVal (readBytesAt s.file
        ((s.toc.getD k default).offset * 4096) 4))) - 1).toNat ≤
      (s.toc.getD k default).length * 4096

/-- The invariant carried along a store trace: sector disjointness, the
reference slot map, and the per-slot read windows. -/
def TraceInv (V : Type) (dec : List Nat → Option V) (M : Nat → Option V)
    (s : AnvilState) : Prop :=
  DisjointInv s ∧
  (∀ k, k < 1024 → loadChunk dec s k = M k) ∧
  (∀ k, k < 1024 → slotSizeOk s k)

/-! ## Theorems -/

/-! ### Basic lemmas on the octet-level primitives -/

/-- `bleInt` is the order on `Int`. -/
theorem bleInt_eq_true (a b : Int) : bleInt a b = true ↔ a ≤ b := by
  cases a <;> cases b <;> simp [bleInt, Nat.ble_eq, Int.negSucc_eq] <;> omega

/-- Success and shape of `packSigned` inside the representable range. -/
theorem packSigned_of_range (k : Nat) (v : Int)
    (h1 : -((2 ^ (8 * k - 1) : Nat) : Int) ≤ v)
    (h2 : v < ((2 ^ (8 * k - 1) : Nat) : Int)) :
    packSigned k v = some (beBytes k (ofSigned k v)) := by
  unfold packSigned
  rw [if_pos]
  rw [Bool.and_eq_true, bleInt_eq_true, bleInt_eq_true]
  omega

/-- A successful `packSigned` means the value was in range and the
octets are the two's-complement image. -/
theorem packSigned_eq_some (k : Nat) (v : Int) (out : List Nat)
    (h : packSigned k v = some out) :
    -((2 ^ (8 * k - 1) : Nat) : Int) ≤ v ∧
    v < ((2 ^ (8 * k - 1) : Nat) : Int) ∧
    out = beBytes k (ofSigned k v) := by
  unfold packSigned at h
  by_cases hc : (bleInt (-((2 ^ (8 * k - 1) : Nat) : Int)) v &&
      bleInt (v + 1) ((2 ^ (8 * k - 1) : Nat) : Int)) = true
  · rw [if_pos hc] at h
    rw [Bool.and_eq_true, bleInt_eq_true, bleInt_eq_true] at hc
    cases h
    exact ⟨by omega, by omega, rfl⟩
  · rw [if_neg hc] at h
    cases h

/-- `beBytes` always emits `k` octets. -/
theorem beBytes_length (k n : Nat) : (beBytes k n).length = k := by
  induction k generalizing n with
  | zero => rfl
  | succ m ih => simp [beBytes, ih]

theorem beVal_beBytes_aux (k n a : Nat) :
    (beBytes k n).foldl (fun acc b => acc * 256 + b) a =
      a * 256 ^ k + n % 256 ^ k := by
  induction k generalizing n a with
  | zero => simp [beBytes, Nat.mod_one]
  | succ m ih =>
    rw [beBytes, List.foldl_cons, ih]
    have h : n % 256 ^ (m + 1) = (n / 256 ^ m % 256) * 256 ^ m + n % 256 ^ m := by
      rw [pow_succ, Nat.mod_mul]
      ring
    rw [h]
    ring

/-- The big-endian value of the octets of `n`. -/
theorem beVal_beBytes (k n : Nat) : beVal (beBytes k n) = n % 256 ^ k := by
  have h := beVal_beBytes_aux k n 0
  simpa [beVal] using h

/-- `256 ^ k` as a power of two. -/
theorem pow256 (k : Nat) : (256 : Nat) ^ k = 2 ^ (8 * k) := by
  rw [pow_mul]
  norm_num

/-- Two's-complement roundtrip inside the representable range. -/
theorem toSigned_ofSigned (k : Nat) (v : Int) (hk : 1 ≤ k)
    (h1 : -((2 ^ (8 * k - 1) : Nat) : Int) ≤ v)
    (h2 : v < ((2 ^ (8 * k - 1) : Nat) : Int)) :
    toSigned k (ofSigned k v) = v := by
  have hQP : (2 : Nat) ^ (8 * k) = 2 ^ (8 * k - 1) * 2 := by
    rw [← pow_succ]
    congr 1
    omega
  have hPpos : 0 < (2 : Nat) ^ (8 * k - 1) := Nat.pos_pow_of_pos _ (by norm_num)
  have hemod : v % ((2 ^ (8 * k) : Nat) : Int) = v ∨
      v % ((2 ^ (8 * k) : Nat) : Int) = v + ((2 ^ (8 * k) : Nat) : Int) := by
    rcases le_or_lt 0 v with hv | hv
    · left
      apply Int.emod_eq_of_lt hv
      omega
    · right
      have h1' : (v + ((2 ^ (8 * k) : Nat) : Int)) %
          ((2 ^ (8 * k) : Nat) : Int) = v % ((2 ^ (8 * k) : Nat) : Int) := by
        simpa using @Int.add_mul_emod_self_left v ((2 ^ (8 * k) : Nat) : Int) 1
      rw [← h1']
      apply Int.emod_eq_of_lt
      · omega
      · omega
  have hcast : ((2 : Int) ^ (8 * k)) = ((2 ^ (8 * k) : Nat) : Int) := by
    push_cast
    ring
  unfold toSigned ofSigned
  rcases hemod with h | h <;> rw [h] <;> split_ifs with hc <;> omega

/-- `ofSigned` stays below `256 ^ k`. -/
theorem ofSigned_lt (k : Nat) (v : Int) : ofSigned k v < 256 ^ k := by
  unfold ofSigned
  rw [pow256]
  have hQpos : (0 : Int) < ((2 ^ (8 * k) : Nat) : Int) := by
    exact_mod_cast Nat.pos_pow_of_pos _ (by norm_num)
  have h := Int.emod_lt_of_pos v hQpos
  have h0 := Int.emod_nonneg v (by omega :
    ((2 ^ (8 * k) : Nat) : Int) ≠ 0)
  omega

/-- `readExact` on a flow starting with the wanted octets. -/
theorem readExact_append (k : Nat) (bs t : List Nat) (h : bs.length = k) :
    readExact k (bs ++ t) = some (bs, t) := by
  unfold readExact
  rw [if_pos]
  · subst h
    rw [List.take_left, List.drop_left]
  · rw [List.length_append]
    omega

/-- Reading back a packed signed integer consumes exactly its octets and
restores the value (`k ∈ {1, 2, 4, 8}` in the codec). -/
theorem read_packSigned (k : Nat) (v : Int) (bs t : List Nat) (hk : 1 ≤ k)
    (h : packSigned k v = some bs) :
    bs.length = k ∧
    readExact k (bs ++ t) = some (bs, t) ∧
    toSigned k (beVal bs) = v := by
  obtain ⟨h1, h2, h3⟩ := packSigned_eq_some k v bs h
  have hlen : bs.length = k := by rw [h3, beBytes_length]
  refine ⟨hlen, readExact_append k bs t hlen, ?_⟩
  rw [h3, beVal_beBytes, Nat.mod_eq_of_lt (ofSigned_lt k v)]
  exact toSigned_ofSigned k v hk h1 h2

/-- `read_byte` after a packed octet. -/
theorem read_byte_pack (v : Int) (bs t : List Nat)
    (h : packSigned 1 v = some bs) :
    read_byte (bs ++ t) = some (v, t) := by
  obtain ⟨h1, h2, h3⟩ := read_packSigned 1 v bs t (by norm_num) h
  unfold read_byte
  rw [h2]
  simp [h3]

theorem read_short_pack (v : Int) (bs t : List Nat)
    (h : packSigned 2 v = some bs) :
    read_short (bs ++ t) = some (v, t) := by
  obtain ⟨h1, h2, h3⟩ := read_packSigned 2 v bs t (by norm_num) h
  unfold read_short
  rw [h2]
  simp [h3]

theorem read_int_pack (v : Int) (bs t : List Nat)
    (h : packSigned 4 v = some bs) :
    read_int (bs ++ t) = some (v, t) := by
  obtain ⟨h1, h2, h3⟩ := read_packSigned 4 v bs t (by norm_num) h
  unfold read_int
  rw [h2]
  simp [h3]

theorem read_long_pack (v : Int) (bs t : List Nat)
    (h : packSigned 8 v = some bs) :
    read_long (bs ++ t) = some (v, t) := by
  obtain ⟨h1, h2, h3⟩ := read_packSigned 8 v bs t (by norm_num) h
  unfold read_long
  rw [h2]
  simp [h3]

/-- `read_string` after `write_string`. -/
theorem read_write_string (s : PyStr) (bs t : List Nat)
    (h : write_string s = some bs) :
    read_string (bs ++ t) = some (s, t) ∧
    bs.length = 2 + s.length ∧ utf8Valid s = true ∧ s.length < 2 ^ 15 := by
  unfold write_string at h
  by_cases hu : utf8Valid s = true
  · rw [if_pos hu] at h
    simp only [Option.bind_eq_bind] at h
    rcases hlb : packSigned 2 (s.length : Int) with _ | lb
    · rw [hlb] at h
      simp at h
    · rw [hlb] at h
      have hbs : bs = lb ++ s := by
        simpa using h.symm
      obtain ⟨hr1, hr2, hr3⟩ := packSigned_eq_some 2 _ lb hlb
      have hlen15 : s.length < 2 ^ 15 := by
        have : ((2 ^ (8 * 2 - 1) : Nat) : Int) = ((2 ^ 15 : Nat) : Int) := by
          norm_num
      -- length bound from the packed range
        omega
      have hlb2 := read_short_pack _ lb (s ++ t) hlb
      constructor
      · unfold read_string
        rw [hbs, List.append_assoc, hlb2]
        simp only [Option.bind_eq_bind, Option.some_bind]
        have hnn : ¬ ((s.length : Int) < 0) := by omega
        rw [if_neg hnn]
        have htn : (s.length : Int).toNat = s.length := by omega
        rw [htn]
        have hmin : min s.length (s ++ t).length = s.length := by
          rw [List.length_append]
          omega
        rw [hmin, List.take_left, List.drop_left, if_pos hu]
        rfl
      · exact ⟨by rw [hbs, List.length_append]; have := hr3 ▸ beBytes_length 2 (ofSigned 2 (s.length : Int)); omega, hu, hlen15⟩
  · rw [if_neg hu] at h
    exact Option.noConfusion h

/-- Round-to-nearest-even of an exact multiple. -/
theorem rne_mul_pow (x d : Nat) (hd : 1 ≤ d) : rne (x * 2 ^ d) d = x := by
  unfold rne
  have hpos : 0 < (2 : Nat) ^ d := Nat.pos_pow_of_pos _ (by norm_num)
  have h1 : x * 2 ^ d % 2 ^ d = 0 := Nat.mul_mod_left x (2 ^ d)
  have h2 : x * 2 ^ d / 2 ^ d = x := Nat.mul_div_cancel x hpos
  have h3 : 0 < (2 : Nat) ^ (d - 1) := Nat.pos_pow_of_pos _ (by norm_num)
  rw [h1, h2, if_neg (by omega), if_neg (by omega)]

/-- Field extraction from a packed binary64 pattern. -/
theorem f64_fields (s e m : Nat) (hs : s < 2) (he : e < 2 ^ 11)
    (hm : m < 2 ^ 52) :
    (s * 2 ^ 63 + e * 2 ^ 52 + m) / 2 ^ 63 % 2 = s ∧
    (s * 2 ^ 63 + e * 2 ^ 52 + m) / 2 ^ 52 % 2 ^ 11 = e ∧
    (s * 2 ^ 63 + e * 2 ^ 52 + m) % 2 ^ 52 = m := by
  refine ⟨by omega, by omega, by omega⟩

/-- Narrowing after exact widening restores the binary32 pattern. -/
theorem f64_f32_roundtrip (b : Nat) (hb : b < 2 ^ 32) :
    f64ToF32bits (f32ToF64bits b) = some b := by
  unfold f32ToF64bits
  dsimp only
  split_ifs with he hez hmz
  · -- e = 255 : infinity / NaN
    have hf := f64_fields (b / 2 ^ 31 % 2) 2047 (b % 2 ^ 23 * 2 ^ 29)
      (by omega) (by omega) (by omega)
    unfold f64ToF32bits
    dsimp only
    rw [hf.1, hf.2.1, hf.2.2]
    split_ifs with h1 h2 h3 <;>
      first
      | contradiction
      | (exfalso; omega)
      | (rw [Option.some.injEq]; omega)
  · -- e = 0, m = 0 : signed zero
    have hf := f64_fields (b / 2 ^ 31 % 2) 0 0 (by omega) (by omega)
      (by omega)
    have hz : b / 2 ^ 31 % 2 * 2 ^ 63 =
        b / 2 ^ 31 % 2 * 2 ^ 63 + 0 * 2 ^ 52 + 0 := by omega
    unfold f64ToF32bits
    dsimp only
    rw [hz, hf.1, hf.2.1, hf.2.2]
    split_ifs with h1 h2 h3 <;>
      first
      | contradiction
      | (exfalso; omega)
      | (rw [Option.some.injEq]; omega)
  · -- e = 0, m ≠ 0 : subnormal
    have hm1 : 1 ≤ b % 2 ^ 23 := Nat.one_le_iff_ne_zero.mpr hmz
    have ht1 : 2 ^ Nat.log 2 (b % 2 ^ 23) ≤ b % 2 ^ 23 :=
      Nat.pow_log_le_self 2 (by omega)
    have ht2 : b % 2 ^ 23 < 2 ^ (Nat.log 2 (b % 2 ^ 23) + 1) :=
      Nat.lt_pow_succ_log_self (by norm_num) _
    have ht3 : Nat.log 2 (b % 2 ^ 23) < 23 :=
      Nat.log_lt_of_lt_pow (by omega) (Nat.mod_lt _ (by norm_num))
    have hTU : 2 ^ Nat.log 2 (b % 2 ^ 23) *
        2 ^ (52 - Nat.log 2 (b % 2 ^ 23)) = 2 ^ 52 := by
      rw [← pow_add]
      congr 1
      omega
    have hXlt : (b % 2 ^ 23 - 2 ^ Nat.log 2 (b % 2 ^ 23)) *
        2 ^ (52 - Nat.log 2 (b % 2 ^ 23)) < 2 ^ 52 := by
      rw [← hTU]
      exact (Nat.mul_lt_mul_right
        (Nat.pos_pow_of_pos _ (by norm_num))).mpr (by omega)
    have hmul : (b % 2 ^ 23) * 2 ^ (52 - Nat.log 2 (b % 2 ^ 23)) =
        2 ^ 52 + (b % 2 ^ 23 - 2 ^ Nat.log 2 (b % 2 ^ 23)) *
          2 ^ (52 - Nat.log 2 (b % 2 ^ 23)) := by
      rw [Nat.sub_mul, ← hTU]
      have hle : 2 ^ Nat.log 2 (b % 2 ^ 23) *
          2 ^ (52 - Nat.log 2 (b % 2 ^ 23)) ≤
          (b % 2 ^ 23) * 2 ^ (52 - Nat.log 2 (b % 2 ^ 23)) :=
        Nat.mul_le_mul_right _ ht1
      omega
    have hq : rne (2 ^ 52 +
        (b % 2 ^ 23 - 2 ^ Nat.log 2 (b % 2 ^ 23)) *
          2 ^ (52 - Nat.log 2 (b % 2 ^ 23)))
        (52 - Nat.log 2 (b % 2 ^ 23)) = b % 2 ^ 23 := by
      rw [← hmul]
      exact rne_mul_pow _ _ (by omega)
    have hf := f64_fields (b / 2 ^ 31 % 2) (874 + Nat.log 2 (b % 2 ^ 23))
      ((b % 2 ^ 23 - 2 ^ Nat.log 2 (b % 2 ^ 23)) *
        2 ^ (52 - Nat.log 2 (b % 2 ^ 23)))
      (by omega) (by omega) hXlt
    unfold f64ToF32bits
    dsimp only
    rw [hf.1, hf.2.1, hf.2.2]
    rw [show (926 : Nat) - (874 + Nat.log 2 (b % 2 ^ 23)) =
        52 - Nat.log 2 (b % 2 ^ 23) from by omega]
    rw [hq]
    split_ifs with h1 h2 h3 <;>
      first
      | contradiction
      | (exfalso; omega)
      | (rw [Option.some.injEq]; omega)
  · -- normal numbers
    have hf := f64_fields (b / 2 ^ 31 % 2) (b / 2 ^ 23 % 2 ^ 8 + 896)
      (b % 2 ^ 23 * 2 ^ 29) (by omega) (by omega) (by omega)
    have hq : rne (2 ^ 52 + b % 2 ^ 23 * 2 ^ 29) 29 =
        2 ^ 23 + b % 2 ^ 23 := by
      have h : 2 ^ 52 + b % 2 ^ 23 * 2 ^ 29 =
          (2 ^ 23 + b % 2 ^ 23) * 2 ^ 29 := by ring
      rw [h]
      exact rne_mul_pow _ _ (by norm_num)
    unfold f64ToF32bits
    dsimp only
    rw [hf.1, hf.2.1, hf.2.2, hq]
    split_ifs with h1 h2 h3 <;>
      first
      | contradiction
      | (exfalso; omega)
      | (rw [Option.some.injEq]; omega)

/-- `rne` overshoots the truncated quotient by at most one. -/
theorem rne_le (S d : Nat) : rne S d ≤ S / 2 ^ d + 1 := by
  unfold rne
  dsimp only
  split_ifs <;> omega

/-- The narrowed pattern fits in 32 bits. -/
theorem f64ToF32bits_lt (bits c : Nat) (h : f64ToF32bits bits = some c) :
    c < 2 ^ 32 := by
  unfold f64ToF32bits at h
  dsimp only at h
  have hs : bits / 2 ^ 63 % 2 < 2 := Nat.mod_lt _ (by norm_num)
  have hm : bits % 2 ^ 52 < 2 ^ 52 := Nat.mod_lt _ (by norm_num)
  have he : bits / 2 ^ 52 % 2 ^ 11 < 2 ^ 11 := Nat.mod_lt _ (by norm_num)
  split_ifs at h with h1 h2 h3 h4 h5 h6
  all_goals try exact Option.noConfusion h
  all_goals replace h := Option.some_inj.mp h
  · omega
  · omega
  · omega
  · omega
  · have hq := rne_le (2 ^ 52 + bits % 2 ^ 52) 29
    omega
  · have hd : (30 : Nat) ≤ 926 - bits / 2 ^ 52 % 2 ^ 11 := by omega
    have hpow : (2 : Nat) ^ 30 ≤ 2 ^ (926 - bits / 2 ^ 52 % 2 ^ 11) :=
      Nat.pow_le_pow_right (by norm_num) hd
    have hdiv : (2 ^ 52 + bits % 2 ^ 52) / 2 ^ (926 - bits / 2 ^ 52 % 2 ^ 11) ≤
        (2 ^ 52 + bits % 2 ^ 52) / 2 ^ 30 :=
      Nat.div_le_div_left hpow (by norm_num)
    have hq := rne_le (2 ^ 52 + bits % 2 ^ 52) (926 - bits / 2 ^ 52 % 2 ^ 11)
    omega

/-- Reading back a written float: the value widens the narrowed pattern,
re-writing restores the octets, and an exactly representable pattern is
restored verbatim. -/
theorem read_write_float (bits : Nat) (bs t : List Nat)
    (h : write_float_bits bits = some bs) :
    ∃ b32, f64ToF32bits bits = some b32 ∧ bs.length = 4 ∧
      read_float (bs ++ t) = some (f32ToF64bits b32, t) ∧
      write_float_bits (f32ToF64bits b32) = some bs ∧
      (isF32Exact bits = true → f32ToF64bits b32 = bits) := by
  unfold write_float_bits at h
  rcases hc : f64ToF32bits bits with _ | b32
  · rw [hc] at h
    exact Option.noConfusion h
  · rw [hc] at h
    have hbs : bs = beBytes 4 b32 := by simpa using h.symm
    have hlt := f64ToF32bits_lt bits b32 hc
    have hlen : bs.length = 4 := by rw [hbs, beBytes_length]
    have hval : beVal bs = b32 := by
      rw [hbs, beVal_beBytes, pow256]
      exact Nat.mod_eq_of_lt (by omega)
    have hv : beVal (beBytes 4 b32) = b32 := by
      rw [← hbs]
      exact hval
    refine ⟨b32, rfl, hlen, ?_, ?_, ?_⟩
    · unfold read_float
      rw [hbs, readExact_append 4 (beBytes 4 b32) t (beBytes_length 4 b32)]
      simp [hv]
    · unfold write_float_bits
      rw [f64_f32_roundtrip b32 hlt]
      simp [hbs]
    · intro hex
      unfold isF32Exact at hex
      rw [hc] at hex
      simpa using hex

/-- Reading back a written double restores the pattern verbatim. -/
theorem read_write_double (bits : Nat) (bs t : List Nat)
    (h : write_double_bits bits = some bs) :
    bs.length = 8 ∧ bits < 2 ^ 64 ∧
    read_double (bs ++ t) = some (bits, t) := by
  unfold write_double_bits at h
  by_cases hlt : bits < 2 ^ 64
  · rw [if_pos hlt] at h
    have hbs : bs = beBytes 8 bits := by simpa using h.symm
    have hlen : bs.length = 8 := by rw [hbs, beBytes_length]
    have hval : beVal bs = bits := by
      rw [hbs, beVal_beBytes, pow256]
      exact Nat.mod_eq_of_lt (by omega)
    have hv : beVal (beBytes 8 bits) = bits := by
      rw [← hbs]
      exact hval
    refine ⟨hlen, hlt, ?_⟩
    unfold read_double
    rw [hbs, readExact_append 8 (beBytes 8 bits) t (beBytes_length 8 bits)]
    simp [hv]
  · rw [if_neg hlt] at h
    exact Option.noConfusion h

/-! ### Basic lemmas on the value-model operations -/

/-- On an absent key, `pairsStore` appends the entry. -/
theorem pairsStore_of_find_none (d : DictPairs) (key : PyStr) (kd : Int)
    (v : PyVal) (h : pairsFind d key = none) :
    pairsStore d key kd v = d ++ [(key, kd, v)] := by
  induction d with
  | nil => rfl
  | cons e rest ih =>
    unfold pairsFind at h
    unfold pairsStore
    by_cases he : e.1 = key
    · simp [he] at h
    · simp only [if_neg he]
      simp only [if_neg he] at h
      rw [ih h]
      simp

/-- On a valid tag, `is_accepted` never raises. -/
theorem is_accepted_isSome (t : Int) (v : PyVal) (h : t ∈ VALID_TAGS) :
    ∃ b, is_accepted t v = some b := by
  fin_cases h <;> exact ⟨_, rfl⟩

/-- Claim C10: on an empty `List`, `set_kind` records any argument
whatsoever — `None`, END (0), the array tags 7 and 11, any integer —
without validation, unlike `Dict.set_kind`, which rejects 0, 7 and 11
with `ValueError` even on an absent key. -/
theorem c10_list_set_kind_unchecked :
    (∀ (newKind curKind : Option Int),
      listSetKind newKind curKind [] = .ok (newKind, [])) ∧
    (∀ key : PyStr,
      dictSetKind [] key 0 = .error .valueErr ∧
      dictSetKind [] key 7 = .error .valueErr ∧
      dictSetKind [] key 11 = .error .valueErr) :=
  ⟨fun _ _ => rfl, fun _ => ⟨rfl, rfl, rfl⟩⟩

/-- Claim C9: the kind discipline of the compound.  `set_kind` on an
absent key creates the entry with the kind's default value; on a present
key it fails (`KeyError`, the spec's `KindMismatch`) exactly when the
existing value does not satisfy the kind.  Item assignment on a present
key fails (`ValueError`) exactly when the new value does not satisfy the
declared kind; on an absent key it records the default kind of the
value, which is the largest compatible kind of each shape. -/
theorem c9_dict_kind_discipline :
    (∀ (d : DictPairs) (key : PyStr) (t : Int), t ∈ VALID_TAGS →
      pairsFind d key = none →
      dictSetKind d key t = .ok (d ++ [(key, t, default_value t)])) ∧
    (∀ (d : DictPairs) (key : PyStr) (t t₀ : Int) (v : PyVal),
      t ∈ VALID_TAGS → pairsFind d key = some (t₀, v) →
      ((dictSetKind d key t = .error .keyErr ↔ is_accepted t v = some false) ∧
       (is_accepted t v = some true →
         dictSetKind d key t = .ok (pairsStore d key t v)))) ∧
    (∀ (d : DictPairs) (key : PyStr) (t₀ : Int) (v w : PyVal),
      t₀ ∈ VALID_TAGS → pairsFind d key = some (t₀, v) →
      ((dictSetItem d key w = .error .valueErr ↔ is_accepted t₀ w = some false) ∧
       (is_accepted t₀ w = some true →
         dictSetItem d key w = .ok (pairsStore d key t₀ w)))) ∧
    (∀ (d : DictPairs) (key : PyStr) (w : PyVal),
      pairsFind d key = none →
      dictSetItem d key w = .ok (d ++ [(key, default_kind w, w)])) ∧
    (∀ n, default_kind (.int n) = TAG_LONG) ∧
    (∀ bits, default_kind (.float bits) = TAG_DOUBLE) ∧
    (∀ st, default_kind (.str st) = TAG_STRING) ∧
    (∀ lk items, default_kind (.list lk items) = TAG_LIST) ∧
    (∀ es, default_kind (.dict es) = TAG_COMPOUND) := by
  refine ⟨?_, ?_, ?_, ?_, fun _ => rfl, fun _ => rfl, fun _ => rfl,
          fun _ _ => rfl, fun _ => rfl⟩
  · intro d key t ht hfind
    unfold dictSetKind
    rw [if_neg (by simp [ht]), hfind, pairsStore_of_find_none d key _ _ hfind]
  · intro d key t t₀ v ht hfind
    unfold dictSetKind
    obtain ⟨b, hb⟩ := is_accepted_isSome t v ht
    rw [if_neg (by simp [ht])]
    cases b <;> refine ⟨by simp [hfind, hb], fun htrue => ?_⟩
    · rw [hb] at htrue; simp at htrue
    · simp [hfind, hb]
  · intro d key t₀ v w ht hfind
    unfold dictSetItem
    obtain ⟨b, hb⟩ := is_accepted_isSome t₀ w ht
    cases b <;> refine ⟨by simp [hfind, hb], fun htrue => ?_⟩
    · rw [hb] at htrue; simp at htrue
    · simp [hfind, hb]
  · intro d key w hfind
    unfold dictSetItem
    rw [hfind, pairsStore_of_find_none d key _ _ hfind]

/-- Witness for the claim C9 theorem at concrete inputs. -/
theorem c9_dict_kind_discipline_witness :
    ((3 : Int) ∈ VALID_TAGS ∧
     pairsFind [([97], 4, PyVal.int 7)] [98] = none ∧
     dictSetKind [([97], 4, PyVal.int 7)] [98] 3 =
       .ok [([97], 4, PyVal.int 7), ([98], 3, PyVal.int 0)]) ∧
    (pairsFind [([97], 4, PyVal.int 7)] [97] = some (4, PyVal.int 7) ∧
     (dictSetKind [([97], 4, PyVal.int 7)] [97] 8 = .error .keyErr ↔
        is_accepted 8 (PyVal.int 7) = some false)) := by
  refine ⟨⟨by decide, rfl, ?_⟩, rfl, ?_⟩
  · exact c9_dict_kind_discipline.1 [([97], 4, PyVal.int 7)] [98] 3 (by decide) rfl
  · exact (c9_dict_kind_discipline.2.1 [([97], 4, PyVal.int 7)] [97] 8 4
      (PyVal.int 7) (by decide) rfl).1

/-- Claim C6: on destruction, a path-opened store removes its file iff
every slot is empty; a store opened from a byte flow never unlinks. -/
theorem c6_unlink_on_empty (s : AnvilState) :
    delUnlinks s = true ↔ (s.path ≠ none ∧ ∀ m ∈ s.toc, m.length = 0) := by
  unfold delUnlinks
  cases hp : s.path with
  | none => simp [hp]
  | some p =>
    simp only [hp, ne_eq, reduceCtorEq, not_false_eq_true, true_and,
               Option.isNone_iff_eq_none, List.find?_eq_none, bne_iff_ne,
               ne_eq, Decidable.not_not]

/-! ### Claim C8: the list-of-list array promotion -/

/-- Claim C8, counterexample: a `LIST` of `LIST` whose single element is
an empty list of UNKNOWN kind — the deuce case of the claim — is
serialized with inner element tag `LIST` (9), not `BYTE_ARRAY` (7):
`at_least_one` stays false in `_save_list`, so no promotion happens. -/
theorem c8_counterexample :
    writeListPayload (some 9) [PyVal.list none []] =
      some [9, 0, 0, 0, 1, 0, 0, 0, 0, 0] ∧ (9 : Nat) ≠ 7 := by
  constructor
  · simp [writeListPayload, writeElems, writeDispatch, promoteInner,
          packSigned, ofSigned, beBytes, TAG_LIST, TAG_BYTE, TAG_INT]
    try decide
  · decide

/-- Extracting the kinds of a list of empty lists. -/
theorem mapM_kinds_of_empty_lists (ks : List (Option Int)) :
    ((ks.map (fun lk => PyVal.list lk [])).mapM (fun v =>
      match v with
      | .list lk _ => some lk
      | _ => none)) = some ks := by
  rw [← List.mapM'_eq_mapM]
  induction ks with
  | nil => rfl
  | cons k rest ih => simp [List.mapM', ih]

/-- `writeElems` succeeds on empty lists under the `BYTE_ARRAY` element
tag (each element is written as an empty byte array). -/
theorem writeElems_seven_empty (ks : List (Option Int)) :
    ∃ eb, writeElems 7 (ks.map (fun lk => PyVal.list lk [])) = some eb := by
  induction ks with
  | nil => exact ⟨[], by simp [writeElems]⟩
  | cons k rest ih =>
    obtain ⟨eb, heb⟩ := ih
    have hd : writeDispatch 7 (PyVal.list k []) = some [0, 0, 0, 0] := by
      simp [writeDispatch, write_byte_array, write_byte_seq, packSigned,
            ofSigned, beBytes]
      try rfl
    refine ⟨[0, 0, 0, 0] ++ eb, ?_⟩
    rw [List.map_cons]
    simp [writeElems, hd, heb]

/-- `writeElems` succeeds on empty lists under the `INT_ARRAY` element
tag (each element is written as an empty int array). -/
theorem writeElems_eleven_empty (ks : List (Option Int)) :
    ∃ eb, writeElems 11 (ks.map (fun lk => PyVal.list lk [])) = some eb := by
  induction ks with
  | nil => exact ⟨[], by simp [writeElems]⟩
  | cons k rest ih =>
    obtain ⟨eb, heb⟩ := ih
    have hd : writeDispatch 11 (PyVal.list k []) = some [0, 0, 0, 0] := by
      simp [writeDispatch, write_int_array, write_int_seq, packSigned,
            ofSigned, beBytes]
      try rfl
    refine ⟨[0, 0, 0, 0] ++ eb, ?_⟩
    rw [List.map_cons]
    simp [writeElems, hd, heb]

/-- `writeElems` succeeds under the `LIST` element tag on empty lists
whose kind is `UNKNOWN` or any valid declared kind (each element is
written as an empty list payload). -/
theorem writeElems_nine_valid (ks : List (Option Int))
    (hv : ∀ k ∈ ks, k = none ∨ ∃ t, k = some t ∧ t ∈ VALID_TAGS) :
    ∃ eb, writeElems 9 (ks.map (fun lk => PyVal.list lk [])) = some eb := by
  induction ks with
  | nil => exact ⟨[], by simp [writeElems]⟩
  | cons k rest ih =>
    obtain ⟨eb, heb⟩ := ih (fun x hx => hv x (List.mem_cons_of_mem _ hx))
    have hd : (writeDispatch 9 (PyVal.list k [])).isSome = true := by
      rcases hv k (List.mem_cons_self k rest) with hk | ⟨t, hk, ht⟩
      · subst hk
        simp [writeDispatch, writeListPayload, writeElems, packSigned,
              ofSigned, beBytes, TAG_LIST]
        try decide
      · subst hk
        fin_cases ht <;>
          (simp [writeDispatch, writeListPayload, writeElems, promoteInner,
                 packSigned, ofSigned, beBytes, TAG_LIST] ; try decide)
    obtain ⟨w, hw⟩ := Option.isSome_iff_exists.mp hd
    refine ⟨w ++ eb, ?_⟩
    rw [List.map_cons]
    simp [writeElems, hw, heb]

/-- Claim C8, amended: for a `LIST` whose declared inner kind is `LIST`
and all of whose elements are empty lists (the deuce case), the inner
element tag emitted on the wire is one of `7`, `11`, `9`; it is
`BYTE_ARRAY` (7) iff at least one inner list has declared kind `BYTE`
and every inner kind is `BYTE` or UNKNOWN; it is `INT_ARRAY` (11) iff at
least one inner kind is `INT` and every inner kind is `INT` or UNKNOWN;
and when every inner kind is UNKNOWN it is `LIST` (9) — not `7` as the
unamended claim states.  Inner kinds range, as the model invariant
requires, over UNKNOWN and the valid tags. -/
theorem c8_array_promotion (ks : List (Option Int))
    (hlen : ks.length < 2 ^ 31)
    (hvalid : ∀ k ∈ ks, k = none ∨ ∃ t, k = some t ∧ t ∈ VALID_TAGS) :
    ∃ tag bs,
      writeListPayload (some 9) (ks.map (fun lk => PyVal.list lk [])) =
        some (tag :: bs) ∧
      (tag = 7 ∨ tag = 11 ∨ tag = 9) ∧
      (tag = 7 ↔ ((some 1 : Option Int) ∈ ks ∧
        ∀ k ∈ ks, k = some 1 ∨ k = none)) ∧
      (tag = 11 ↔ ((some 3 : Option Int) ∈ ks ∧
        ∀ k ∈ ks, k = some 3 ∨ k = none)) ∧
      ((∀ k ∈ ks, k = none) → tag = 9) := by
  have hcount : packSigned 4 (ks.length : Int) =
      some (beBytes 4 (ofSigned 4 (ks.length : Int))) := by
    refine packSigned_of_range 4 _ ?_ ?_
    · exact le_trans (by norm_num) (Int.natCast_nonneg ks.length)
    · show (ks.length : Int) < ((2 ^ 31 : Nat) : Int)
      exact_mod_cast hlen
  have hk7 : packSigned 1 (7 : Int) = some [7] := by decide
  have hk9 : packSigned 1 (9 : Int) = some [9] := by decide
  have hk11 : packSigned 1 (11 : Int) = some [11] := by decide
  by_cases hN : ∀ k ∈ ks, k = none
  · -- every kind UNKNOWN: no promotion, inner tag LIST
    have hemp : (ks.filterMap id).isEmpty = true := by
      simp only [List.isEmpty_iff, List.filterMap_eq_nil_iff, id_eq]
      intro k hk
      rw [hN k hk]
    have hpromote : promoteInner (ks.map (fun lk => PyVal.list lk [])) =
        some 9 := by
      unfold promoteInner
      rw [mapM_kinds_of_empty_lists]
      simp [hemp]
    obtain ⟨eb, heb⟩ := writeElems_nine_valid ks hvalid
    refine ⟨9, beBytes 4 (ofSigned 4 (ks.length : Int)) ++ eb,
      by simp [writeListPayload, TAG_LIST, hpromote, hk9, hcount, heb],
      Or.inr (Or.inr rfl), ?_, ?_, fun _ => rfl⟩
    · constructor
      · intro h
        exact absurd h (by decide)
      · rintro ⟨h1, -⟩
        exact absurd (hN _ h1) (by decide)
    · constructor
      · intro h
        exact absurd h (by decide)
      · rintro ⟨h3, -⟩
        exact absurd (hN _ h3) (by decide)
  · by_cases hB : ∀ k ∈ ks, k = some 1 ∨ k = none
    · -- at least one BYTE kind, the rest UNKNOWN: promotion to BYTE_ARRAY
      push_neg at hN
      obtain ⟨k0, hk0mem, hk0⟩ := hN
      have h1mem : (some 1 : Option Int) ∈ ks := by
        rcases hB k0 hk0mem with h | h
        · exact h ▸ hk0mem
        · exact absurd h hk0
      have hne : (ks.filterMap id).isEmpty = false := by
        rw [List.isEmpty_eq_false_iff_exists_mem]
        exact ⟨1, List.mem_filterMap.mpr ⟨some 1, h1mem, rfl⟩⟩
      have hbyte : (ks.filterMap id).all (· = TAG_BYTE) = true := by
        simp only [List.all_eq_true, List.mem_filterMap, id_eq,
                   decide_eq_true_eq]
        rintro x ⟨k, hk, hkx⟩
        rcases hB k hk with h1 | h1 <;> subst h1
        · simp only [Option.some.injEq] at hkx
          simp [← hkx, TAG_BYTE]
        · simp at hkx
      have hpromote : promoteInner (ks.map (fun lk => PyVal.list lk [])) =
          some 7 := by
        unfold promoteInner
        rw [mapM_kinds_of_empty_lists]
        simp [hne, hbyte]
      obtain ⟨eb, heb⟩ := writeElems_seven_empty ks
      refine ⟨7, beBytes 4 (ofSigned 4 (ks.length : Int)) ++ eb,
        by simp [writeListPayload, TAG_LIST, hpromote, hk7, hcount, heb],
        Or.inl rfl, ⟨fun _ => ⟨h1mem, hB⟩, fun _ => rfl⟩, ?_,
        fun hall => absurd (hall _ h1mem) (by decide)⟩
      constructor
      · intro h
        exact absurd h (by decide)
      · rintro ⟨h3, -⟩
        rcases hB _ h3 with h | h
        · exact absurd h (by decide)
        · exact absurd h (by decide)
    · by_cases hI : ∀ k ∈ ks, k = some 3 ∨ k = none
      · -- at least one INT kind, the rest UNKNOWN: promotion to INT_ARRAY
        push_neg at hB
        obtain ⟨k0, hk0mem, hk01, hk02⟩ := hB
        have h3mem : (some 3 : Option Int) ∈ ks := by
          rcases hI k0 hk0mem with h | h
          · exact h ▸ hk0mem
          · exact absurd h hk02
        have hne : (ks.filterMap id).isEmpty = false := by
          rw [List.isEmpty_eq_false_iff_exists_mem]
          exact ⟨3, List.mem_filterMap.mpr ⟨some 3, h3mem, rfl⟩⟩
        have hnb : (ks.filterMap id).all (· = TAG_BYTE) = false := by
          cases hcase : (ks.filterMap id).all (· = TAG_BYTE) with
          | false => rfl
          | true =>
            exfalso
            have hall := hcase
            simp only [List.all_eq_true, List.mem_filterMap, id_eq,
                       decide_eq_true_eq] at hall
            have h31 := hall 3 ⟨some 3, h3mem, rfl⟩
            norm_num [TAG_BYTE] at h31
        have hint3 : (ks.filterMap id).all (· = TAG_INT) = true := by
          simp only [List.all_eq_true, List.mem_filterMap, id_eq,
                     decide_eq_true_eq]
          rintro x ⟨k, hk, hkx⟩
          rcases hI k hk with h1 | h1 <;> subst h1
          · simp only [Option.some.injEq] at hkx
            simp [← hkx, TAG_INT]
          · simp at hkx
        have hpromote : promoteInner (ks.map (fun lk => PyVal.list lk [])) =
            some 11 := by
          unfold promoteInner
          rw [mapM_kinds_of_empty_lists]
          simp [hne, hnb, hint3]
        obtain ⟨eb, heb⟩ := writeElems_eleven_empty ks
        refine ⟨11, beBytes 4 (ofSigned 4 (ks.length : Int)) ++ eb,
          by simp [writeListPayload, TAG_LIST, hpromote, hk11, hcount, heb],
          Or.inr (Or.inl rfl), ?_, ⟨fun _ => ⟨h3mem, hI⟩, fun _ => rfl⟩,
          fun hall => absurd (hall _ h3mem) (by decide)⟩
        constructor
        · intro h
          exact absurd h (by decide)
        · rintro ⟨-, hallB⟩
          exact absurd hallB (by
            intro hc
            rcases hc k0 hk0mem with h | h
            · exact hk01 h
            · exact hk02 h)
      · -- mixed declared kinds: no promotion, inner tag LIST
        push_neg at hB hI
        obtain ⟨kB, hkBmem, hkB1, hkB2⟩ := hB
        obtain ⟨kI, hkImem, hkI1, hkI2⟩ := hI
        obtain ⟨tB, htB⟩ := Option.ne_none_iff_exists'.mp hkB2
        obtain ⟨tI, htI⟩ := Option.ne_none_iff_exists'.mp hkI2
        have htB1 : tB ≠ 1 := by
          intro h
          apply hkB1
          rw [htB, h]
        have htI3 : tI ≠ 3 := by
          intro h
          apply hkI1
          rw [htI, h]
        have hne : (ks.filterMap id).isEmpty = false := by
          rw [List.isEmpty_eq_false_iff_exists_mem]
          exact ⟨tB, List.mem_filterMap.mpr ⟨kB, hkBmem, htB⟩⟩
        have hnb : (ks.filterMap id).all (· = TAG_BYTE) = false := by
          cases hcase : (ks.filterMap id).all (· = TAG_BYTE) with
          | false => rfl
          | true =>
            exfalso
            have hall := hcase
            simp only [List.all_eq_true, List.mem_filterMap, id_eq,
                       decide_eq_true_eq] at hall
            exact htB1 (hall tB ⟨kB, hkBmem, htB⟩)
        have hni : (ks.filterMap id).all (· = TAG_INT) = false := by
          cases hcase : (ks.filterMap id).all (· = TAG_INT) with
          | false => rfl
          | true =>
            exfalso
            have hall := hcase
            simp only [List.all_eq_true, List.mem_filterMap, id_eq,
                       decide_eq_true_eq] at hall
            exact htI3 (hall tI ⟨kI, hkImem, htI⟩)
        have hpromote : promoteInner (ks.map (fun lk => PyVal.list lk [])) =
            some 9 := by
          unfold promoteInner
          rw [mapM_kinds_of_empty_lists]
          simp [hne, hnb, hni]
        obtain ⟨eb, heb⟩ := writeElems_nine_valid ks hvalid
        refine ⟨9, beBytes 4 (ofSigned 4 (ks.length : Int)) ++ eb,
          by simp [writeListPayload, TAG_LIST, hpromote, hk9, hcount, heb],
          Or.inr (Or.inr rfl), ?_, ?_,
          fun hall => absurd (hall _ hkBmem) (by
            rw [htB]
            exact Option.noConfusion)⟩
        · constructor
          · intro h
            exact absurd h (by decide)
          · rintro ⟨-, hallB⟩
            rcases hallB kB hkBmem with h | h
            · exact absurd h hkB1
            · exact absurd h hkB2
        · constructor
          · intro h
            exact absurd h (by decide)
          · rintro ⟨-, hallI⟩
            rcases hallI kI hkImem with h | h
            · exact absurd h hkI1
            · exact absurd h hkI2

/-- Concrete instance of the amended C8 at a two-element deuce: one
`BYTE`-kinded empty inner list next to an UNKNOWN one; the emitted inner
tag satisfies the full characterization (here it is 7). -/
theorem c8_array_promotion_witness :
    ∃ tag bs,
      writeListPayload (some 9)
          (([some 1, none] : List (Option Int)).map
            (fun lk => PyVal.list lk [])) = some (tag :: bs) ∧
      (tag = 7 ∨ tag = 11 ∨ tag = 9) ∧
      (tag = 7 ↔ ((some 1 : Option Int) ∈ ([some 1, none] : List (Option Int)) ∧
        ∀ k ∈ ([some 1, none] : List (Option Int)), k = some 1 ∨ k = none)) ∧
      (tag = 11 ↔ ((some 3 : Option Int) ∈ ([some 1, none] : List (Option Int)) ∧
        ∀ k ∈ ([some 1, none] : List (Option Int)), k = some 3 ∨ k = none)) ∧
      ((∀ k ∈ ([some 1, none] : List (Option Int)), k = none) → tag = 9) :=
  c8_array_promotion [some 1, none] (by decide)
    (by
      intro k hk
      fin_cases hk
      · exact Or.inr ⟨1, rfl, by decide⟩
      · exact Or.inl rfl)

/-! ### Claims C7 and C4: the save path and the allocator -/

/-- Reading a slot just written. -/
theorem getD_set_self (l : List Metadata) (i : Nat) (a : Metadata)
    (h : i < l.length) : (l.set i a).getD i default = a := by
  rw [List.getD_eq_getElem?_getD, List.getElem?_set_self h]
  rfl

/-- Reading another slot after a write. -/
theorem getD_set_ne (l : List Metadata) (i j : Nat) (a : Metadata)
    (h : i ≠ j) : (l.set i a).getD j default = l.getD j default := by
  rw [List.getD_eq_getElem?_getD, List.getElem?_set_ne h,
      ← List.getD_eq_getElem?_getD]

/-- Claim C7: a save whose compressed payload plus its 5-octet header
needs more than 255 sectors fails with `ChunkTooLarge` (the failed
`assert` of the `length` setter) before the slot metadata or any file
octet is touched; only the slot's previous sectors have already been
freed. -/
theorem c7_chunk_too_large (V : Type) (enc : V → List Nat) (ord : List Nat)
    (now : Nat) (i : Nat) (v : V) (s : AnvilState)
    (hi : i < 1024) (hil : i < s.toc.length)
    (hbig : 255 * 4096 < (enc v).length + 5) :
    saveChunk enc ord now i v s =
      (some .chunkTooLarge,
       { s with free := releaseSectors s.free (s.toc.getD i default) }) ∧
    (saveChunk enc ord now i v s).2.toc = s.toc ∧
    (saveChunk enc ord now i v s).2.file = s.file ∧
    (saveChunk enc ord now i v s).2.nbSectors = s.nbSectors := by
  have hneeded : ¬ ((enc v).length + 5 + 4095) / 4096 < 256 := by
    rw [not_lt, Nat.le_div_iff_mul_le (by norm_num)]
    omega
  have hmain : saveChunk enc ord now i v s =
      (some .chunkTooLarge,
       { s with free := releaseSectors s.free (s.toc.getD i default) }) := by
    unfold saveChunk
    rw [if_neg (not_not_intro ⟨hi, hil⟩)]
    simp only [hneeded, not_false_eq_true, if_true, ite_not]
  exact ⟨hmain, by rw [hmain], by rw [hmain], by rw [hmain]⟩

/-- The length of the witness payload codec's output (kept symbolic, so
that nothing ever evaluates a large replication). -/
theorem encLen_length (n : Nat) : (encLen n).length = n := by
  simp [encLen]

/-- Witness for the claim C7 theorem at a concrete oversized payload. -/
theorem c7_chunk_too_large_witness :
    (0 : Nat) < 1024 ∧
    (0 : Nat) < (initAnvil none).toc.length ∧
    255 * 4096 < (encLen (255 * 4096)).length + 5 ∧
    (saveChunk encLen [] 1000 0 (255 * 4096)
        (initAnvil none)).2.toc = (initAnvil none).toc := by
  refine ⟨by decide, by simp [initAnvil], by rw [encLen_length]; omega, ?_⟩
  exact (c7_chunk_too_large Nat encLen [] 1000 0
    (255 * 4096) (initAnvil none) (by decide) (by simp [initAnvil])
    (by rw [encLen_length]; omega)).2.1

/-- The part of `saveChunk` after the allocator decision leaves the
table of contents, the free set and the sector count unchanged. -/
theorem saveWriteBack_keeps_toc (i : Nat) (m : Metadata)
    (bs : List Nat) (total : Nat) (pad : Bool) (s : AnvilState) :
    (saveWriteBack i m bs total pad s).2.toc = s.toc ∧
    (saveWriteBack i m bs total pad s).2.nbSectors = s.nbSectors ∧
    (saveWriteBack i m bs total pad s).2.free = s.free ∧
    (saveWriteBack i m bs total pad s).2.path = s.path :=
  ⟨rfl, rfl, rfl, rfl⟩

/-- Shape of `saveChunk` when the scan finds a run of free sectors: the
slot is placed there and the run is removed from the free set. -/
theorem saveChunk_reuse_eq (V : Type) (enc : V → List Nat) (ord : List Nat)
    (now : Nat) (i : Nat) (v : V) (s : AnvilState) (a : Nat)
    (hi : i < 1024) (hil : i < s.toc.length)
    (hneeded : ((enc v).length + 5 + 4095) / 4096 < 256)
    (hnow : now < 2 ^ 32)
    (hfind : ord.find? (fun x =>
        runIsFree (releaseSectors s.free (s.toc.getD i default)) x
          (((enc v).length + 5 + 4095) / 4096)) = some a)
    (ha : 2 ≤ a ∧ a < 2 ^ 24) :
    saveChunk enc ord now i v s =
      saveWriteBack i
        { offset := a, length := ((enc v).length + 5 + 4095) / 4096,
          timestamp := now }
        (enc v) ((enc v).length + 5) false
        { s with
          free := (releaseSectors s.free (s.toc.getD i default)).filter
            (fun x => ¬ (a ≤ x ∧ x < a + ((enc v).length + 5 + 4095) / 4096)),
          toc := s.toc.set i
            { offset := a, length := ((enc v).length + 5 + 4095) / 4096,
              timestamp := now } } := by
  unfold saveChunk
  rw [if_neg (not_not_intro ⟨hi, hil⟩)]
  dsimp only
  rw [if_neg (not_not_intro hneeded), if_neg (not_not_intro hnow), hfind]
  dsimp only
  rw [if_pos ha]

/-- Shape of `saveChunk` when no run of free sectors is found: the slot
is appended at the sector count, which grows. -/
theorem saveChunk_append_eq (V : Type) (enc : V → List Nat) (ord : List Nat)
    (now : Nat) (i : Nat) (v : V) (s : AnvilState)
    (hi : i < 1024) (hil : i < s.toc.length)
    (hneeded : ((enc v).length + 5 + 4095) / 4096 < 256)
    (hnow : now < 2 ^ 32)
    (hfind : ord.find? (fun x =>
        runIsFree (releaseSectors s.free (s.toc.getD i default)) x
          (((enc v).length + 5 + 4095) / 4096)) = none)
    (hnb : 2 ≤ s.nbSectors ∧ s.nbSectors < 2 ^ 24) :
    saveChunk enc ord now i v s =
      saveWriteBack i
        { offset := s.nbSectors,
          length := ((enc v).length + 5 + 4095) / 4096, timestamp := now }
        (enc v) ((enc v).length + 5) true
        { s with
          free := releaseSectors s.free (s.toc.getD i default),
          toc := s.toc.set i
            { offset := s.nbSectors,
              length := ((enc v).length + 5 + 4095) / 4096,
              timestamp := now },
          nbSectors := s.nbSectors + ((enc v).length + 5 + 4095) / 4096 } := by
  unfold saveChunk
  rw [if_neg (not_not_intro ⟨hi, hil⟩)]
  dsimp only
  rw [if_neg (not_not_intro hneeded), if_neg (not_not_intro hnow), hfind]
  dsimp only
  rw [if_pos hnb]

/-- Claim C4, amended: the allocator places the payload at the first
sector, in the free-set's (implementation-defined) iteration order, from
which `needed` contiguous sectors are all free — not necessarily the
lowest such sector.  When no enumerated sector qualifies it appends: the
offset becomes the current sector count, which grows by `needed`. -/
theorem c4_allocator_scan (V : Type) (enc : V → List Nat) (ord : List Nat)
    (now : Nat) (i : Nat) (v : V) (s : AnvilState)
    (hi : i < 1024) (hil : i < s.toc.length)
    (hneeded : ((enc v).length + 5 + 4095) / 4096 < 256)
    (hnow : now < 2 ^ 32) :
    (∀ a, (ord.find? (fun x =>
        runIsFree (releaseSectors s.free (s.toc.getD i default)) x
          (((enc v).length + 5 + 4095) / 4096))) = some a →
      (runIsFree (releaseSectors s.free (s.toc.getD i default)) a
          (((enc v).length + 5 + 4095) / 4096) = true ∧
       ∃ pre post, ord = pre ++ a :: post ∧
         ∀ b ∈ pre, runIsFree (releaseSectors s.free (s.toc.getD i default)) b
           (((enc v).length + 5 + 4095) / 4096) = false) ∧
      (2 ≤ a → a < 2 ^ 24 →
       ((saveChunk enc ord now i v s).2.toc.getD i default).offset = a ∧
       (saveChunk enc ord now i v s).2.nbSectors = s.nbSectors)) ∧
    ((∀ b ∈ ord, runIsFree (releaseSectors s.free (s.toc.getD i default)) b
        (((enc v).length + 5 + 4095) / 4096) = false) →
     2 ≤ s.nbSectors → s.nbSectors < 2 ^ 24 →
     ((saveChunk enc ord now i v s).2.toc.getD i default).offset = s.nbSectors ∧
     (saveChunk enc ord now i v s).2.nbSectors =
       s.nbSectors + ((enc v).length + 5 + 4095) / 4096) := by
  constructor
  · intro a hfind
    constructor
    · rcases List.find?_eq_some.mp hfind with ⟨hpa, pre, post, hsplit, hpre⟩
      refine ⟨hpa, pre, post, hsplit, fun b hb => ?_⟩
      have := hpre b hb
      simpa using this
    · intro ha2 ha24
      rw [saveChunk_reuse_eq V enc ord now i v s a hi hil hneeded hnow hfind
            ⟨ha2, ha24⟩]
      have hkeep := saveWriteBack_keeps_toc i
        { offset := a, length := ((enc v).length + 5 + 4095) / 4096,
          timestamp := now } (enc v) ((enc v).length + 5) false
        { s with
          free := (releaseSectors s.free (s.toc.getD i default)).filter
            (fun x => ¬ (a ≤ x ∧ x < a + ((enc v).length + 5 + 4095) / 4096)),
          toc := s.toc.set i
            { offset := a, length := ((enc v).length + 5 + 4095) / 4096,
              timestamp := now } }
      rw [hkeep.1, hkeep.2.1]
      exact ⟨by rw [getD_set_self _ _ _ hil], rfl⟩
  · intro hnone h2 h24
    have hfind : ord.find? (fun x =>
        runIsFree (releaseSectors s.free (s.toc.getD i default)) x
          (((enc v).length + 5 + 4095) / 4096)) = none := by
      rw [List.find?_eq_none]
      intro x hx
      simp only [Bool.not_eq_true]
      exact hnone x hx
    rw [saveChunk_append_eq V enc ord now i v s hi hil hneeded hnow hfind
          ⟨h2, h24⟩]
    have hkeep := saveWriteBack_keeps_toc i
      { offset := s.nbSectors,
        length := ((enc v).length + 5 + 4095) / 4096, timestamp := now }
      (enc v) ((enc v).length + 5) true
      { s with
        free := releaseSectors s.free (s.toc.getD i default),
        toc := s.toc.set i
          { offset := s.nbSectors,
            length := ((enc v).length + 5 + 4095) / 4096, timestamp := now },
        nbSectors := s.nbSectors + ((enc v).length + 5 + 4095) / 4096 }
    rw [hkeep.1, hkeep.2.1]
    exact ⟨by rw [getD_set_self _ _ _ hil], rfl⟩

/-- Claim C4, counterexample: with free sectors `{2, 9}` enumerated by
the Python set in the order `[9, 2]` (the CPython hash-table order for
this set) and a one-sector payload, `save_chunk` places the payload at
sector 9 although the lower sector 2 also qualifies.  The enumeration is
a permutation of the free set and the operation is valid. -/
theorem c4_counterexample :
    validOpB encLen
      { path := none, toc := List.replicate 1024 default, free := [9, 2],
        nbSectors := 10, file := fun _ => 0 }
      (.save 0 5 [9, 2] 1000) = true ∧
    (((saveChunk encLen [9, 2] 1000 0 5
        { path := none, toc := List.replicate 1024 default, free := [9, 2],
          nbSectors := 10, file := fun _ => 0 }).2.toc.getD 0 default).offset
       = 9) ∧
    runIsFree [9, 2] 2 1 = true ∧ (2 : Nat) < 9 := by
  refine ⟨by decide, ?_, by decide, by decide⟩
  decide

/-- Witness for the claim C4 theorem: the scan over the enumeration
`[9, 2]` finds sector 9 first and the slot is placed there. -/
theorem c4_allocator_scan_witness :
    (0 : Nat) < 1024 ∧
    (0 : Nat) < ({ path := none, toc := List.replicate 1024 default,
                   free := [9, 2], nbSectors := 10,
                   file := fun _ => 0 } : AnvilState).toc.length ∧
    ((encLen 5).length + 5 + 4095) / 4096 < 256 ∧
    (1000 : Nat) < 2 ^ 32 ∧
    ([9, 2] : List Nat).find? (fun x =>
        runIsFree (releaseSectors
            ({ path := none, toc := List.replicate 1024 default,
               free := [9, 2], nbSectors := 10,
               file := fun _ => 0 } : AnvilState).free
            (({ path := none, toc := List.replicate 1024 default,
                free := [9, 2], nbSectors := 10,
                file := fun _ => 0 } : AnvilState).toc.getD 0 default)) x
          (((encLen 5).length + 5 + 4095) / 4096)) = some 9 ∧
    ((saveChunk encLen [9, 2] 1000 0 5
        { path := none, toc := List.replicate 1024 default, free := [9, 2],
          nbSectors := 10,
          file := fun _ => 0 }).2.toc.getD 0 default).offset = 9 := by
  refine ⟨by decide, by decide, by decide, by decide, by decide, ?_⟩
  exact (((c4_allocator_scan Nat encLen [9, 2] 1000 0 5
      { path := none, toc := List.replicate 1024 default, free := [9, 2],
        nbSectors := 10, file := fun _ => 0 }
      (by decide) (by decide) (by decide) (by decide)).1 9
      (by decide)).2 (by decide) (by decide)).1

/-! ### Claim C5: sector disjointness -/

/-- Membership in the free set after releasing a slot's sectors. -/
theorem mem_releaseSectors (free : List Nat) (m : Metadata) (x : Nat) :
    x ∈ releaseSectors free m ↔
      x ∈ free ∨ (m.offset ≤ x ∧ x < m.offset + m.length) := by
  unfold releaseSectors
  simp only [List.mem_append, List.mem_filter, List.mem_map, List.mem_range,
             decide_not, Bool.not_eq_true', decide_eq_false_iff_not]
  constructor
  · rintro (h | ⟨⟨j, hj, rfl⟩, -⟩)
    · exact Or.inl h
    · exact Or.inr ⟨Nat.le_add_right _ _, by omega⟩
  · rintro (h | ⟨h1, h2⟩)
    · exact Or.inl h
    · by_cases hf : x ∈ free
      · exact Or.inl hf
      · exact Or.inr ⟨⟨x - m.offset, by omega, by omega⟩, hf⟩

/-- Every sector of a qualifying run is free. -/
theorem runIsFree_mem (free : List Nat) (a n x : Nat)
    (h : runIsFree free a n = true) (h1 : a ≤ x) (h2 : x < a + n) :
    x ∈ free := by
  unfold runIsFree at h
  rw [List.all_eq_true] at h
  have hx := h (x - a) (by rw [List.mem_range]; omega)
  have hax : a + (x - a) = x := by omega
  rw [hax] at hx
  exact of_decide_eq_true hx

/-- A sector released from slot `i` of a well-formed store lies in the
file body and in no other populated slot. -/
theorem releaseSectors_sound (s : AnvilState) (i x : Nat)
    (hs : DisjointInv s) (hi : i < 1024)
    (hx : x ∈ releaseSectors s.free (s.toc.getD i default)) :
    (2 ≤ x ∧ x < s.nbSectors) ∧
    ∀ k, k < 1024 → k ≠ i → slotFilled s k →
      ¬ inSlot (s.toc.getD k default) x := by
  obtain ⟨hlen, hnb, hbounds, hdisj, hfree⟩ := hs
  rcases (mem_releaseSectors _ _ _).mp hx with h | h
  · exact ⟨(hfree x h).1, fun k hk _ hf => (hfree x h).2 k hk hf⟩
  · have hfi : slotFilled s i := by
      unfold slotFilled
      intro h0
      omega
    obtain ⟨ho2, hoe, -⟩ := hbounds i hi hfi
    refine ⟨⟨by omega, by omega⟩, fun k hk hki hf hxk => ?_⟩
    exact hdisj i k hi hk (fun hik => hki hik.symm) hfi hf x ⟨h, hxk⟩

/-- `DisjointInv` depends only on the table of contents, the free set
and the sector count. -/
theorem disjointInv_congr (s t : AnvilState) (h1 : s.toc = t.toc)
    (h2 : s.free = t.free) (h3 : s.nbSectors = t.nbSectors) :
    DisjointInv s ↔ DisjointInv t := by
  unfold DisjointInv slotFilled
  rw [h1, h2, h3]

/-- The write-back phase does not disturb the invariant (it only writes
flow octets). -/
theorem disjointInv_saveWriteBack (i : Nat) (m : Metadata) (bs : List Nat)
    (total : Nat) (pad : Bool) (r : AnvilState) :
    DisjointInv (saveWriteBack i m bs total pad r).2 ↔ DisjointInv r :=
  disjointInv_congr _ _ (saveWriteBack_keeps_toc i m bs total pad r).1
    (saveWriteBack_keeps_toc i m bs total pad r).2.2.1
    (saveWriteBack_keeps_toc i m bs total pad r).2.1

/-- The reuse branch of the allocator preserves the invariant. -/
theorem disjointInv_reuse (s : AnvilState) (i a needed now : Nat)
    (hs : DisjointInv s) (hi : i < 1024)
    (hneed1 : 1 ≤ needed) (hneed : needed < 256)
    (hrun : runIsFree (releaseSectors s.free (s.toc.getD i default)) a
      needed = true) :
    DisjointInv
      { s with
        free := (releaseSectors s.free (s.toc.getD i default)).filter
          (fun x => ¬ (a ≤ x ∧ x < a + needed)),
        toc := s.toc.set i { offset := a, length := needed,
                             timestamp := now } } := by
  have hil : i < s.toc.length := by rw [hs.1]; exact hi
  have hrunx : ∀ x, a ≤ x → x < a + needed →
      (2 ≤ x ∧ x < s.nbSectors) ∧
      ∀ k, k < 1024 → k ≠ i → slotFilled s k →
        ¬ inSlot (s.toc.getD k default) x := fun x h1 h2 =>
    releaseSectors_sound s i x hs hi (runIsFree_mem _ _ _ _ hrun h1 h2)
  obtain ⟨hlen, hnb, hbounds, hdisj, hfree⟩ := hs
  unfold DisjointInv slotFilled inSlot
  dsimp only
  refine ⟨by rw [List.length_set]; exact hlen, hnb, ?_, ?_, ?_⟩
  · intro k hk hfk
    by_cases hki : k = i
    · subst hki
      rw [getD_set_self _ _ _ hil] at hfk ⊢
      refine ⟨(hrunx a le_rfl (by omega)).1.1, ?_, hneed⟩
      have := (hrunx (a + needed - 1) (by omega) (by omega)).1.2
      dsimp only at this ⊢
      omega
    · rw [getD_set_ne _ _ _ _ (fun h => hki h.symm)] at hfk ⊢
      exact hbounds k hk hfk
  · intro j k hj hk hjk hfj hfk x hx
    by_cases hji : j = i
    · subst hji
      have hki : k ≠ j := fun h => hjk h.symm
      rw [getD_set_self _ _ _ hil] at hfj hx
      rw [getD_set_ne _ _ _ _ (fun h => hki h.symm)] at hfk hx
      exact (hrunx x hx.1.1 (by have := hx.1.2; dsimp only at this; omega)).2
        k hk hki hfk hx.2
    · rw [getD_set_ne _ _ _ _ (fun h => hji h.symm)] at hfj hx
      by_cases hki : k = i
      · subst hki
        rw [getD_set_self _ _ _ hil] at hfk hx
        exact (hrunx x hx.2.1 (by have := hx.2.2; dsimp only at this; omega)).2
          j hj hji hfj hx.1
      · rw [getD_set_ne _ _ _ _ (fun h => hki h.symm)] at hfk hx
        exact hdisj j k hj hk hjk hfj hfk x hx
  · intro x hxmem
    rw [List.mem_filter] at hxmem
    obtain ⟨hx1, hx2⟩ := hxmem
    have hx2' : x < a ∨ a + needed ≤ x := by simpa using hx2
    have hsound := releaseSectors_sound s i x
      ⟨hlen, hnb, hbounds, hdisj, hfree⟩ hi hx1
    refine ⟨hsound.1, fun k hk hfk hxk => ?_⟩
    by_cases hki : k = i
    · subst hki
      rw [getD_set_self _ _ _ hil] at hxk
      dsimp only at hxk
      omega
    · rw [getD_set_ne _ _ _ _ (fun h => hki h.symm)] at hfk hxk
      exact hsound.2 k hk hki hfk hxk

/-- The append branch of the allocator preserves the invariant. -/
theorem disjointInv_append (s : AnvilState) (i needed now : Nat)
    (hs : DisjointInv s) (hi : i < 1024) (hneed : needed < 256) :
    DisjointInv
      { s with
        free := releaseSectors s.free (s.toc.getD i default),
        toc := s.toc.set i { offset := s.nbSectors, length := needed,
                             timestamp := now },
        nbSectors := s.nbSectors + needed } := by
  have hil : i < s.toc.length := by rw [hs.1]; exact hi
  have hsound := fun x hx => releaseSectors_sound s i x hs hi hx
  obtain ⟨hlen, hnb, hbounds, hdisj, hfree⟩ := hs
  unfold DisjointInv slotFilled inSlot
  dsimp only
  refine ⟨by rw [List.length_set]; exact hlen, by omega, ?_, ?_, ?_⟩
  · intro k hk hfk
    by_cases hki : k = i
    · subst hki
      rw [getD_set_self _ _ _ hil]
      exact ⟨hnb, le_rfl, hneed⟩
    · rw [getD_set_ne _ _ _ _ (fun h => hki h.symm)] at hfk ⊢
      obtain ⟨h1, h2, h3⟩ := hbounds k hk hfk
      exact ⟨h1, by omega, h3⟩
  · intro j k hj hk hjk hfj hfk x hx
    by_cases hji : j = i
    · subst hji
      have hki : k ≠ j := fun h => hjk h.symm
      rw [getD_set_self _ _ _ hil] at hfj hx
      rw [getD_set_ne _ _ _ _ (fun h => hki h.symm)] at hfk hx
      obtain ⟨-, h2, -⟩ := hbounds k hk hfk
      dsimp only at hx
      omega
    · rw [getD_set_ne _ _ _ _ (fun h => hji h.symm)] at hfj hx
      by_cases hki : k = i
      · subst hki
        rw [getD_set_self _ _ _ hil] at hfk hx
        obtain ⟨-, h2, -⟩ := hbounds j hj hfj
        dsimp only at hx
        omega
      · rw [getD_set_ne _ _ _ _ (fun h => hki h.symm)] at hfk hx
        exact hdisj j k hj hk hjk hfj hfk x hx
  · intro x hxmem
    have hs' := hsound x hxmem
    refine ⟨⟨hs'.1.1, by omega⟩, fun k hk hfk hxk => ?_⟩
    by_cases hki : k = i
    · subst hki
      rw [getD_set_self _ _ _ hil] at hxk
      dsimp only at hxk
      have := hs'.1.2
      omega
    · rw [getD_set_ne _ _ _ _ (fun h => hki h.symm)] at hfk hxk
      exact hs'.2 k hk hki hfk hxk

/-- Wiping a slot preserves the invariant. -/
theorem disjointInv_wipe (s : AnvilState) (i : Nat) (m1 : Metadata)
    (hs : DisjointInv s) (hi : i < 1024) (hm1 : m1.length = 0) :
    DisjointInv
      { s with
        free := releaseSectors s.free (s.toc.getD i default),
        toc := s.toc.set i m1 } := by
  have hil : i < s.toc.length := by rw [hs.1]; exact hi
  have hsound := fun x hx => releaseSectors_sound s i x hs hi hx
  obtain ⟨hlen, hnb, hbounds, hdisj, hfree⟩ := hs
  unfold DisjointInv slotFilled inSlot
  dsimp only
  refine ⟨by rw [List.length_set]; exact hlen, hnb, ?_, ?_, ?_⟩
  · intro k hk hfk
    by_cases hki : k = i
    · subst hki
      rw [getD_set_self _ _ _ hil] at hfk
      exact absurd hm1 hfk
    · rw [getD_set_ne _ _ _ _ (fun h => hki h.symm)] at hfk ⊢
      exact hbounds k hk hfk
  · intro j k hj hk hjk hfj hfk x hx
    by_cases hji : j = i
    · subst hji
      rw [getD_set_self _ _ _ hil] at hfj
      exact absurd hm1 hfj
    · by_cases hki : k = i
      · subst hki
        rw [getD_set_self _ _ _ hil] at hfk
        exact absurd hm1 hfk
      · rw [getD_set_ne _ _ _ _ (fun h => hji h.symm)] at hfj hx
        rw [getD_set_ne _ _ _ _ (fun h => hki h.symm)] at hfk hx
        exact hdisj j k hj hk hjk hfj hfk x hx
  · intro x hxmem
    have hs' := hsound x hxmem
    refine ⟨hs'.1, fun k hk hfk hxk => ?_⟩
    by_cases hki : k = i
    · subst hki
      rw [getD_set_self _ _ _ hil] at hfk
      exact absurd hm1 hfk
    · rw [getD_set_ne _ _ _ _ (fun h => hki h.symm)] at hfk hxk
      exact hs'.2 k hk hki hfk hxk

/-- Reading a slot of the fresh table of contents. -/
theorem getD_replicate_default (n k : Nat) :
    (List.replicate n (default : Metadata)).getD k default = default := by
  rw [List.getD_eq_getElem?_getD, List.getElem?_replicate]
  split <;> rfl

/-- The fresh store satisfies the invariant. -/
theorem disjointInv_init (path : Option PyStr) :
    DisjointInv (initAnvil path) := by
  unfold DisjointInv initAnvil slotFilled
  dsimp only
  refine ⟨by rw [List.length_replicate], by omega, ?_, ?_, ?_⟩
  · intro k hk hfk
    rw [getD_replicate_default] at hfk
    exact absurd rfl hfk
  · intro j k hj hk hjk hfj hfk x hx
    rw [getD_replicate_default] at hfj
    exact absurd rfl hfj
  · intro x hx
    exact absurd hx (List.not_mem_nil x)

/-- The shape of a wipe: either the state is untouched, or slot `i` is
zeroed and its sectors are released (the flow content aside). -/
theorem wipeChunk_shape (now i : Nat) (s : AnvilState) :
    (wipeChunk now i s).2 = s ∨
    ∃ m1 : Metadata, m1.length = 0 ∧
      (wipeChunk now i s).2.toc = s.toc.set i m1 ∧
      (wipeChunk now i s).2.free =
        releaseSectors s.free (s.toc.getD i default) ∧
      (wipeChunk now i s).2.nbSectors = s.nbSectors := by
  unfold wipeChunk
  by_cases hg : ¬ (i < 1024 ∧ i < s.toc.length)
  · rw [if_pos hg]
    exact Or.inl rfl
  · rw [if_neg hg]
    by_cases h0 : (s.toc.getD i default).length = 0
    · rw [if_pos h0]
      exact Or.inl rfl
    · rw [if_neg h0]
      by_cases hn : ¬ now < 2 ^ 32
      · rw [if_pos hn]
        exact Or.inr ⟨_, rfl, rfl, rfl, rfl⟩
      · rw [if_neg hn]
        dsimp only
        split
        · exact Or.inr ⟨_, rfl, rfl, rfl, rfl⟩
        · split
          · exact Or.inr ⟨_, rfl, rfl, rfl, rfl⟩
          · exact Or.inr ⟨_, rfl, rfl, rfl, rfl⟩

/-- Claim C5: the fresh store is well formed; every valid `save_chunk`
or `wipe_chunk` preserves well-formedness; and a well-formed store has
pairwise disjoint populated sector ranges, none of which contains the
header sectors 0 or 1. -/
theorem c5_sector_disjointness (V : Type) (enc : V → List Nat)
    (path : Option PyStr) (s : AnvilState) (op : AnvilOp V) :
    DisjointInv (initAnvil path) ∧
    (DisjointInv s → validOpB enc s op = true →
      DisjointInv (applyOp enc s op).2) ∧
    (DisjointInv s →
      (∀ j k, j < 1024 → k < 1024 → j ≠ k → slotFilled s j →
        slotFilled s k → ∀ x,
          ¬ (inSlot (s.toc.getD j default) x ∧
             inSlot (s.toc.getD k default) x)) ∧
      (∀ k, k < 1024 → slotFilled s k →
        ¬ inSlot (s.toc.getD k default) 0 ∧
        ¬ inSlot (s.toc.getD k default) 1)) := by
  refine ⟨disjointInv_init path, ?_, ?_⟩
  · intro hs hv
    cases op with
    | save i v ord now =>
      simp only [validOpB, Bool.and_eq_true, decide_eq_true_eq] at hv
      obtain ⟨⟨⟨⟨hi, hperm⟩, hsize⟩, hnow⟩, hroom⟩ := hv
      have hil : i < s.toc.length := by rw [hs.1]; exact hi
      have hneeded : ((enc v).length + 5 + 4095) / 4096 < 256 := by
        rw [Nat.div_lt_iff_lt_mul (by norm_num)]
        omega
      have hneed1 : 1 ≤ ((enc v).length + 5 + 4095) / 4096 := by
        rw [Nat.le_div_iff_mul_le (by norm_num)]
        omega
      have hnow32 : now < 2 ^ 32 := by
        have hp : (2 : Nat) ^ 31 < 2 ^ 32 := by norm_num
        omega
      have h23 : (2 : Nat) ^ 23 = 8388608 := by norm_num
      have h24 : (2 : Nat) ^ 24 = 16777216 := by norm_num
      show DisjointInv (saveChunk enc ord now i v s).2
      rcases hfind : ord.find? (fun x =>
          runIsFree (releaseSectors s.free (s.toc.getD i default)) x
            (((enc v).length + 5 + 4095) / 4096)) with _ | a
      · have h2nb : 2 ≤ s.nbSectors := hs.2.1
        have h24nb : s.nbSectors < 2 ^ 24 := by omega
        rw [saveChunk_append_eq V enc ord now i v s hi hil hneeded hnow32
              hfind ⟨h2nb, h24nb⟩]
        rw [disjointInv_saveWriteBack]
        exact disjointInv_append s i _ now hs hi hneeded
      · have hruntrue : runIsFree (releaseSectors s.free
            (s.toc.getD i default)) a (((enc v).length + 5 + 4095) / 4096)
            = true := by simpa using List.find?_some hfind
        have hmema : a ∈ releaseSectors s.free (s.toc.getD i default) :=
          runIsFree_mem _ _ _ _ hruntrue le_rfl (by omega)
        have hsound := releaseSectors_sound s i a hs hi hmema
        have ha : 2 ≤ a ∧ a < 2 ^ 24 := by
          have hnb24 : s.nbSectors < 2 ^ 24 := by omega
          exact ⟨hsound.1.1, by have := hsound.1.2; omega⟩
        rw [saveChunk_reuse_eq V enc ord now i v s a hi hil hneeded hnow32
              hfind ha]
        rw [disjointInv_saveWriteBack]
        exact disjointInv_reuse s i a _ now hs hi hneed1 hneeded hruntrue
    | wipe i now =>
      simp only [validOpB, Bool.and_eq_true, decide_eq_true_eq] at hv
      show DisjointInv (wipeChunk now i s).2
      rcases wipeChunk_shape now i s with h | ⟨m1, hm1, ht, hf, hn⟩
      · rw [h]; exact hs
      · have hcongr := disjointInv_congr (wipeChunk now i s).2
          { s with free := releaseSectors s.free (s.toc.getD i default),
                   toc := s.toc.set i m1 } ht hf hn
        rw [hcongr]
        exact disjointInv_wipe s i m1 hs hv.1 hm1
  · intro hs
    refine ⟨hs.2.2.2.1, fun k hk hf => ?_⟩
    obtain ⟨ho2, -, -⟩ := hs.2.2.1 k hk hf
    constructor
    · intro h
      unfold inSlot at h
      omega
    · intro h
      unfold inSlot at h
      omega

/-- Witness for the claim C5 theorem: one valid save on the fresh store
keeps it well formed. -/
theorem c5_sector_disjointness_witness :
    validOpB encLen (initAnvil none) (AnvilOp.save 0 5 [] 1000) = true ∧
    DisjointInv
      (applyOp encLen (initAnvil none) (AnvilOp.save 0 5 [] 1000)).2 := by
  refine ⟨by decide, ?_⟩
  exact (c5_sector_disjointness Nat encLen none (initAnvil none)
      (AnvilOp.save 0 5 [] 1000)).2.1
    (c5_sector_disjointness Nat encLen none (initAnvil none)
      (AnvilOp.save 0 5 [] 1000)).1
    (by decide)

/-! ### Shape lemmas for the writer -/

/-- Decomposition of a successful `writerSave`. -/
theorem writerSave_shape (kind : Int) (name : PyStr) (v : PyVal)
    (B : List Nat) (h : writerSave kind name v = some B) :
    ∃ rk tb nb pb, refineKind kind v = some rk ∧
      packSigned 1 rk = some tb ∧ write_string name = some nb ∧
      writeDispatch rk v = some pb ∧ B = tb ++ nb ++ pb ∧
      tb.length = 1 := by
  unfold writerSave at h
  simp only [Option.bind_eq_bind, Option.bind_eq_some, Option.pure_def,
             Option.some.injEq] at h
  obtain ⟨rk, hrk, tb, htb, nb, hnb, pb, hpb, hB⟩ := h
  have htb1 : tb.length = 1 := by
    obtain ⟨-, -, h3⟩ := packSigned_eq_some 1 rk tb htb
    rw [h3, beBytes_length]
  exact ⟨rk, tb, nb, pb, hrk, htb, hnb, hpb, hB.symm, htb1⟩

/-- Decomposition of a successful `writeListPayload`. -/
theorem writeListPayload_shape (lk : Option Int) (items : List PyVal)
    (pb : List Nat) (h : writeListPayload lk items = some pb) :
    ∃ d kb cb eb,
      (match lk with
       | none => some 0
       | some k => if k = TAG_LIST then promoteInner items else some k) =
        some d ∧
      packSigned 1 d = some kb ∧
      packSigned 4 (items.length : Int) = some cb ∧
      writeElems d items = some eb ∧
      pb = kb ++ cb ++ eb ∧ kb.length = 1 ∧ cb.length = 4 := by
  unfold writeListPayload at h
  rcases lk with _ | k
  · simp only [Option.bind_eq_bind, Option.bind_eq_some, Option.pure_def,
               Option.some.injEq] at h
    obtain ⟨d, hd, kb, hkb, cb, hcb, eb, heb, hpb⟩ := h
    subst hd
    refine ⟨0, kb, cb, eb, rfl, hkb, hcb, heb, hpb.symm, ?_, ?_⟩
    · obtain ⟨-, -, h3⟩ := packSigned_eq_some 1 0 kb hkb
      rw [h3, beBytes_length]
    · obtain ⟨-, -, h3⟩ := packSigned_eq_some 4 _ cb hcb
      rw [h3, beBytes_length]
  · dsimp only at h
    by_cases hk : k = TAG_LIST
    · rw [if_pos hk] at h
      simp only [Option.bind_eq_bind, Option.bind_eq_some, Option.pure_def,
                 Option.some.injEq] at h
      obtain ⟨d, hd, kb, hkb, cb, hcb, eb, heb, hpb⟩ := h
      refine ⟨d, kb, cb, eb,
        by show (if k = TAG_LIST then promoteInner items else some k) = some d
           rw [if_pos hk]; exact hd, hkb, hcb, heb,
        hpb.symm, ?_, ?_⟩
      · obtain ⟨-, -, h3⟩ := packSigned_eq_some 1 d kb hkb
        rw [h3, beBytes_length]
      · obtain ⟨-, -, h3⟩ := packSigned_eq_some 4 _ cb hcb
        rw [h3, beBytes_length]
    · rw [if_neg hk] at h
      simp only [Option.bind_eq_bind, Option.bind_eq_some, Option.pure_def,
                 Option.some.injEq] at h
      obtain ⟨d, hd, kb, hkb, cb, hcb, eb, heb, hpb⟩ := h
      subst hd
      refine ⟨k, kb, cb, eb,
        by show (if k = TAG_LIST then promoteInner items else some k) = some k
           rw [if_neg hk], hkb, hcb, heb, hpb.symm,
        ?_, ?_⟩
      · obtain ⟨-, -, h3⟩ := packSigned_eq_some 1 k kb hkb
        rw [h3, beBytes_length]
      · obtain ⟨-, -, h3⟩ := packSigned_eq_some 4 _ cb hcb
        rw [h3, beBytes_length]

/-- Decomposition of a successful `writeElems` on a cons. -/
theorem writeElems_cons (d : Int) (v : PyVal) (rest : List PyVal)
    (eb : List Nat) (h : writeElems d (v :: rest) = some eb) :
    ∃ b bs, writeDispatch d v = some b ∧ writeElems d rest = some bs ∧
      eb = b ++ bs := by
  rw [writeElems] at h
  simp only [Option.bind_eq_bind, Option.bind_eq_some, Option.pure_def,
             Option.some.injEq] at h
  obtain ⟨b, hb, bs, hbs, heb⟩ := h
  exact ⟨b, bs, hb, hbs, heb.symm⟩

/-- Decomposition of a successful `writeDictPayload` on a cons. -/
theorem writeDictPayload_cons (key : PyStr) (kd : Int) (v : PyVal)
    (rest : DictPairs) (db : List Nat)
    (h : writeDictPayload ((key, kd, v) :: rest) = some db) :
    ∃ b bs, writerSave kd key v = some b ∧
      writeDictPayload rest = some bs ∧ db = b ++ bs := by
  rw [writeDictPayload] at h
  simp only [Option.bind_eq_bind, Option.bind_eq_some, Option.pure_def,
             Option.some.injEq] at h
  obtain ⟨b, hb, bs, hbs, hdb⟩ := h
  exact ⟨b, bs, hb, hbs, hdb.symm⟩

/-- A dictionary payload is never empty (it ends with the END octet). -/
theorem writeDictPayload_pos (entries : DictPairs) (db : List Nat)
    (h : writeDictPayload entries = some db) : 1 ≤ db.length := by
  induction entries generalizing db with
  | nil =>
    rw [writeDictPayload] at h
    rw [← Option.some_inj.mp h]
    decide
  | cons e rest ih =>
    obtain ⟨key, kd, v⟩ := e
    obtain ⟨b, bs, hb, hbs, hdb⟩ := writeDictPayload_cons key kd v rest db h
    have := ih bs hbs
    rw [hdb, List.length_append]
    omega

/-- `valOk` only holds at a valid declared kind. -/
theorem valOk_tag (k : Int) (v : PyVal) (h : valOk k v = true) :
    k ∈ VALID_TAGS := by
  rw [valOk.eq_def] at h
  unfold VALID_TAGS
  split_ifs at h with h1 h2 h3 h4 h5 <;> simp only [List.mem_cons,
    List.mem_singleton, List.not_mem_nil, or_false] <;> first | omega | simp_all

/-- An invariant value satisfies its declared kind. -/
theorem valOk_accepted (k : Int) (v : PyVal) (h : valOk k v = true) :
    is_accepted k v = some true := by
  have hk := valOk_tag k v h
  fin_cases hk <;> rcases v with n | bits | s | ⟨lk, items⟩ | es <;>
    rw [valOk.eq_def] at h <;>
    first
    | exact absurd (show false = true from h) (by decide)
    | (simp only [is_accepted, TAG_BYTE, TAG_SHORT, TAG_INT, TAG_LONG,
         TAG_FLOAT, TAG_DOUBLE, TAG_STRING, TAG_LIST, TAG_COMPOUND]
       norm_num
       exact of_decide_eq_true h)
    | simp [is_accepted, TAG_BYTE, TAG_SHORT, TAG_INT, TAG_LONG, TAG_FLOAT,
        TAG_DOUBLE, TAG_STRING, TAG_LIST, TAG_COMPOUND]

/-! ### Ordered-dictionary helpers -/

/-- Lookup distributes over append when the prefix misses. -/
theorem pairsFind_append (d l : DictPairs) (key : PyStr)
    (h : pairsFind d key = none) :
    pairsFind (d ++ l) key = pairsFind l key := by
  induction d with
  | nil => rfl
  | cons e rest ih =>
    rw [pairsFind] at h
    rw [List.cons_append, pairsFind]
    by_cases he : e.1 = key
    · rw [if_pos he] at h
      exact Option.noConfusion h
    · rw [if_neg he] at h ⊢
      exact ih h

/-- Storing at a key that first occurs in the middle. -/
theorem pairsStore_middle (d l : DictPairs) (key : PyStr)
    (kd dv : _) (kd2 : Int) (v : PyVal)
    (h : pairsFind d key = none) :
    pairsStore (d ++ (key, kd, dv) :: l) key kd2 v =
      d ++ (key, kd2, v) :: l := by
  induction d with
  | nil =>
    rw [List.nil_append, pairsStore]
    simp
  | cons e rest ih =>
    rw [pairsFind] at h
    rw [List.cons_append, pairsStore]
    by_cases he : e.1 = key
    · rw [if_pos he] at h
      exact Option.noConfusion h
    · rw [if_neg he] at h ⊢
      rw [ih h]
      rfl

/-- `set_kind` on an absent key appends the default entry. -/
theorem dictSetKind_absent (d : DictPairs) (key : PyStr) (kd : Int)
    (h : pairsFind d key = none) (ht : kd ∈ VALID_TAGS) :
    dictSetKind d key kd = .ok (d ++ [(key, kd, default_value kd)]) := by
  unfold dictSetKind
  rw [if_neg (by simp [ht]), h, pairsStore_of_find_none d key _ _ h]

/-- Item assignment at a key whose single entry sits at the end. -/
theorem dictSetItem_at_end (d : DictPairs) (key : PyStr) (kd : Int)
    (dv v : PyVal) (h : pairsFind d key = none)
    (hacc : is_accepted kd v = some true) :
    dictSetItem (d ++ [(key, kd, dv)]) key v = .ok (d ++ [(key, kd, v)]) := by
  unfold dictSetItem
  have hfind : pairsFind (d ++ [(key, kd, dv)]) key = some (kd, dv) := by
    rw [pairsFind_append d _ key h, pairsFind]
    simp
  rw [hfind]
  dsimp only
  rw [hacc]
  dsimp only
  rw [pairsStore_middle d [] key kd dv kd v h]

/-! ### Scalar-array payload lemmas -/

/-- Unfolding lemma for the well-founded `itemsOk`. -/
theorem itemsOk_cons (k : Int) (v : PyVal) (rest : List PyVal) :
    itemsOk k (v :: rest) = (valOk k v && itemsOk k rest) := by
  rw [itemsOk.eq_def]

/-- `write_byte_seq` over in-range ints: one octet per item, restored by
the byte map of `readListByte`. -/
theorem write_byte_seq_spec (items : List PyVal) (bb : List Nat)
    (hok : itemsOk 1 items = true) (h : write_byte_seq items = some bb) :
    bb.length = items.length ∧
    bb.map (fun b => PyVal.int (toSigned 1 b)) = items := by
  induction items generalizing bb with
  | nil =>
    unfold write_byte_seq at h
    simp only [List.mapM_nil, Option.pure_def, Option.bind_eq_bind,
               Option.some_bind, Option.some.injEq] at h
    simp [h.symm]
  | cons v rest ih =>
    rw [itemsOk_cons, Bool.and_eq_true] at hok
    unfold write_byte_seq at h
    rw [List.mapM_cons] at h
    simp only [Option.bind_eq_bind, Option.bind_eq_some, Option.pure_def,
               Option.some.injEq] at h
    obtain ⟨c, ⟨a, ha, a1, ha1, hcons⟩, hbb⟩ := h
    rcases v with n | bits | s | ⟨lk, its⟩ | es <;> try exact Option.noConfusion ha
    have ha2 : packSigned 1 n = some a := ha
    have hrest : write_byte_seq rest = some a1.flatten := by
      unfold write_byte_seq
      rw [ha1]
      rfl
    obtain ⟨ih1, ih2⟩ := ih a1.flatten hok.2 hrest
    obtain ⟨hr1, hr2, hr3⟩ := packSigned_eq_some 1 n a ha2
    have ha1e : a = [ofSigned 1 n % 256] := by
      rw [hr3]
      simp [beBytes]
    have hlt := ofSigned_lt 1 n
    rw [pow_one] at hlt
    have hofs : ofSigned 1 n % 256 = ofSigned 1 n := by omega
    have hts : toSigned 1 (ofSigned 1 n) = n :=
      toSigned_ofSigned 1 n (by norm_num) hr1 hr2
    subst hcons
    subst hbb
    rw [List.flatten_cons, ha1e]
    constructor
    · simp [ih1]
    · simp only [List.singleton_append, List.map_cons]
      rw [hofs, hts, ih2]

/-- The valOk hypothesis of an int item list gives the int shape. -/
theorem itemsOk_int (k : Int) (items : List PyVal) (v : PyVal)
    (hk : k = 1 ∨ k = 2 ∨ k = 3 ∨ k = 4)
    (h : itemsOk k items = true) (hv : v ∈ items) :
    ∃ n, v = PyVal.int n := by
  induction items with
  | nil => cases hv
  | cons w rest ih =>
    rw [itemsOk_cons, Bool.and_eq_true] at h
    rcases List.mem_cons.mp hv with rfl | hv2
    · have h1 := h.1
      rw [valOk.eq_def, if_pos hk] at h1
      rcases v with n | bits | s | ⟨lk, its⟩ | es
      · exact ⟨n, rfl⟩
      all_goals exact absurd h1 (by simp)
    · exact ih h.2 hv2

/-! ### Structural unfolding of the reader -/

theorem readerLoad_succ (f : Nat) (s : List Nat) :
    readerLoad (f + 1) s = (do
      let (kind, s) ← read_byte s
      if kind = 0 then return (none, s)
      else do
        let (name, s) ← read_string s
        let (value, s) ← readDispatch f kind s
        return (some (normTag kind, name, value), s)) := rfl

theorem readDispatch_one (f : Nat) (s : List Nat) :
    readDispatch (f + 1) 1 s = (do
      let (v, s) ← read_byte s
      return (PyVal.int v, s)) := rfl

theorem readDispatch_two (f : Nat) (s : List Nat) :
    readDispatch (f + 1) 2 s = (do
      let (v, s) ← read_short s
      return (PyVal.int v, s)) := rfl

theorem readDispatch_three (f : Nat) (s : List Nat) :
    readDispatch (f + 1) 3 s = (do
      let (v, s) ← read_int s
      return (PyVal.int v, s)) := rfl

theorem readDispatch_four (f : Nat) (s : List Nat) :
    readDispatch (f + 1) 4 s = (do
      let (v, s) ← read_long s
      return (PyVal.int v, s)) := rfl

theorem readDispatch_five (f : Nat) (s : List Nat) :
    readDispatch (f + 1) 5 s = (do
      let (v, s) ← read_float s
      return (PyVal.float v, s)) := rfl

theorem readDispatch_six (f : Nat) (s : List Nat) :
    readDispatch (f + 1) 6 s = (do
      let (v, s) ← read_double s
      return (PyVal.float v, s)) := rfl

theorem readDispatch_seven (f : Nat) (s : List Nat) :
    readDispatch (f + 1) 7 s = readListByte s := rfl

theorem readDispatch_eight (f : Nat) (s : List Nat) :
    readDispatch (f + 1) 8 s = (do
      let (v, s) ← read_string s
      return (PyVal.str v, s)) := rfl

theorem readDispatch_nine (f : Nat) (s : List Nat) :
    readDispatch (f + 1) 9 s = readList f s := rfl

theorem readDispatch_ten (f : Nat) (s : List Nat) :
    readDispatch (f + 1) 10 s = readDict f s := rfl

theorem readDispatch_eleven (f : Nat) (s : List Nat) :
    readDispatch (f + 1) 11 s = readListInt s := rfl

theorem readList_succ (f : Nat) (s : List Nat) :
    readList (f + 1) s = (do
      let (kind, s) ← read_byte s
      let (count, s) ← read_int s
      if kind < -12 ∨ 12 ≤ kind then none
      else
        let lk : Option Int :=
          if kind = 0 then none else some (normTag kind)
        let (items, s) ← readElems f kind count.toNat s
        return (PyVal.list lk items, s)) := rfl

theorem readElems_zero (f : Nat) (kind : Int) (s : List Nat) :
    readElems (f + 1) kind 0 s = some ([], s) := rfl

theorem readElems_succ (f : Nat) (kind : Int) (c : Nat) (s : List Nat) :
    readElems (f + 1) kind (c + 1) s = (do
      let (v, s) ← readDispatch f kind s
      let (vs, s) ← readElems f kind c s
      return (v :: vs, s)) := rfl

theorem readDict_succ (f : Nat) (s : List Nat) :
    readDict (f + 1) s = (do
      let (entries, s) ← readDictLoop f [] s
      return (PyVal.dict entries, s)) := rfl

theorem readDictLoop_succ (f : Nat) (acc : DictPairs) (s : List Nat) :
    readDictLoop (f + 1) acc s = (do
      let (entry, s) ← readerLoad f s
      match entry with
      | none => return (acc, s)
      | some (kd, key, v) => do
        let acc ← match dictSetKind acc key kd with
                  | .ok d => some d
                  | .error _ => none
        let acc ← match dictSetItem acc key v with
                  | .ok d => some d
                  | .error _ => none
        readDictLoop f acc s) := rfl

/-- A named END tag read: one zero octet, `None` content. -/
theorem readerLoad_end (fuel : Nat) (t : List Nat) (h : 1 ≤ fuel) :
    readerLoad fuel (0 :: t) = some (none, t) := by
  cases fuel with
  | zero => omega
  | succ f =>
    rw [readerLoad_succ]
    have hb : read_byte ([0] ++ t) = some (0, t) := by
      unfold read_byte
      rw [readExact_append 1 [0] t rfl]
      rfl
    rw [List.singleton_append] at hb
    rw [hb]
    rfl

/-! ### The kind scan of the list promotion -/

/-- `promoteInner` through the kind scan `listKinds`. -/
theorem promoteInner_eq (items : List PyVal) :
    promoteInner items =
      match listKinds items with
      | none => none
      | some lks =>
        if (lks.filterMap id).isEmpty then some 9
        else if (lks.filterMap id).all (fun x => x = TAG_BYTE) then some 7
        else if (lks.filterMap id).all (fun x => x = TAG_INT) then some 11
        else some 9 := rfl

theorem listKinds_nil : listKinds [] = some [] := rfl

theorem listKinds_cons_list (lk : Option Int) (its : List PyVal)
    (rest : List PyVal) :
    listKinds (PyVal.list lk its :: rest) =
      match listKinds rest with
      | none => none
      | some lks => some (lk :: lks) := by
  cases htail : listKinds rest with
  | none =>
    unfold listKinds at htail ⊢
    rw [List.mapM_cons, htail]
    rfl
  | some lks =>
    unfold listKinds at htail ⊢
    rw [List.mapM_cons, htail]
    rfl

/-- Every scanned element is a `List` carrying the scanned kind. -/
theorem listKinds_forall2 (items : List PyVal) (lks : List (Option Int))
    (h : listKinds items = some lks) :
    List.Forall₂ (fun v lk => ∃ its, v = PyVal.list lk its) items lks := by
  induction items generalizing lks with
  | nil =>
    have h2 : ([] : List (Option Int)) = lks := Option.some_inj.mp h
    subst h2
    exact List.Forall₂.nil
  | cons v rest ih =>
    unfold listKinds at h
    rw [List.mapM_cons] at h
    simp only [Option.bind_eq_bind, Option.bind_eq_some, Option.pure_def,
               Option.some.injEq] at h
    obtain ⟨lk, hlk, lks2, hlks2, hcons⟩ := h
    rcases v with n | bits | s | ⟨lkv, its⟩ | es <;> try exact Option.noConfusion hlk
    have hlk2 : lkv = lk := Option.some_inj.mp hlk
    have htail : listKinds rest = some lks2 := by
      unfold listKinds
      exact hlks2
    subst hlk2
    subst hcons
    exact List.Forall₂.cons ⟨its, rfl⟩ (ih lks2 htail)

/-- The scan of a list of `List`s all declaring kind `c`. -/
theorem listKinds_const (c : Option Int) (items : List PyVal)
    (h : ∀ v ∈ items, ∃ its, v = PyVal.list c its) :
    listKinds items = some (items.map (fun _ => c)) := by
  induction items with
  | nil => rfl
  | cons v rest ih =>
    obtain ⟨its, hv⟩ := h v (List.mem_cons_self v rest)
    subst hv
    rw [listKinds_cons_list, ih (fun w hw => h w (List.mem_cons_of_mem _ hw))]
    rfl

/-- Promotion depends only on the scanned kinds. -/
theorem promoteInner_congr (items items2 : List PyVal)
    (h : listKinds items = listKinds items2) :
    promoteInner items = promoteInner items2 := by
  rw [promoteInner_eq, promoteInner_eq, h]

/-- A `BYTE` verdict: every scanned kind is `None` or `BYTE`, and some
kind is declared. -/
theorem promote_seven_spec (items : List PyVal)
    (h : promoteInner items = some 7) :
    ∃ lks, listKinds items = some lks ∧ lks ≠ [] ∧
      ∀ lk ∈ lks, lk = none ∨ lk = some 1 := by
  rw [promoteInner_eq] at h
  cases hlk : listKinds items with
  | none => rw [hlk] at h; exact Option.noConfusion h
  | some lks =>
    rw [hlk] at h
    dsimp only at h
    split_ifs at h with h1 h2 h3 <;> try exact absurd (Option.some_inj.mp h) (by decide)
    refine ⟨lks, rfl, ?_, ?_⟩
    · intro hnil
      subst hnil
      exact h1 (by decide)
    · intro lk hlkm
      rcases lk with _ | k
      · exact Or.inl rfl
      · right
        have hkm : k ∈ lks.filterMap id := by
          rw [List.mem_filterMap]
          exact ⟨some k, hlkm, rfl⟩
        have := List.all_eq_true.mp h2 k hkm
        simp only [decide_eq_true_eq] at this
        rw [this]
        rfl

/-- An `INT` verdict symmetrically. -/
theorem promote_eleven_spec (items : List PyVal)
    (h : promoteInner items = some 11) :
    ∃ lks, listKinds items = some lks ∧ lks ≠ [] ∧
      ∀ lk ∈ lks, lk = none ∨ lk = some 3 := by
  rw [promoteInner_eq] at h
  cases hlk : listKinds items with
  | none => rw [hlk] at h; exact Option.noConfusion h
  | some lks =>
    rw [hlk] at h
    dsimp only at h
    split_ifs at h with h1 h2 h3 <;> try exact absurd (Option.some_inj.mp h) (by decide)
    refine ⟨lks, rfl, ?_, ?_⟩
    · intro hnil
      subst hnil
      exact h1 (by decide)
    · intro lk hlkm
      rcases lk with _ | k
      · exact Or.inl rfl
      · right
        have hkm : k ∈ lks.filterMap id := by
          rw [List.mem_filterMap]
          exact ⟨some k, hlkm, rfl⟩
        have := List.all_eq_true.mp h3 k hkm
        simp only [decide_eq_true_eq] at this
        rw [this]
        rfl

/-- Stripping a constant `some` off a constant map. -/
theorem filterMap_const_some (c : Int) (l : List PyVal) :
    (l.map (fun _ => (some c : Option Int))).filterMap id =
      l.map (fun _ => c) := by
  induction l with
  | nil => rfl
  | cons v rest ih => simp [List.filterMap_cons, ih]

/-- A uniform list of declared-`BYTE` lists promotes to `BYTE`. -/
theorem promote_uniform_byte (items : List PyVal) (hne : items ≠ [])
    (h : ∀ v ∈ items, ∃ its, v = PyVal.list (some 1) its) :
    promoteInner items = some 7 := by
  rw [promoteInner_eq, listKinds_const (some 1) items h]
  dsimp only
  rw [filterMap_const_some]
  rw [if_neg (by simpa using hne), if_pos]
  rw [List.all_eq_true]
  intro x hx
  rw [List.mem_map] at hx
  obtain ⟨-, -, hx2⟩ := hx
  simp [← hx2, TAG_BYTE]

/-- A uniform list of declared-`INT` lists promotes to `INT`. -/
theorem promote_uniform_int (items : List PyVal) (hne : items ≠ [])
    (h : ∀ v ∈ items, ∃ its, v = PyVal.list (some 3) its) :
    promoteInner items = some 11 := by
  rw [promoteInner_eq, listKinds_const (some 3) items h]
  dsimp only
  rw [filterMap_const_some]
  rw [if_neg (by simpa using hne), if_neg, if_pos]
  · rw [List.all_eq_true]
    intro x hx
    rw [List.mem_map] at hx
    obtain ⟨-, -, hx2⟩ := hx
    simp [← hx2, TAG_INT]
  · intro hall
    rw [List.all_eq_true] at hall
    obtain ⟨v, hv⟩ := List.exists_mem_of_ne_nil items hne
    have := hall 3 (List.mem_map.mpr ⟨v, hv, rfl⟩)
    exact absurd this (by decide)

/-! ### Unfolding the well-founded invariant predicates -/

theorem valOk_list (lk : Option Int) (items : List PyVal) :
    valOk 9 (PyVal.list lk items) =
      (match lk with
       | none => items.isEmpty
       | some k => decide (k ∈ VALID_TAGS) && itemsOk k items) := by
  rw [valOk.eq_def]
  norm_num

theorem valOk_dict (es : DictPairs) :
    valOk 10 (PyVal.dict es) =
      (decide ((es.map (fun e => e.1)).Nodup) && entriesOk es) := by
  rw [valOk.eq_def]
  norm_num

theorem valOk_int (k : Int) (v : PyVal)
    (hk : k = 1 ∨ k = 2 ∨ k = 3 ∨ k = 4) (h : valOk k v = true) :
    ∃ n, v = PyVal.int n ∧ intFits k n = true := by
  rw [valOk.eq_def, if_pos hk] at h
  rcases v with n | bits | s | ⟨lk, its⟩ | es
  · exact ⟨n, rfl, h⟩
  all_goals exact absurd (show false = true from h) (by decide)

theorem valOk_float (k : Int) (v : PyVal)
    (hk : k = 5 ∨ k = 6) (h : valOk k v = true) :
    ∃ bits, v = PyVal.float bits ∧ bits < 2 ^ 64 := by
  rw [valOk.eq_def] at h
  rw [if_neg (by omega), if_pos hk] at h
  rcases v with n | bits | s | ⟨lk, its⟩ | es
  · exact absurd (show false = true from h) (by decide)
  · exact ⟨bits, rfl, of_decide_eq_true h⟩
  all_goals exact absurd (show false = true from h) (by decide)

theorem valOk_str (v : PyVal) (h : valOk 8 v = true) :
    ∃ s, v = PyVal.str s ∧ utf8Valid s = true ∧ s.length < 2 ^ 15 := by
  rw [valOk.eq_def] at h
  rw [if_neg (by omega), if_neg (by omega), if_pos rfl] at h
  rcases v with n | bits | s | ⟨lk, its⟩ | es
  · exact absurd (show false = true from h) (by decide)
  · exact absurd (show false = true from h) (by decide)
  · rw [Bool.and_eq_true] at h
    exact ⟨s, rfl, h.1, of_decide_eq_true h.2⟩
  all_goals exact absurd (show false = true from h) (by decide)

theorem entriesOk_cons (key : PyStr) (kd : Int) (v : PyVal)
    (rest : DictPairs) :
    entriesOk ((key, kd, v) :: rest) =
      (utf8Valid key && decide (key.length < 2 ^ 15) &&
       decide (kd ∈ VALID_TAGS) && valOk kd v && entriesOk rest) := by
  rw [entriesOk.eq_def]

theorem stableItems_cons (k : Int) (v : PyVal) (rest : List PyVal) :
    stableItems k (v :: rest) = (stableVal k v && stableItems k rest) := by
  rw [stableItems.eq_def]

theorem stableEntries_cons (key : PyStr) (kd : Int) (v : PyVal)
    (rest : DictPairs) :
    stableEntries ((key, kd, v) :: rest) =
      (stableVal kd v && stableEntries rest) := by
  rw [stableEntries.eq_def]

theorem stableVal_list (k : Int) (items : List PyVal) :
    stableVal 9 (PyVal.list (some k) items) =
      (if k = 9 then
        match promoteInner items with
        | some 7 => items.all hasDeclaredKind
        | some 11 => items.all hasDeclaredKind
        | some _ => stableItems 9 items
        | none => true
       else stableItems k items) := by
  rw [stableVal.eq_def]
  norm_num

theorem stableVal_dict (es : DictPairs) :
    stableVal 10 (PyVal.dict es) = stableEntries es := by
  rw [stableVal.eq_def]
  norm_num

theorem itemsOk_mem (k : Int) (items : List PyVal) (v : PyVal)
    (h : itemsOk k items = true) (hv : v ∈ items) : valOk k v = true := by
  induction items with
  | nil => cases hv
  | cons w rest ih =>
    rw [itemsOk_cons, Bool.and_eq_true] at h
    rcases List.mem_cons.mp hv with rfl | hv2
    · exact h.1
    · exact ih h.2 hv2

theorem stableItems_mem (k : Int) (items : List PyVal) (v : PyVal)
    (h : stableItems k items = true) (hv : v ∈ items) :
    stableVal k v = true := by
  induction items with
  | nil => cases hv
  | cons w rest ih =>
    rw [stableItems_cons, Bool.and_eq_true] at h
    rcases List.mem_cons.mp hv with rfl | hv2
    · exact h.1
    · exact ih h.2 hv2

/-! ### Tag arithmetic -/

theorem valid_tags_facts (k : Int) (h : k ∈ VALID_TAGS) :
    1 ≤ k ∧ k ≤ 11 ∧ k ≠ 7 ∧ k ≠ 11 ∧ k ≠ 0 := by
  fin_cases h <;> refine ⟨by decide, by decide, by decide, by decide, by decide⟩

theorem wireOk_not_arr (k : Int) (v : PyVal) (h7 : k ≠ 7) (h11 : k ≠ 11) :
    wireOk k v = valOk k v := by
  unfold wireOk
  rw [if_neg h7, if_neg h11]

theorem wireStable_not_arr (k : Int) (v : PyVal) (h7 : k ≠ 7)
    (h11 : k ≠ 11) : wireStable k v = stableVal k v := by
  unfold wireStable
  rw [if_neg h7, if_neg h11]

/-- The refined named tag: its normalization restores the declared kind,
and it stays in the dispatchable range. -/
theorem refineKind_spec (kd : Int) (v : PyVal) (rk : Int)
    (hv : kd ∈ VALID_TAGS) (h : refineKind kd v = some rk) :
    normTag rk = kd ∧ 1 ≤ rk ∧ rk ≤ 11 ∧ rk ≠ 0 := by
  unfold refineKind at h
  by_cases h9 : kd = TAG_LIST
  · rw [if_pos h9] at h
    rcases v with n | bits | s | ⟨lk, its⟩ | es <;> try exact Option.noConfusion h
    replace h := Option.some_inj.mp h
    subst h9
    split_ifs at h <;> subst h <;>
      exact ⟨by decide, by decide, by decide, by decide⟩
  · rw [if_neg h9] at h
    replace h := Option.some_inj.mp h
    subst h
    fin_cases hv <;> first
    | exact absurd rfl h9
    | exact ⟨by decide, by decide, by decide, by decide⟩

/-- The verdicts of the list promotion. -/
theorem promote_range (items : List PyVal) (d : Int)
    (h : promoteInner items = some d) : d = 7 ∨ d = 9 ∨ d = 11 := by
  rw [promoteInner_eq] at h
  cases hlk : listKinds items with
  | none => rw [hlk] at h; exact Option.noConfusion h
  | some lks =>
    rw [hlk] at h
    dsimp only at h
    split_ifs at h <;> replace h := Option.some_inj.mp h <;> omega

/-- Left-membership transport along a pointwise relation. -/
theorem forall2_mem_left (R : PyVal → Option Int → Prop)
    (l1 : List PyVal) (l2 : List (Option Int))
    (h : List.Forall₂ R l1 l2) (v : PyVal) (hv : v ∈ l1) :
    ∃ u ∈ l2, R v u := by
  induction h with
  | nil => cases hv
  | cons hr _ ih =>
    rcases List.mem_cons.mp hv with rfl | hv2
    · exact ⟨_, List.mem_cons_self _ _, hr⟩
    · obtain ⟨u, hu, hru⟩ := ih hv2
      exact ⟨u, List.mem_cons_of_mem _ hu, hru⟩

/-! ### The element invariants at the emitted wire tag -/

/-- The inner wire tag of `_save_list` is dispatchable and every element
satisfies the wire invariants at it. -/
theorem elems_wireOk (lk0 : Int) (items : List PyVal) (d : Int)
    (hv : lk0 ∈ VALID_TAGS) (hok : itemsOk lk0 items = true)
    (hd : (if lk0 = TAG_LIST then promoteInner items else some lk0) =
      some d) :
    (1 ≤ d ∧ d ≤ 11) ∧ ∀ v ∈ items, wireOk d v = true := by
  by_cases h9 : lk0 = TAG_LIST
  · have h9' : lk0 = 9 := h9
    subst h9'
    rw [if_pos h9] at hd
    rcases promote_range items d hd with rfl | rfl | rfl
    · -- promoted to BYTE_ARRAY
      refine ⟨⟨by decide, by decide⟩, ?_⟩
      intro v hvm
      obtain ⟨lks, hlks, -, hmem⟩ := promote_seven_spec items hd
      obtain ⟨u, hu, its, hsh⟩ :=
        forall2_mem_left _ items lks (listKinds_forall2 items lks hlks) v hvm
      subst hsh
      have hval := itemsOk_mem 9 items _ hok hvm
      rw [valOk_list] at hval
      rcases hmem u hu with rfl | rfl
      · -- kindless element: must be empty
        unfold wireOk
        rw [if_pos rfl]
        have : its = [] := List.isEmpty_iff.mp hval
        subst this
        show itemsOk 1 [] = true
        rw [itemsOk.eq_def]
      · -- declared BYTE element
        unfold wireOk
        rw [if_pos rfl]
        dsimp only at hval ⊢
        rw [Bool.and_eq_true] at hval
        exact hval.2
    · -- stays LIST
      refine ⟨⟨by decide, by decide⟩, ?_⟩
      intro v hvm
      rw [wireOk_not_arr 9 v (by decide) (by decide)]
      exact itemsOk_mem 9 items v hok hvm
    · -- promoted to INT_ARRAY
      refine ⟨⟨by decide, by decide⟩, ?_⟩
      intro v hvm
      obtain ⟨lks, hlks, -, hmem⟩ := promote_eleven_spec items hd
      obtain ⟨u, hu, its, hsh⟩ :=
        forall2_mem_left _ items lks (listKinds_forall2 items lks hlks) v hvm
      subst hsh
      have hval := itemsOk_mem 9 items _ hok hvm
      rw [valOk_list] at hval
      rcases hmem u hu with rfl | rfl
      · unfold wireOk
        rw [if_neg (by decide), if_pos rfl]
        have : its = [] := List.isEmpty_iff.mp hval
        subst this
        show itemsOk 3 [] = true
        rw [itemsOk.eq_def]
      · unfold wireOk
        rw [if_neg (by decide), if_pos rfl]
        dsimp only at hval ⊢
        rw [Bool.and_eq_true] at hval
        exact hval.2
  · rw [if_neg h9] at hd
    replace hd := Option.some_inj.mp hd
    subst hd
    obtain ⟨hb1, hb2, hb7, hb11, -⟩ := valid_tags_facts lk0 hv
    refine ⟨⟨hb1, hb2⟩, ?_⟩
    intro v hvm
    rw [wireOk_not_arr lk0 v hb7 hb11]
    exact itemsOk_mem lk0 items v hok hvm

/-- Under stability of the list, every element is wire-stable at the
emitted inner tag. -/
theorem elems_wireStable (lk0 : Int) (items : List PyVal) (d : Int)
    (hv : lk0 ∈ VALID_TAGS) (hok : itemsOk lk0 items = true)
    (hd : (if lk0 = TAG_LIST then promoteInner items else some lk0) =
      some d)
    (hst : stableVal 9 (PyVal.list (some lk0) items) = true) :
    ∀ v ∈ items, wireStable d v = true := by
  rw [stableVal_list] at hst
  by_cases h9 : lk0 = TAG_LIST
  · have h9' : lk0 = 9 := h9
    subst h9'
    rw [if_pos h9] at hd
    rw [if_pos (show (9 : Int) = 9 from rfl)] at hst
    rcases promote_range items d hd with rfl | rfl | rfl
    · replace hst : items.all hasDeclaredKind = true := by
        rw [hd] at hst
        exact hst
      intro v hvm
      have hdk := List.all_eq_true.mp hst v hvm
      obtain ⟨lks, hlks, -, hmem⟩ := promote_seven_spec items hd
      obtain ⟨u, hu, its, hsh⟩ :=
        forall2_mem_left _ items lks (listKinds_forall2 items lks hlks) v hvm
      subst hsh
      rcases hmem u hu with rfl | rfl
      · exact absurd hdk (by simp [hasDeclaredKind])
      · unfold wireStable
        rw [if_pos rfl]
        rfl
    · replace hst : stableItems 9 items = true := by
        rw [hd] at hst
        exact hst
      intro v hvm
      rw [wireStable_not_arr 9 v (by decide) (by decide)]
      exact stableItems_mem 9 items v hst hvm
    · replace hst : items.all hasDeclaredKind = true := by
        rw [hd] at hst
        exact hst
      intro v hvm
      have hdk := List.all_eq_true.mp hst v hvm
      obtain ⟨lks, hlks, -, hmem⟩ := promote_eleven_spec items hd
      obtain ⟨u, hu, its, hsh⟩ :=
        forall2_mem_left _ items lks (listKinds_forall2 items lks hlks) v hvm
      subst hsh
      rcases hmem u hu with rfl | rfl
      · exact absurd hdk (by simp [hasDeclaredKind])
      · unfold wireStable
        rw [if_neg (by decide), if_pos rfl]
        rfl
  · rw [if_neg h9] at hd
    replace hd := Option.some_inj.mp hd
    subst hd
    have h9n : ¬(lk0 = 9) := h9
    rw [if_neg h9n] at hst
    obtain ⟨-, -, hb7, hb11, -⟩ := valid_tags_facts lk0 hv
    intro v hvm
    rw [wireStable_not_arr lk0 v hb7 hb11]
    exact stableItems_mem lk0 items v hst hvm

/-! ### Targeted unfolding and rebuilding of the writer -/

theorem writeDispatch_scalar (k : Int) (v : PyVal)
    (hk : k = 1 ∨ k = 2 ∨ k = 3 ∨ k = 4 ∨ k = 5 ∨ k = 6 ∨ k = 8) :
    writeDispatch k v = writeScalar k v := by
  rw [writeDispatch.eq_def]
  rw [if_neg (show ¬(-12 ≤ k ∧ k < 0) from by omega)]
  rw [if_neg (show ¬(k = 7) from by omega),
      if_neg (show ¬(k = 9) from by omega),
      if_neg (show ¬(k = 10) from by omega),
      if_neg (show ¬(k = 11) from by omega),
      if_pos hk]

theorem writeDispatch_seven_eq (v : PyVal) :
    writeDispatch 7 v = write_byte_array v := by
  rw [writeDispatch.eq_def]
  norm_num

theorem writeDispatch_eleven_eq (v : PyVal) :
    writeDispatch 11 v = write_int_array v := by
  rw [writeDispatch.eq_def]
  norm_num

theorem writeDispatch_nine_eq (lk : Option Int) (items : List PyVal) :
    writeDispatch 9 (PyVal.list lk items) = writeListPayload lk items := by
  rw [writeDispatch.eq_def]
  norm_num

theorem writeDispatch_nine_none (v : PyVal)
    (hv : ∀ lk items, v ≠ PyVal.list lk items) :
    writeDispatch 9 v = none := by
  rw [writeDispatch.eq_def]
  norm_num
  rcases v with n | bits | s | ⟨lk, items⟩ | es
  · rfl
  · rfl
  · rfl
  · exact absurd rfl (hv lk items)
  · rfl

theorem writeDispatch_ten_eq (es : DictPairs) :
    writeDispatch 10 (PyVal.dict es) = writeDictPayload es := by
  rw [writeDispatch.eq_def]
  norm_num

theorem writerSave_build (kind : Int) (name : PyStr) (v : PyVal)
    (rk : Int) (tb nb pb : List Nat)
    (h1 : refineKind kind v = some rk) (h2 : packSigned 1 rk = some tb)
    (h3 : write_string name = some nb) (h4 : writeDispatch rk v = some pb) :
    writerSave kind name v = some (tb ++ nb ++ pb) := by
  rw [writerSave.eq_def]
  simp only [h1, h2, h3, h4, Option.bind_eq_bind, Option.some_bind,
             Option.pure_def]

theorem writeElems_nil (d : Int) : writeElems d [] = some [] := by
  rw [writeElems.eq_def]

theorem writeElems_build (d : Int) (v : PyVal) (rest : List PyVal)
    (b bs : List Nat) (h1 : writeDispatch d v = some b)
    (h2 : writeElems d rest = some bs) :
    writeElems d (v :: rest) = some (b ++ bs) := by
  rw [writeElems.eq_def]
  simp only [h1, h2, Option.bind_eq_bind, Option.some_bind, Option.pure_def]

theorem writeDictPayload_nil : writeDictPayload [] = some [0] := by
  rw [writeDictPayload.eq_def]

theorem writeDictPayload_build (key : PyStr) (kd : Int) (v : PyVal)
    (rest : DictPairs) (b bs : List Nat)
    (h1 : writerSave kd key v = some b)
    (h2 : writeDictPayload rest = some bs) :
    writeDictPayload ((key, kd, v) :: rest) = some (b ++ bs) := by
  rw [writeDictPayload.eq_def]
  simp only [h1, h2, Option.bind_eq_bind, Option.some_bind, Option.pure_def]

theorem writeListPayload_build (lk : Option Int) (items : List PyVal)
    (d : Int) (kb cb eb : List Nat)
    (h0 : (match lk with
           | none => some 0
           | some k => if k = TAG_LIST then promoteInner items
                       else some k) = some d)
    (h1 : packSigned 1 d = some kb)
    (h2 : packSigned 4 (items.length : Int) = some cb)
    (h3 : writeElems d items = some eb) :
    writeListPayload lk items = some (kb ++ cb ++ eb) := by
  rw [writeListPayload.eq_def]
  cases lk with
  | none =>
    replace h0 : (0 : Int) = d := Option.some_inj.mp h0
    subst h0
    simp only [h1, h2, h3, Option.bind_eq_bind, Option.some_bind,
               Option.pure_def]
  | some k =>
    dsimp only at h0 ⊢
    by_cases hk : k = TAG_LIST
    · rw [if_pos hk] at h0 ⊢
      simp only [h0, h1, h2, h3, Option.bind_eq_bind, Option.some_bind,
                 Option.pure_def]
    · rw [if_neg hk] at h0 ⊢
      replace h0 : k = d := Option.some_inj.mp h0
      subst h0
      simp only [h1, h2, h3, Option.bind_eq_bind, Option.some_bind,
                 Option.pure_def]

/-! ### Octet counts of the writer outputs -/

theorem packSigned_length (k : Nat) (v : Int) (out : List Nat)
    (h : packSigned k v = some out) : out.length = k := by
  obtain ⟨-, -, h3⟩ := packSigned_eq_some k v out h
  rw [h3, beBytes_length]

theorem write_byte_array_pos (v : PyVal) (pb : List Nat)
    (h : write_byte_array v = some pb) : 4 ≤ pb.length := by
  unfold write_byte_array at h
  rcases v with n | bits | s | ⟨lk, items⟩ | es <;> try exact Option.noConfusion h
  · -- string
    simp only [Option.bind_eq_bind, Option.bind_eq_some, Option.pure_def,
               Option.some.injEq] at h
    obtain ⟨lb, hlb, hif⟩ := h
    have hl := packSigned_length 4 _ lb hlb
    split_ifs at hif with hz
    replace hif := Option.some_inj.mp hif
    subst hif
    omega
  · -- list
    simp only [Option.bind_eq_bind, Option.bind_eq_some, Option.pure_def,
               Option.some.injEq] at h
    obtain ⟨lb, hlb, bb, hbb, hpb⟩ := h
    have hl := packSigned_length 4 _ lb hlb
    rw [← hpb, List.length_append]
    omega

theorem write_int_array_pos (v : PyVal) (pb : List Nat)
    (h : write_int_array v = some pb) : 4 ≤ pb.length := by
  unfold write_int_array at h
  rcases v with n | bits | s | ⟨lk, items⟩ | es <;> try exact Option.noConfusion h
  · simp only [Option.bind_eq_bind, Option.bind_eq_some, Option.pure_def,
               Option.some.injEq] at h
    obtain ⟨lb, hlb, hif⟩ := h
    have hl := packSigned_length 4 _ lb hlb
    split_ifs at hif with hz
    replace hif := Option.some_inj.mp hif
    subst hif
    omega
  · simp only [Option.bind_eq_bind, Option.bind_eq_some, Option.pure_def,
               Option.some.injEq] at h
    obtain ⟨lb, hlb, bb, hbb, hpb⟩ := h
    have hl := packSigned_length 4 _ lb hlb
    rw [← hpb, List.length_append]
    omega

/-- Under the wire invariants, every dispatched element payload is at
least one octet. -/
theorem writeDispatch_pos (k : Int) (v : PyVal) (pb : List Nat)
    (hok : wireOk k v = true) (h : writeDispatch k v = some pb) :
    1 ≤ pb.length := by
  by_cases h7 : k = 7
  · subst h7
    rw [writeDispatch_seven_eq] at h
    have := write_byte_array_pos v pb h
    omega
  by_cases h11 : k = 11
  · subst h11
    rw [writeDispatch_eleven_eq] at h
    have := write_int_array_pos v pb h
    omega
  rw [wireOk_not_arr k v h7 h11] at hok
  have hk := valOk_tag k v hok
  fin_cases hk
  · -- k = 1
    obtain ⟨n, rfl, -⟩ := valOk_int 1 v (by norm_num) hok
    rw [writeDispatch_scalar 1 _ (by norm_num)] at h
    have : packSigned 1 n = some pb := h
    have hl := packSigned_length 1 n pb this
    omega
  · obtain ⟨n, rfl, -⟩ := valOk_int 2 v (by norm_num) hok
    rw [writeDispatch_scalar 2 _ (by norm_num)] at h
    have : packSigned 2 n = some pb := h
    have hl := packSigned_length 2 n pb this
    omega
  · obtain ⟨n, rfl, -⟩ := valOk_int 3 v (by norm_num) hok
    rw [writeDispatch_scalar 3 _ (by norm_num)] at h
    have : packSigned 4 n = some pb := h
    have hl := packSigned_length 4 n pb this
    omega
  · obtain ⟨n, rfl, -⟩ := valOk_int 4 v (by norm_num) hok
    rw [writeDispatch_scalar 4 _ (by norm_num)] at h
    have : packSigned 8 n = some pb := h
    have hl := packSigned_length 8 n pb this
    omega
  · -- k = 5
    obtain ⟨bits, rfl, -⟩ := valOk_float 5 v (by norm_num) hok
    rw [writeDispatch_scalar 5 _ (by norm_num)] at h
    have hf : write_float_bits bits = some pb := h
    obtain ⟨b32, -, hlen, -⟩ := read_write_float bits pb [] hf
    omega
  · obtain ⟨bits, rfl, -⟩ := valOk_float 6 v (by norm_num) hok
    rw [writeDispatch_scalar 6 _ (by norm_num)] at h
    have hf : write_double_bits bits = some pb := h
    obtain ⟨hlen, -⟩ := read_write_double bits pb [] hf
    omega
  · -- k = 8
    obtain ⟨s, rfl, -, -⟩ := valOk_str v hok
    rw [writeDispatch_scalar 8 _ (by norm_num)] at h
    have hs : write_string s = some pb := h
    obtain ⟨-, hlen, -⟩ := read_write_string s pb [] hs
    omega
  · -- k = 9
    rcases v with n | bits | s | ⟨lk, items⟩ | es <;>
      first
      | (rw [writeDispatch_nine_none _ (by intro a b hc; exact PyVal.noConfusion hc)] at h
         exact Option.noConfusion h)
      | skip
    rw [writeDispatch_nine_eq] at h
    obtain ⟨d, kb, cb, eb, -, -, hcb, -, hpb, hkb1, hcb4⟩ :=
      writeListPayload_shape lk items pb h
    rw [hpb]
    simp only [List.length_append]
    omega
  · -- k = 10
    rcases v with n | bits | s | ⟨lk, items⟩ | es <;>
      rw [valOk.eq_def] at hok <;>
      try exact absurd (show false = true from hok) (by decide)
    rw [writeDispatch_ten_eq] at h
    exact writeDictPayload_pos es pb h

/-! ### The dispatch round-trip contract -/

theorem valOk_float_intro (x : Nat) (hx : x < 2 ^ 64) :
    valOk 5 (PyVal.float x) = true := by
  rw [valOk.eq_def]
  norm_num
  exact hx

theorem stableVal_float (bits : Nat) :
    stableVal 5 (PyVal.float bits) = isF32Exact bits := by
  rw [stableVal.eq_def]
  norm_num

theorem f32ToF64bits_lt (b : Nat) (hb : b < 2 ^ 32) :
    f32ToF64bits b < 2 ^ 64 := by
  unfold f32ToF64bits
  dsimp only
  have hs : b / 2 ^ 31 % 2 < 2 := Nat.mod_lt _ (by norm_num)
  have he : b / 2 ^ 23 % 2 ^ 8 < 2 ^ 8 := Nat.mod_lt _ (by norm_num)
  have hm : b % 2 ^ 23 < 2 ^ 23 := Nat.mod_lt _ (by norm_num)
  split_ifs with h255 h0 hm0
  · omega
  · omega
  · -- subnormal
    have hmpos : 1 ≤ b % 2 ^ 23 := by omega
    have ht : Nat.log 2 (b % 2 ^ 23) < 23 :=
      Nat.log_lt_of_lt_pow (by omega) hm
    have hlow : 2 ^ Nat.log 2 (b % 2 ^ 23) ≤ b % 2 ^ 23 :=
      Nat.pow_log_le_self 2 (by omega)
    have hhigh : b % 2 ^ 23 < 2 ^ (Nat.log 2 (b % 2 ^ 23) + 1) :=
      Nat.lt_pow_succ_log_self (by norm_num) _
    have hprod : (b % 2 ^ 23 - 2 ^ Nat.log 2 (b % 2 ^ 23)) *
        2 ^ (52 - Nat.log 2 (b % 2 ^ 23)) < 2 ^ 52 := by
      have h1 : b % 2 ^ 23 - 2 ^ Nat.log 2 (b % 2 ^ 23) <
          2 ^ Nat.log 2 (b % 2 ^ 23) := by
        have := Nat.pow_succ 2 (Nat.log 2 (b % 2 ^ 23))
        omega
      calc (b % 2 ^ 23 - 2 ^ Nat.log 2 (b % 2 ^ 23)) *
            2 ^ (52 - Nat.log 2 (b % 2 ^ 23))
          < 2 ^ Nat.log 2 (b % 2 ^ 23) *
            2 ^ (52 - Nat.log 2 (b % 2 ^ 23)) := by
            exact (Nat.mul_lt_mul_right
              (Nat.pos_pow_of_pos _ (by norm_num))).mpr h1
        _ = 2 ^ 52 := by
            rw [← pow_add]
            congr 1
            omega
    have hcoef : (874 + Nat.log 2 (b % 2 ^ 23)) * 2 ^ 52 ≤ 896 * 2 ^ 52 :=
      Nat.mul_le_mul_right _ (by omega)
    omega
  · -- normal
    have hcoef : (b / 2 ^ 23 % 2 ^ 8 + 896) * 2 ^ 52 ≤ 1151 * 2 ^ 52 :=
      Nat.mul_le_mul_right _ (by omega)
    omega

/-! ### The scalar dispatch round-trips -/

theorem disp_rt_one (v : PyVal) (pb : List Nat)
    (hok : wireOk 1 v = true) (h : writeDispatch 1 v = some pb) :
    DispConc 1 v pb := by
  have hok2 : valOk 1 v = true := by
    rw [← wireOk_not_arr 1 v (by decide) (by decide)]
    exact hok
  obtain ⟨n, rfl, hfit⟩ := valOk_int 1 v (by norm_num) hok2
  rw [writeDispatch_scalar 1 _ (by norm_num)] at h
  have hpack : packSigned 1 n = some pb := h
  intro fuel t hfuel
  cases fuel with
  | zero => omega
  | succ f =>
    refine ⟨.int n, ?_, ?_, ?_, ?_, ?_, ?_, ?_⟩
    · rw [readDispatch_one, read_byte_pack n pb t hpack]
      rfl
    · rw [writeDispatch_scalar 1 _ (by norm_num)]
      exact hpack
    · show valOk (normTag 1) (PyVal.int n) = true
      rw [show normTag 1 = 1 from by decide]
      exact hok2
    · intro h7
      exact absurd h7 (by decide)
    · intro h11
      exact absurd h11 (by decide)
    · intro lk its h9
      exact absurd h9 (by decide)
    · intro hs
      rfl

theorem disp_rt_two (v : PyVal) (pb : List Nat)
    (hok : wireOk 2 v = true) (h : writeDispatch 2 v = some pb) :
    DispConc 2 v pb := by
  have hok2 : valOk 2 v = true := by
    rw [← wireOk_not_arr 2 v (by decide) (by decide)]
    exact hok
  obtain ⟨n, rfl, hfit⟩ := valOk_int 2 v (by norm_num) hok2
  rw [writeDispatch_scalar 2 _ (by norm_num)] at h
  have hpack : packSigned 2 n = some pb := h
  intro fuel t hfuel
  cases fuel with
  | zero => omega
  | succ f =>
    refine ⟨.int n, ?_, ?_, ?_, ?_, ?_, ?_, ?_⟩
    · rw [readDispatch_two, read_short_pack n pb t hpack]
      rfl
    · rw [writeDispatch_scalar 2 _ (by norm_num)]
      exact hpack
    · show valOk (normTag 2) (PyVal.int n) = true
      rw [show normTag 2 = 2 from by decide]
      exact hok2
    · intro h7
      exact absurd h7 (by decide)
    · intro h11
      exact absurd h11 (by decide)
    · intro lk its h9
      exact absurd h9 (by decide)
    · intro hs
      rfl

theorem disp_rt_three (v : PyVal) (pb : List Nat)
    (hok : wireOk 3 v = true) (h : writeDispatch 3 v = some pb) :
    DispConc 3 v pb := by
  have hok2 : valOk 3 v = true := by
    rw [← wireOk_not_arr 3 v (by decide) (by decide)]
    exact hok
  obtain ⟨n, rfl, hfit⟩ := valOk_int 3 v (by norm_num) hok2
  rw [writeDispatch_scalar 3 _ (by norm_num)] at h
  have hpack : packSigned 4 n = some pb := h
  intro fuel t hfuel
  cases fuel with
  | zero => omega
  | succ f =>
    refine ⟨.int n, ?_, ?_, ?_, ?_, ?_, ?_, ?_⟩
    · rw [readDispatch_three, read_int_pack n pb t hpack]
      rfl
    · rw [writeDispatch_scalar 3 _ (by norm_num)]
      exact hpack
    · show valOk (normTag 3) (PyVal.int n) = true
      rw [show normTag 3 = 3 from by decide]
      exact hok2
    · intro h7
      exact absurd h7 (by decide)
    · intro h11
      exact absurd h11 (by decide)
    · intro lk its h9
      exact absurd h9 (by decide)
    · intro hs
      rfl

theorem disp_rt_four (v : PyVal) (pb : List Nat)
    (hok : wireOk 4 v = true) (h : writeDispatch 4 v = some pb) :
    DispConc 4 v pb := by
  have hok2 : valOk 4 v = true := by
    rw [← wireOk_not_arr 4 v (by decide) (by decide)]
    exact hok
  obtain ⟨n, rfl, hfit⟩ := valOk_int 4 v (by norm_num) hok2
  rw [writeDispatch_scalar 4 _ (by norm_num)] at h
  have hpack : packSigned 8 n = some pb := h
  intro fuel t hfuel
  cases fuel with
  | zero => omega
  | succ f =>
    refine ⟨.int n, ?_, ?_, ?_, ?_, ?_, ?_, ?_⟩
    · rw [readDispatch_four, read_long_pack n pb t hpack]
      rfl
    · rw [writeDispatch_scalar 4 _ (by norm_num)]
      exact hpack
    · show valOk (normTag 4) (PyVal.int n) = true
      rw [show normTag 4 = 4 from by decide]
      exact hok2
    · intro h7
      exact absurd h7 (by decide)
    · intro h11
      exact absurd h11 (by decide)
    · intro lk its h9
      exact absurd h9 (by decide)
    · intro hs
      rfl

theorem disp_rt_five (v : PyVal) (pb : List Nat)
    (hok : wireOk 5 v = true) (h : writeDispatch 5 v = some pb) :
    DispConc 5 v pb := by
  have hok2 : valOk 5 v = true := by
    rw [← wireOk_not_arr 5 v (by decide) (by decide)]
    exact hok
  obtain ⟨bits, rfl, hlt⟩ := valOk_float 5 v (by norm_num) hok2
  rw [writeDispatch_scalar 5 _ (by norm_num)] at h
  have hw : write_float_bits bits = some pb := h
  intro fuel t hfuel
  obtain ⟨b32, hb32, hlen, hread, hwrite, hexact⟩ :=
    read_write_float bits pb t hw
  cases fuel with
  | zero => omega
  | succ f =>
    refine ⟨.float (f32ToF64bits b32), ?_, ?_, ?_, ?_, ?_, ?_, ?_⟩
    · rw [readDispatch_five, hread]
      rfl
    · rw [writeDispatch_scalar 5 _ (by norm_num)]
      exact hwrite
    · show valOk (normTag 5) (PyVal.float (f32ToF64bits b32)) = true
      rw [show normTag 5 = 5 from by decide]
      exact valOk_float_intro _ (f32ToF64bits_lt b32 (f64ToF32bits_lt bits b32 hb32))
    · intro h7
      exact absurd h7 (by decide)
    · intro h11
      exact absurd h11 (by decide)
    · intro lk its h9
      exact absurd h9 (by decide)
    · intro hs
      rw [wireStable_not_arr 5 _ (by decide) (by decide), stableVal_float] at hs
      rw [hexact hs]

theorem disp_rt_six (v : PyVal) (pb : List Nat)
    (hok : wireOk 6 v = true) (h : writeDispatch 6 v = some pb) :
    DispConc 6 v pb := by
  have hok2 : valOk 6 v = true := by
    rw [← wireOk_not_arr 6 v (by decide) (by decide)]
    exact hok
  obtain ⟨bits, rfl, hlt⟩ := valOk_float 6 v (by norm_num) hok2
  rw [writeDispatch_scalar 6 _ (by norm_num)] at h
  have hw : write_double_bits bits = some pb := h
  intro fuel t hfuel
  obtain ⟨hlen, hblt, hread⟩ := read_write_double bits pb t hw
  cases fuel with
  | zero => omega
  | succ f =>
    refine ⟨.float bits, ?_, ?_, ?_, ?_, ?_, ?_, ?_⟩
    · rw [readDispatch_six, hread]
      rfl
    · rw [writeDispatch_scalar 6 _ (by norm_num)]
      exact hw
    · show valOk (normTag 6) (PyVal.float bits) = true
      rw [show normTag 6 = 6 from by decide]
      exact hok2
    · intro h7
      exact absurd h7 (by decide)
    · intro h11
      exact absurd h11 (by decide)
    · intro lk its h9
      exact absurd h9 (by decide)
    · intro hs
      rfl

theorem disp_rt_eight (v : PyVal) (pb : List Nat)
    (hok : wireOk 8 v = true) (h : writeDispatch 8 v = some pb) :
    DispConc 8 v pb := by
  have hok2 : valOk 8 v = true := by
    rw [← wireOk_not_arr 8 v (by decide) (by decide)]
    exact hok
  obtain ⟨s, rfl, hu, hl⟩ := valOk_str v hok2
  rw [writeDispatch_scalar 8 _ (by norm_num)] at h
  have hw : write_string s = some pb := h
  intro fuel t hfuel
  obtain ⟨hread, hlen, -, -⟩ := read_write_string s pb t hw
  cases fuel with
  | zero => omega
  | succ f =>
    refine ⟨.str s, ?_, ?_, ?_, ?_, ?_, ?_, ?_⟩
    · rw [readDispatch_eight, hread]
      rfl
    · rw [writeDispatch_scalar 8 _ (by norm_num)]
      exact hw
    · show valOk (normTag 8) (PyVal.str s) = true
      rw [show normTag 8 = 8 from by decide]
      exact hok2
    · intro h7
      exact absurd h7 (by decide)
    · intro h11
      exact absurd h11 (by decide)
    · intro lk its h9
      exact absurd h9 (by decide)
    · intro hs
      rfl

/-- `write_int_seq` over in-range ints: four octets per item, restored
by the word map of `readListInt`. -/
theorem write_int_seq_spec (items : List PyVal) (bb : List Nat)
    (hok : itemsOk 3 items = true) (h : write_int_seq items = some bb) :
    bb.length = 4 * items.length ∧
    (List.range items.length).map (fun i =>
      PyVal.int (toSigned 4 (beVal ((bb.drop (4 * i)).take 4)))) = items := by
  induction items generalizing bb with
  | nil =>
    unfold write_int_seq at h
    simp only [List.mapM_nil, Option.pure_def, Option.bind_eq_bind,
               Option.some_bind, Option.some.injEq] at h
    constructor <;> simp [← h]
  | cons v rest ih =>
    rw [itemsOk_cons, Bool.and_eq_true] at hok
    unfold write_int_seq at h
    rw [List.mapM_cons] at h
    simp only [Option.bind_eq_bind, Option.bind_eq_some, Option.pure_def,
               Option.some.injEq] at h
    obtain ⟨c, ⟨a, ha, a1, ha1, hcons⟩, hbb⟩ := h
    rcases v with n | bits | s | ⟨lk, its⟩ | es <;> try exact Option.noConfusion ha
    have ha2 : packSigned 4 n = some a := ha
    have hrest : write_int_seq rest = some a1.flatten := by
      unfold write_int_seq
      rw [ha1]
      rfl
    obtain ⟨ih1, ih2⟩ := ih a1.flatten hok.2 hrest
    obtain ⟨hr1, hr2, hr3⟩ := packSigned_eq_some 4 n a ha2
    have hlen4 : a.length = 4 := by rw [hr3, beBytes_length]
    subst hcons
    subst hbb
    rw [List.flatten_cons]
    constructor
    · rw [List.length_append, ih1]
      simp only [List.length_cons]
      omega
    · have hhead : ((a ++ a1.flatten).drop (4 * 0)).take 4 = a := by
        rw [Nat.mul_zero, List.drop_zero]
        exact List.take_left' hlen4
      have hbeval : beVal a = ofSigned 4 n := by
        rw [hr3, beVal_beBytes]
        exact Nat.mod_eq_of_lt (ofSigned_lt 4 n)
      have hts : toSigned 4 (ofSigned 4 n) = n :=
        toSigned_ofSigned 4 n (by norm_num) hr1 hr2
      rw [List.length_cons, List.range_succ_eq_map, List.map_cons,
          List.map_map]
      congr 1
      · show PyVal.int
          (toSigned 4 (beVal (((a ++ a1.flatten).drop (4 * 0)).take 4))) =
            PyVal.int n
        rw [hhead, hbeval, hts]
      · have hcg : List.map ((fun i => PyVal.int
              (toSigned 4 (beVal (((a ++ a1.flatten).drop (4 * i)).take 4)))) ∘
              Nat.succ) (List.range rest.length) =
            List.map (fun i => PyVal.int
              (toSigned 4 (beVal (((a1.flatten).drop (4 * i)).take 4))))
              (List.range rest.length) := by
          apply List.map_congr_left
          intro i hi
          show PyVal.int
            (toSigned 4
              (beVal (((a ++ a1.flatten).drop (4 * (i + 1))).take 4))) =
              PyVal.int (toSigned 4 (beVal (((a1.flatten).drop (4 * i)).take 4)))
          have hsh : 4 * (i + 1) = a.length + 4 * i := by omega
          rw [hsh, List.drop_append]
        rw [hcg, ih2]

/-! ### The array dispatch round-trips -/

theorem disp_rt_seven (v : PyVal) (pb : List Nat)
    (hok : wireOk 7 v = true) (h : writeDispatch 7 v = some pb) :
    DispConc 7 v pb := by
  rw [writeDispatch_seven_eq] at h
  rcases v with n | bits | s | ⟨lk, items⟩ | es <;>
    try exact absurd (show false = true from hok) (by decide)
  have hok2 : itemsOk 1 items = true := hok
  unfold write_byte_array at h
  simp only [Option.bind_eq_bind, Option.bind_eq_some, Option.pure_def,
             Option.some.injEq] at h
  obtain ⟨lb, hlb, bbv, hbb, hpb⟩ := h
  obtain ⟨hblen, hbmap⟩ := write_byte_seq_spec items bbv hok2 hbb
  subst hpb
  intro fuel t hfuel
  cases fuel with
  | zero => omega
  | succ f =>
    refine ⟨.list (some 1) items, ?_, ?_, ?_, ?_, ?_, ?_, ?_⟩
    · rw [readDispatch_seven]
      unfold readListByte
      rw [List.append_assoc,
          read_int_pack ((items.length : Int)) lb (bbv ++ t) hlb]
      simp only [Option.bind_eq_bind, Option.some_bind]
      rw [Int.toNat_natCast, readExact_append items.length bbv t hblen]
      simp only [Option.some_bind]
      rw [hbmap]
      rfl
    · rw [writeDispatch_seven_eq]
      unfold write_byte_array
      simp only [hlb, hbb, Option.bind_eq_bind, Option.some_bind,
                 Option.pure_def]
    · show valOk (normTag 7) (PyVal.list (some 1) items) = true
      rw [show normTag 7 = 9 from by decide, valOk_list]
      dsimp only
      rw [Bool.and_eq_true]
      exact ⟨by decide, hok2⟩
    · intro h7
      exact ⟨items, rfl⟩
    · intro h11
      exact absurd h11 (by decide)
    · intro lk2 its h9
      exact absurd h9 (by decide)
    · intro hs
      have hs2 : lk = some 1 := of_decide_eq_true hs
      rw [hs2]

theorem disp_rt_eleven (v : PyVal) (pb : List Nat)
    (hok : wireOk 11 v = true) (h : writeDispatch 11 v = some pb) :
    DispConc 11 v pb := by
  rw [writeDispatch_eleven_eq] at h
  rcases v with n | bits | s | ⟨lk, items⟩ | es <;>
    try exact absurd (show false = true from hok) (by decide)
  have hok2 : itemsOk 3 items = true := hok
  unfold write_int_array at h
  simp only [Option.bind_eq_bind, Option.bind_eq_some, Option.pure_def,
             Option.some.injEq] at h
  obtain ⟨lb, hlb, bbv, hbb, hpb⟩ := h
  obtain ⟨hblen, hbmap⟩ := write_int_seq_spec items bbv hok2 hbb
  subst hpb
  intro fuel t hfuel
  cases fuel with
  | zero => omega
  | succ f =>
    refine ⟨.list (some 3) items, ?_, ?_, ?_, ?_, ?_, ?_, ?_⟩
    · rw [readDispatch_eleven]
      unfold readListInt
      rw [List.append_assoc,
          read_int_pack ((items.length : Int)) lb (bbv ++ t) hlb]
      simp only [Option.bind_eq_bind, Option.some_bind]
      rw [Int.toNat_natCast,
          readExact_append (4 * items.length) bbv t hblen]
      simp only [Option.some_bind]
      rw [hbmap]
      rfl
    · rw [writeDispatch_eleven_eq]
      unfold write_int_array
      simp only [hlb, hbb, Option.bind_eq_bind, Option.some_bind,
                 Option.pure_def]
    · show valOk (normTag 11) (PyVal.list (some 3) items) = true
      rw [show normTag 11 = 9 from by decide, valOk_list]
      dsimp only
      rw [Bool.and_eq_true]
      exact ⟨by decide, hok2⟩
    · intro h7
      exact absurd h7 (by decide)
    · intro h11
      exact ⟨items, rfl⟩
    · intro lk2 its h9
      exact absurd h9 (by decide)
    · intro hs
      have hs2 : lk = some 3 := of_decide_eq_true hs
      rw [hs2]

/-! ### Glue facts for the master induction -/

theorem writerSave_pos (kd : Int) (name : PyStr) (v : PyVal)
    (B : List Nat) (h : writerSave kd name v = some B) : 1 ≤ B.length := by
  obtain ⟨rk, tb, nb, pb, -, -, -, -, hB, htb1⟩ := writerSave_shape kd name v B h
  rw [hB]
  simp only [List.length_append]
  omega

theorem normTag_valid (k : Int) (h : k ∈ VALID_TAGS) : normTag k = k := by
  fin_cases h <;> decide

theorem valOk_nine_elim (v : PyVal) (h : valOk 9 v = true) :
    ∃ lk items, v = PyVal.list lk items := by
  rcases v with n | bits | s | ⟨lk, items⟩ | es
  · exact absurd (show false = true from by rw [valOk.eq_def] at h; exact h)
      (by decide)
  · exact absurd (show false = true from by rw [valOk.eq_def] at h; exact h)
      (by decide)
  · exact absurd (show false = true from by rw [valOk.eq_def] at h; exact h)
      (by decide)
  · exact ⟨lk, items, rfl⟩
  · exact absurd (show false = true from by rw [valOk.eq_def] at h; exact h)
      (by decide)

theorem valOk_ten_elim (v : PyVal) (h : valOk 10 v = true) :
    ∃ es, v = PyVal.dict es := by
  rcases v with n | bits | s | ⟨lk, items⟩ | es
  · exact absurd (show false = true from by rw [valOk.eq_def] at h; exact h)
      (by decide)
  · exact absurd (show false = true from by rw [valOk.eq_def] at h; exact h)
      (by decide)
  · exact absurd (show false = true from by rw [valOk.eq_def] at h; exact h)
      (by decide)
  · exact absurd (show false = true from by rw [valOk.eq_def] at h; exact h)
      (by decide)
  · exact ⟨es, rfl⟩

/-- The wire invariants transfer through `Writer.save`'s refinement. -/
theorem refine_wireOk (kd : Int) (v : PyVal) (rk : Int)
    (hkd : kd ∈ VALID_TAGS) (hok : valOk kd v = true)
    (h : refineKind kd v = some rk) : wireOk rk v = true := by
  unfold refineKind at h
  by_cases h9 : kd = TAG_LIST
  · rw [if_pos h9] at h
    have h9' : kd = 9 := h9
    subst h9'
    rcases v with n | bits | s | ⟨lk, items⟩ | es <;>
      try exact Option.noConfusion h
    replace h := Option.some_inj.mp h
    rw [valOk_list] at hok
    split_ifs at h with hb hi
    · -- rk = 7, lk = some 1
      subst h
      subst hb
      unfold wireOk
      rw [if_pos rfl]
      dsimp only at hok ⊢
      rw [Bool.and_eq_true] at hok
      exact hok.2
    · subst h
      subst hi
      unfold wireOk
      rw [if_neg (by decide), if_pos rfl]
      dsimp only at hok ⊢
      rw [Bool.and_eq_true] at hok
      exact hok.2
    · subst h
      rw [wireOk_not_arr 9 _ (by decide) (by decide), valOk_list]
      exact hok
  · rw [if_neg h9] at h
    replace h := Option.some_inj.mp h
    subst h
    obtain ⟨-, -, h7, h11, -⟩ := valid_tags_facts kd hkd
    rw [wireOk_not_arr kd v h7 h11]
    exact hok

/-- Stability transfers through the refinement. -/
theorem refine_wireStable (kd : Int) (v : PyVal) (rk : Int)
    (hkd : kd ∈ VALID_TAGS) (hst : stableVal kd v = true)
    (h : refineKind kd v = some rk) : wireStable rk v = true := by
  unfold refineKind at h
  by_cases h9 : kd = TAG_LIST
  · rw [if_pos h9] at h
    have h9' : kd = 9 := h9
    subst h9'
    rcases v with n | bits | s | ⟨lk, items⟩ | es <;>
      try exact Option.noConfusion h
    replace h := Option.some_inj.mp h
    split_ifs at h with hb hi
    · subst h
      subst hb
      unfold wireStable
      rw [if_pos rfl]
      rfl
    · subst h
      subst hi
      unfold wireStable
      rw [if_neg (by decide), if_pos rfl]
      rfl
    · subst h
      rw [wireStable_not_arr 9 _ (by decide) (by decide)]
      exact hst
  · rw [if_neg h9] at h
    replace h := Option.some_inj.mp h
    subst h
    obtain ⟨-, -, h7, h11, -⟩ := valid_tags_facts kd hkd
    rw [wireStable_not_arr kd v h7 h11]
    exact hst

/-- The loaded value refines to the same wire tag the writer used. -/
theorem refine_back (kd : Int) (v rv : PyVal) (rk : Int)
    (hkd : kd ∈ VALID_TAGS) (h : refineKind kd v = some rk)
    (h7 : rk = 7 → ∃ its, rv = PyVal.list (some 1) its)
    (h11 : rk = 11 → ∃ its, rv = PyVal.list (some 3) its)
    (h9 : ∀ lk its, rk = 9 → v = PyVal.list lk its →
      ∃ its2, rv = PyVal.list lk its2) :
    refineKind kd rv = some rk := by
  by_cases hkd9 : kd = TAG_LIST
  · have h9' : kd = 9 := hkd9
    subst h9'
    unfold refineKind at h ⊢
    rw [if_pos hkd9] at h ⊢
    rcases v with n | bits | s | ⟨lk, items⟩ | es <;>
      try exact Option.noConfusion h
    replace h := Option.some_inj.mp h
    split_ifs at h with hb hi
    · obtain ⟨its, hrv⟩ := h7 h.symm
      subst hrv
      rw [← h]
      rfl
    · obtain ⟨its, hrv⟩ := h11 h.symm
      subst hrv
      rw [← h]
      rfl
    · obtain ⟨its2, hrv⟩ := h9 lk items h.symm rfl
      subst hrv
      rw [← h]
      simp only [Option.some.injEq]
      rw [if_neg hb, if_neg hi]
  · unfold refineKind at h ⊢
    rw [if_neg hkd9] at h ⊢
    exact h

theorem pairsFind_single_ne (key e1 : PyStr) (kd : Int) (v : PyVal)
    (h : ¬(key = e1)) : pairsFind [(key, kd, v)] e1 = none := by
  rw [pairsFind]
  rw [if_neg h]
  rfl

/-- The inner tag normalizes back to the declared list kind. -/
theorem inner_normTag (lk0 : Int) (items : List PyVal) (d : Int)
    (hv : lk0 ∈ VALID_TAGS)
    (hd : (if lk0 = TAG_LIST then promoteInner items else some lk0) =
      some d) : normTag d = lk0 := by
  by_cases h9 : lk0 = TAG_LIST
  · rw [if_pos h9] at hd
    have h9' : lk0 = 9 := h9
    subst h9'
    rcases promote_range items d hd with rfl | rfl | rfl <;> decide
  · rw [if_neg h9] at hd
    replace hd := Option.some_inj.mp hd
    subst hd
    exact normTag_valid lk0 hv

/-! ### Size arithmetic -/

theorem sizeOf_pyval_pos (v : PyVal) : 1 ≤ sizeOf v := by
  rcases v with n | bits | s | ⟨lk, items⟩ | es <;> simp <;> omega

theorem sizeOf_option_pos (o : Option Int) : 1 ≤ sizeOf o := by
  cases o <;> simp <;> omega

theorem sizeOf_pylist_pos (l : List PyVal) : 1 ≤ sizeOf l := by
  cases l <;> simp <;> omega

theorem sizeOf_pystr_pos (s : PyStr) : 1 ≤ sizeOf s := by
  cases s <;> simp <;> omega

theorem sizeOf_pyval_list (lk : Option Int) (items : List PyVal) :
    sizeOf (PyVal.list lk items) = 1 + sizeOf lk + sizeOf items := by
  simp

theorem sizeOf_pyval_dict (es : DictPairs) :
    sizeOf (PyVal.dict es) = 1 + sizeOf es := by
  simp

theorem sizeOf_pyval_cons (v : PyVal) (l : List PyVal) :
    sizeOf (v :: l) = 1 + sizeOf v + sizeOf l := by
  simp

theorem sizeOf_entry_cons (key : PyStr) (kd : Int) (v : PyVal)
    (l : DictPairs) :
    sizeOf (((key, kd, v)) :: l) =
      1 + (1 + sizeOf key + (1 + sizeOf kd + sizeOf v)) + sizeOf l := by
  simp

/-! ### The five round-trip contracts of the master induction -/

/-- The element loop of the master induction. -/
theorem step_elems (μ : Nat) (ih : ∀ m, m < μ → MasterAll m) :
    PElems μ := by
  intro d items eb hμ hd1 hd2 hwire h
  induction items generalizing eb with
  | nil =>
    rw [writeElems_nil] at h
    replace h := Option.some_inj.mp h
    subst h
    intro fuel t hfuel
    cases fuel with
    | zero => omega
    | succ f =>
      refine ⟨[], ?_, writeElems_nil d, rfl, ?_, ?_, ?_, ?_, ?_⟩
      · rw [List.nil_append]
        exact readElems_zero f d t
      · rw [itemsOk.eq_def]
      · intro _ rv hrv
        cases hrv
      · intro _ rv hrv
        cases hrv
      · intro _
        rfl
      · intro _
        rfl
  | cons v rest ihr =>
    obtain ⟨b, bs, hb, hbs, heb⟩ := writeElems_cons d v rest eb h
    subst heb
    have hmV : 4 * sizeOf v + 2 < μ := by
      have := sizeOf_pyval_cons v rest
      have := sizeOf_pylist_pos rest
      omega
    have hmR : 4 * sizeOf rest ≤ μ := by
      have := sizeOf_pyval_cons v rest
      have := sizeOf_pyval_pos v
      omega
    have hdisp : DispConc d v b :=
      ((ih (4 * sizeOf v + 2) hmV).2.1) d v b (le_refl _) hd1 hd2
        (hwire v (List.mem_cons_self v rest)) hb
    have helems : ElemsConc d rest bs :=
      ihr bs hmR (fun w hw => hwire w (List.mem_cons_of_mem v hw)) hbs
    have hbpos : 1 ≤ b.length :=
      writeDispatch_pos d v b (hwire v (List.mem_cons_self v rest)) hb
    intro fuel t hfuel
    rw [List.length_append] at hfuel
    cases fuel with
    | zero => omega
    | succ f =>
      obtain ⟨rv, hread, hwrite, hval, h7, h11, h9, hstab⟩ :=
        hdisp f (bs ++ t) (by omega)
      obtain ⟨rvs, hre, hwe, hlen, hiok, hs7, hs11, hs9, hrec⟩ :=
        helems f t (by omega)
      refine ⟨rv :: rvs, ?_, ?_, ?_, ?_, ?_, ?_, ?_, ?_⟩
      · rw [List.length_cons, readElems_succ, List.append_assoc, hread]
        simp only [Option.bind_eq_bind, Option.some_bind]
        rw [hre]
        rfl
      · exact writeElems_build d rv rvs b bs hwrite hwe
      · simp [hlen]
      · rw [itemsOk_cons, Bool.and_eq_true]
        exact ⟨hval, hiok⟩
      · intro hd7 rw hrw
        rcases List.mem_cons.mp hrw with rfl | hrw2
        · exact h7 hd7
        · exact hs7 hd7 rw hrw2
      · intro hd11 rw hrw
        rcases List.mem_cons.mp hrw with rfl | hrw2
        · exact h11 hd11
        · exact hs11 hd11 rw hrw2
      · intro hd9
        subst hd9
        have hv9 : valOk 9 v = true := by
          rw [← wireOk_not_arr 9 v (by decide) (by decide)]
          exact hwire v (List.mem_cons_self v rest)
        obtain ⟨lk, its, hvsh⟩ := valOk_nine_elim v hv9
        subst hvsh
        obtain ⟨its2, hrvsh⟩ := h9 lk its rfl rfl
        subst hrvsh
        rw [listKinds_cons_list, listKinds_cons_list, hs9 rfl]
      · intro hstall
        rw [hstab (hstall v (List.mem_cons_self v rest)),
            hrec (fun w hw => hstall w (List.mem_cons_of_mem v hw))]

/-- The list payload of the master induction. -/
theorem step_list (μ : Nat) (ih : ∀ m, m < μ → MasterAll m) :
    PList μ := by
  intro lk items pb hμ hok h
  obtain ⟨d, kb, cb, eb, hmatch, hkb, hcb, heb, hpb, hkb1, hcb4⟩ :=
    writeListPayload_shape lk items pb h
  subst hpb
  rw [valOk_list] at hok
  cases lk with
  | none =>
    -- kindless list: empty, inner tag 0
    have hempty : items = [] := List.isEmpty_iff.mp hok
    subst hempty
    replace hmatch : (0 : Int) = d := Option.some_inj.mp hmatch
    subst hmatch
    rw [writeElems_nil] at heb
    replace heb := Option.some_inj.mp heb
    subst heb
    intro fuel t hfuel
    simp only [List.append_nil, List.length_append] at hfuel ⊢
    cases fuel with
    | zero => omega
    | succ f =>
      cases f with
      | zero => omega
      | succ f2 =>
        refine ⟨[], ?_, ?_, ?_, ?_⟩
        · rw [readList_succ, List.append_assoc,
              read_byte_pack 0 kb (cb ++ t) hkb]
          simp only [Option.bind_eq_bind, Option.some_bind]
          rw [read_int_pack 0 cb t hcb]
          simp only [Option.some_bind]
          rw [if_neg (by decide)]
          show (do
            let (items, s) ← readElems (f2 + 1) 0 ((0 : Int)).toNat t
            pure (PyVal.list (if (0 : Int) = 0 then none
              else some (normTag 0)) items, s)) = _
          rw [show ((0 : Int)).toNat = 0 from rfl, readElems_zero]
          rfl
        · have := writeListPayload_build none [] 0 kb cb [] rfl hkb hcb
            (writeElems_nil 0)
          simpa using this
        · rw [valOk_list]
          rfl
        · intro _
          rfl
  | some lk0 =>
    rw [Bool.and_eq_true, decide_eq_true_eq] at hok
    obtain ⟨hv, hiok⟩ := hok
    replace hmatch : (if lk0 = TAG_LIST then promoteInner items
      else some lk0) = some d := hmatch
    obtain ⟨⟨hdl, hdh⟩, hwire⟩ := elems_wireOk lk0 items d hv hiok hmatch
    have hnt : normTag d = lk0 := inner_normTag lk0 items d hv hmatch
    have helems : ElemsConc d items eb :=
      ((ih (4 * sizeOf items) (by omega)).2.2.2.1) d items eb (le_refl _)
        hdl hdh hwire heb
    intro fuel t hfuel
    simp only [List.length_append] at hfuel
    cases fuel with
    | zero => omega
    | succ f =>
      obtain ⟨rvs, hre, hwe, hlen, hiok2, hs7, hs11, hs9, hrec⟩ :=
        helems f t (by omega)
      have hrebuild : (if lk0 = TAG_LIST then promoteInner rvs
          else some lk0) = some d := by
        by_cases h9 : lk0 = TAG_LIST
        · rw [if_pos h9]
          rw [if_pos h9] at hmatch
          rcases promote_range items d hmatch with rfl | rfl | rfl
          · obtain ⟨lks, hlks, hne, -⟩ := promote_seven_spec items hmatch
            have hlenk := List.Forall₂.length_eq
              (listKinds_forall2 items lks hlks)
            have hine : items ≠ [] := by
              intro hcon
              subst hcon
              simp at hlenk
              exact hne (List.length_eq_zero.mp hlenk.symm)
            have hrne : rvs ≠ [] := by
              intro hcon
              rw [hcon] at hlen
              have := List.length_eq_zero.mp hlen.symm
              exact hine this
            exact promote_uniform_byte rvs hrne (hs7 rfl)
          · rw [promoteInner_congr rvs items (hs9 rfl)]
            exact hmatch
          · obtain ⟨lks, hlks, hne, -⟩ := promote_eleven_spec items hmatch
            have hlenk := List.Forall₂.length_eq
              (listKinds_forall2 items lks hlks)
            have hine : items ≠ [] := by
              intro hcon
              subst hcon
              simp at hlenk
              exact hne (List.length_eq_zero.mp hlenk.symm)
            have hrne : rvs ≠ [] := by
              intro hcon
              rw [hcon] at hlen
              have := List.length_eq_zero.mp hlen.symm
              exact hine this
            exact promote_uniform_int rvs hrne (hs11 rfl)
        · rw [if_neg h9]
          rw [if_neg h9] at hmatch
          exact hmatch
      refine ⟨rvs, ?_, ?_, ?_, ?_⟩
      · rw [readList_succ]
        simp only [List.append_assoc]
        rw [read_byte_pack d kb (cb ++ (eb ++ t)) hkb]
        simp only [Option.bind_eq_bind, Option.some_bind]
        rw [read_int_pack ((items.length : Int)) cb (eb ++ t) hcb]
        simp only [Option.some_bind]
        rw [if_neg (by omega)]
        show (do
          let (its, s) ← readElems f d ((items.length : Int)).toNat (eb ++ t)
          pure (PyVal.list (if d = 0 then none else some (normTag d))
            its, s)) = _
        rw [Int.toNat_natCast, hre]
        simp only [Option.some_bind]
        rw [if_neg (by omega), hnt]
        rfl
      · rw [← hlen] at hcb
        exact writeListPayload_build (some lk0) rvs d kb cb eb hrebuild
          hkb hcb hwe
      · rw [valOk_list]
        dsimp only
        rw [Bool.and_eq_true, decide_eq_true_eq]
        refine ⟨hv, ?_⟩
        rw [← hnt]
        exact hiok2
      · intro hst
        exact hrec (elems_wireStable lk0 items d hv hiok hmatch hst)

theorem sizeOf_dictpairs_pos (l : DictPairs) : 1 ≤ sizeOf l := by
  cases l <;> simp <;> omega

/-- The dictionary loop of the master induction. -/
theorem step_dict (μ : Nat) (ih : ∀ m, m < μ → MasterAll m) :
    PDict μ := by
  intro entries pb hμ hnodup hentok h
  induction entries generalizing pb with
  | nil =>
    rw [writeDictPayload_nil] at h
    replace h := Option.some_inj.mp h
    subst h
    intro fuel t acc hfuel habs
    simp only [List.length_cons, List.length_nil] at hfuel
    cases fuel with
    | zero => omega
    | succ f =>
      refine ⟨[], ?_, writeDictPayload_nil, rfl, ?_, ?_⟩
      · rw [readDictLoop_succ, List.singleton_append,
            readerLoad_end f t (by omega)]
        rw [List.append_nil]
        rfl
      · rw [entriesOk.eq_def]
      · intro _
        rfl
  | cons e rest ihr =>
    obtain ⟨key, kd, val⟩ := e
    obtain ⟨b, bs, hb, hbs, hpb⟩ := writeDictPayload_cons key kd val rest pb h
    subst hpb
    rw [entriesOk_cons] at hentok
    simp only [Bool.and_eq_true, decide_eq_true_eq] at hentok
    obtain ⟨⟨⟨⟨hu, hl⟩, hkdVT⟩, hvalok⟩, hentokR⟩ := hentok
    rw [List.map_cons, List.nodup_cons] at hnodup
    obtain ⟨hkey_nmem, hnodupR⟩ := hnodup
    have hsz := sizeOf_entry_cons key kd val rest
    have hsz1 := sizeOf_pystr_pos key
    have hsz2 := sizeOf_pyval_pos val
    have hsz3 := sizeOf_dictpairs_pos rest
    have hsave : SaveConc kd key val b :=
      ((ih (4 * sizeOf val + 3) (by omega)).1) kd key val b (le_refl _)
        hkdVT hvalok hb
    have hdict : DictConc rest bs :=
      ihr bs (by omega) hnodupR hentokR hbs
    have hbpos : 1 ≤ b.length := writerSave_pos kd key val b hb
    have hbspos : 1 ≤ bs.length := writeDictPayload_pos rest bs hbs
    intro fuel t acc hfuel habs
    rw [List.length_append] at hfuel
    cases fuel with
    | zero => omega
    | succ f =>
      obtain ⟨rv, hread, hwrite, hvalrv, hstabv⟩ :=
        hsave f (bs ++ t) (by omega)
      have hfind : pairsFind acc key = none :=
        habs (key, kd, val) (List.mem_cons_self _ _)
      have hsk := dictSetKind_absent acc key kd hfind hkdVT
      have hacc : is_accepted kd rv = some true := valOk_accepted kd rv hvalrv
      have hsi := dictSetItem_at_end acc key kd (default_value kd) rv
        hfind hacc
      have habs2 : ∀ e ∈ rest, pairsFind (acc ++ [(key, kd, rv)]) e.1 =
          none := by
        intro e he
        rw [pairsFind_append acc _ e.1 (habs e (List.mem_cons_of_mem _ he))]
        apply pairsFind_single_ne
        intro hcon
        apply hkey_nmem
        rw [hcon]
        exact List.mem_map.mpr ⟨e, he, rfl⟩
      obtain ⟨res2, hloop, hwres, hkeys, hentok2, hrec2⟩ :=
        hdict f t (acc ++ [(key, kd, rv)]) (by omega) habs2
      refine ⟨(key, kd, rv) :: res2, ?_, ?_, ?_, ?_, ?_⟩
      · rw [readDictLoop_succ, List.append_assoc, hread]
        simp only [Option.bind_eq_bind, Option.some_bind]
        rw [hsk]
        dsimp only
        rw [hsi]
        dsimp only
        rw [hloop, List.append_assoc, List.singleton_append]
      · exact writeDictPayload_build key kd rv res2 b bs hwrite hwres
      · rw [List.map_cons, List.map_cons, hkeys]
      · rw [entriesOk_cons]
        rw [Bool.and_eq_true, Bool.and_eq_true, Bool.and_eq_true,
            Bool.and_eq_true]
        exact ⟨⟨⟨⟨hu, decide_eq_true hl⟩, decide_eq_true hkdVT⟩, hvalrv⟩,
          hentok2⟩
      · intro hstall
        rw [stableEntries_cons, Bool.and_eq_true] at hstall
        rw [hstabv hstall.1, hrec2 hstall.2]

/-- The named-tag round-trip of the master induction. -/
theorem step_save (μ : Nat) (ih : ∀ m, m < μ → MasterAll m) :
    PSave μ := by
  intro kd name v B hμ hkd hok h
  obtain ⟨rk, tb, nb, pb, hrk, htb, hnb, hpb, hB, htb1⟩ :=
    writerSave_shape kd name v B h
  subst hB
  obtain ⟨hnorm, hrk1, hrk11, hrk0⟩ := refineKind_spec kd v rk hkd hrk
  have hwireok : wireOk rk v = true := refine_wireOk kd v rk hkd hok hrk
  have hdisp : DispConc rk v pb :=
    ((ih (4 * sizeOf v + 2) (by omega)).2.1) rk v pb (le_refl _)
      hrk1 hrk11 hwireok hpb
  intro fuel t hfuel
  rw [List.length_append, List.length_append] at hfuel
  obtain ⟨hnbread, hnblen, -, -⟩ := read_write_string name nb (pb ++ t) hnb
  cases fuel with
  | zero => omega
  | succ f =>
    obtain ⟨rv, hrread, hrwrite, hrval, hr7, hr11, hr9, hrstab⟩ :=
      hdisp f t (by omega)
    refine ⟨rv, ?_, ?_, ?_, ?_⟩
    · rw [readerLoad_succ]
      simp only [List.append_assoc]
      rw [read_byte_pack rk tb (nb ++ (pb ++ t)) htb]
      simp only [Option.bind_eq_bind, Option.some_bind]
      rw [if_neg hrk0, hnbread]
      simp only [Option.some_bind]
      rw [hrread]
      simp only [Option.some_bind]
      rw [hnorm]
      rfl
    · exact writerSave_build kd name rv rk tb nb pb
        (refine_back kd v rv rk hkd hrk hr7 hr11 hr9) htb hnb hrwrite
    · rw [← hnorm]
      exact hrval
    · intro hst
      exact hrstab (refine_wireStable kd v rk hkd hst hrk)

/-- The dispatch of the master induction. -/
theorem step_disp (μ : Nat) (ih : ∀ m, m < μ → MasterAll m) :
    PDisp μ := by
  intro k v pb hμ hk1 hk2 hok h
  interval_cases k
  · exact disp_rt_one v pb hok h
  · exact disp_rt_two v pb hok h
  · exact disp_rt_three v pb hok h
  · exact disp_rt_four v pb hok h
  · exact disp_rt_five v pb hok h
  · exact disp_rt_six v pb hok h
  · exact disp_rt_seven v pb hok h
  · exact disp_rt_eight v pb hok h
  · -- k = 9
    have hok9 : valOk 9 v = true := by
      rw [← wireOk_not_arr 9 v (by decide) (by decide)]
      exact hok
    obtain ⟨lk, items, rfl⟩ := valOk_nine_elim v hok9
    rw [writeDispatch_nine_eq] at h
    have hsz := sizeOf_pyval_list lk items
    have hsz1 := sizeOf_option_pos lk
    have hlist : ListConc lk items pb :=
      ((ih (4 * sizeOf items + 1) (by omega)).2.2.1) lk items pb (le_refl _)
        hok9 h
    intro fuel t hfuel
    cases fuel with
    | zero => omega
    | succ f =>
      obtain ⟨rvs, hlread, hlwrite, hlval, hlrec⟩ := hlist f t (by omega)
      refine ⟨.list lk rvs, ?_, ?_, ?_, ?_, ?_, ?_, ?_⟩
      · rw [readDispatch_nine]
        exact hlread
      · rw [writeDispatch_nine_eq]
        exact hlwrite
      · rw [show normTag 9 = 9 from by decide]
        exact hlval
      · intro h7
        exact absurd h7 (by decide)
      · intro h11
        exact absurd h11 (by decide)
      · intro lk2 its h9 hsh
        injection hsh with e1 e2
        subst e1
        exact ⟨rvs, rfl⟩
      · intro hst
        rw [wireStable_not_arr 9 _ (by decide) (by decide)] at hst
        rw [hlrec hst]
  · -- k = 10
    have hok10 : valOk 10 v = true := by
      rw [← wireOk_not_arr 10 v (by decide) (by decide)]
      exact hok
    obtain ⟨es, rfl⟩ := valOk_ten_elim v hok10
    rw [writeDispatch_ten_eq] at h
    rw [valOk_dict, Bool.and_eq_true, decide_eq_true_eq] at hok10
    obtain ⟨hnodup, hentok⟩ := hok10
    have hsz := sizeOf_pyval_dict es
    have hdict : DictConc es pb :=
      ((ih (4 * sizeOf es + 1) (by omega)).2.2.2.2) es pb (le_refl _)
        hnodup hentok h
    have hpbpos : 1 ≤ pb.length := writeDictPayload_pos es pb h
    intro fuel t hfuel
    cases fuel with
    | zero => omega
    | succ f =>
      cases f with
      | zero => omega
      | succ f2 =>
        obtain ⟨res, hloop, hwres, hkeys, hentok2, hrec2⟩ :=
          hdict f2 t [] (by omega) (by intro e he; rfl)
        rw [List.nil_append] at hloop
        refine ⟨.dict res, ?_, ?_, ?_, ?_, ?_, ?_, ?_⟩
        · rw [readDispatch_ten, readDict_succ, hloop]
          rfl
        · rw [writeDispatch_ten_eq]
          exact hwres
        · rw [show normTag 10 = 10 from by decide, valOk_dict]
          rw [Bool.and_eq_true, decide_eq_true_eq]
          refine ⟨?_, hentok2⟩
          rw [hkeys]
          exact hnodup
        · intro h7
          exact absurd h7 (by decide)
        · intro h11
          exact absurd h11 (by decide)
        · intro lk2 its h9
          exact absurd h9 (by decide)
        · intro hst
          rw [wireStable_not_arr 10 _ (by decide) (by decide),
              stableVal_dict] at hst
          rw [hrec2 hst]
  · exact disp_rt_eleven v pb hok h

/-- The master round-trip: all five contracts, by strong induction on
four times the value size plus the call rank. -/
theorem nbt_master (μ : Nat) : MasterAll μ := by
  induction μ using Nat.strong_induction_on with
  | _ μ ih =>
    exact ⟨step_save μ ih, step_disp μ ih, step_list μ ih,
      step_elems μ ih, step_dict μ ih⟩

/-! ### Claims C1 and C2 -/

/-- Claim C1 (amended): decoding a stream produced by `Writer.save` on an
invariant value and re-encoding the loaded triple restores the stream
octet for octet, the array wire tags included.  (The unamended claim,
over every well-formed stream, fails: see the counterexample, a loadable
stream carrying a `BYTE`-kinded list under wire tag `LIST` that the
writer re-encodes under `BYTE_ARRAY`.) -/
theorem c1_byte_roundtrip (kd : Int) (name : PyStr) (v : PyVal)
    (B : List Nat) (hkd : kd ∈ VALID_TAGS) (hok : valOk kd v = true)
    (h : writerSave kd name v = some B) :
    ∀ fuel t, 2 * B.length ≤ fuel →
      ∃ rv, readerLoad fuel (B ++ t) = some (some (kd, name, rv), t) ∧
        writerSave kd name rv = some B := by
  intro fuel t hfuel
  obtain ⟨rv, h1, h2, -, -⟩ :=
    (nbt_master (4 * sizeOf v + 3)).1 kd name v B (le_refl _) hkd hok h
      fuel t hfuel
  exact ⟨rv, h1, h2⟩

/-- Concrete instance of the amended C1: the four-octet stream of a
named `BYTE` scalar. -/
theorem c1_byte_roundtrip_witness :
    ∃ rv, readerLoad 8 ([1, 0, 0, 5] ++ []) = some (some (1, [], rv), []) ∧
      writerSave 1 [] rv = some [1, 0, 0, 5] := by
  have hW : writerSave 1 [] (PyVal.int 5) = some [1, 0, 0, 5] :=
    writerSave_build 1 [] (PyVal.int 5) 1 [1] [0, 0] [5] (by decide)
      (by decide) (by decide)
      (by rw [writeDispatch_scalar 1 _ (by norm_num)]; decide)
  exact c1_byte_roundtrip 1 [] (PyVal.int 5) [1, 0, 0, 5] (by decide)
    (by rw [valOk.eq_def]; decide) hW 8 [] (by decide)

/-- The unamended C1 fails: `[9, 0, 0, 1, 0, 0, 0, 1, 5]` is well formed
(the reader loads it, and the loaded value satisfies the model
invariants), but the writer re-encodes the loaded triple as
`[7, 0, 0, 0, 0, 0, 1, 5]`: the `LIST`-of-`BYTE` wire encoding is not
restored, the refinement emits `BYTE_ARRAY`. -/
theorem c1_counterexample :
    readerLoad 20 [9, 0, 0, 1, 0, 0, 0, 1, 5] =
      some (some (9, [], PyVal.list (some 1) [PyVal.int 5]), []) ∧
    valOk 9 (PyVal.list (some 1) [PyVal.int 5]) = true ∧
    writerSave 9 [] (PyVal.list (some 1) [PyVal.int 5]) =
      some [7, 0, 0, 0, 0, 0, 1, 5] ∧
    [7, 0, 0, 0, 0, 0, 1, 5] ≠ [9, 0, 0, 1, 0, 0, 0, 1, 5] := by
  refine ⟨rfl, ?_, ?_, by decide⟩
  · have e1 : valOk 1 (PyVal.int 5) = true := by
      rw [valOk.eq_def]
      decide
    have e2 : itemsOk 1 ([] : List PyVal) = true := by
      rw [itemsOk.eq_def]
    rw [valOk_list]
    dsimp only
    rw [itemsOk_cons, e1, e2]
    decide
  · exact writerSave_build 9 [] (PyVal.list (some 1) [PyVal.int 5]) 7
      [7] [0, 0] [0, 0, 0, 1, 5] (by decide) (by decide) (by decide)
      (by rw [writeDispatch_seven_eq]; decide)

/-- Claim C2 (amended): `load` after `save` restores an invariant value
whenever the value is *stable*: every float stored under `FLOAT` kind is
exactly representable in binary32, and in every `LIST`-of-lists that the
writer promotes to an array tag every inner list carries the promoted
declared kind rather than `None`.  (The unamended claim, for every
invariant value, fails: see the counterexample.)  Compound key order and
list kinds are preserved as part of the structural equality. -/
theorem c2_value_roundtrip (v : PyVal) (B : List Nat)
    (hok : valOk (default_kind v) v = true)
    (hst : stableVal (default_kind v) v = true)
    (h : conSave v = some B) :
    ∀ fuel, 2 * B.length ≤ fuel → conLoad fuel B = some v := by
  intro fuel hfuel
  have hkd : default_kind v ∈ VALID_TAGS := by
    rcases v with n | bits | s | ⟨lk, items⟩ | es
    · exact show (4 : Int) ∈ VALID_TAGS from by decide
    · exact show (6 : Int) ∈ VALID_TAGS from by decide
    · exact show (8 : Int) ∈ VALID_TAGS from by decide
    · exact show (9 : Int) ∈ VALID_TAGS from by decide
    · exact show (10 : Int) ∈ VALID_TAGS from by decide
  unfold conSave at h
  obtain ⟨rv, h1, -, -, h4⟩ :=
    (nbt_master (4 * sizeOf v + 3)).1 (default_kind v) [] v B (le_refl _)
      hkd hok h fuel [] hfuel
  unfold conLoad
  rw [List.append_nil] at h1
  rw [h1, h4 hst]

/-- Concrete instance of the amended C2: a `BYTE`-kinded list survives
the round-trip (through the `BYTE_ARRAY` wire tag). -/
theorem c2_value_roundtrip_witness :
    conLoad 16 [7, 0, 0, 0, 0, 0, 1, 5] =
      some (PyVal.list (some 1) [PyVal.int 5]) := by
  have e1 : valOk 1 (PyVal.int 5) = true := by
    rw [valOk.eq_def]
    decide
  have e2 : itemsOk 1 ([] : List PyVal) = true := by
    rw [itemsOk.eq_def]
  have hok : valOk (default_kind (PyVal.list (some 1) [PyVal.int 5]))
      (PyVal.list (some 1) [PyVal.int 5]) = true := by
    show valOk 9 (PyVal.list (some 1) [PyVal.int 5]) = true
    rw [valOk_list]
    dsimp only
    rw [itemsOk_cons, e1, e2]
    decide
  have hst : stableVal (default_kind (PyVal.list (some 1) [PyVal.int 5]))
      (PyVal.list (some 1) [PyVal.int 5]) = true := by
    show stableVal 9 (PyVal.list (some 1) [PyVal.int 5]) = true
    rw [stableVal_list, if_neg (by decide), stableItems_cons]
    rw [show stableVal 1 (PyVal.int 5) = true from by
      rw [stableVal.eq_def]
      decide]
    rw [show stableItems 1 ([] : List PyVal) = true from by
      rw [stableItems.eq_def]]
    rfl
  have hsave : conSave (PyVal.list (some 1) [PyVal.int 5]) =
      some [7, 0, 0, 0, 0, 0, 1, 5] := by
    show writerSave 9 [] (PyVal.list (some 1) [PyVal.int 5]) =
      some [7, 0, 0, 0, 0, 0, 1, 5]
    exact writerSave_build 9 [] (PyVal.list (some 1) [PyVal.int 5]) 7
      [7] [0, 0] [0, 0, 0, 1, 5] (by decide) (by decide) (by decide)
      (by rw [writeDispatch_seven_eq]; decide)
  exact c2_value_roundtrip (PyVal.list (some 1) [PyVal.int 5])
    [7, 0, 0, 0, 0, 0, 1, 5] hok hst hsave 16 (by decide)

/-- The unamended C2 fails: the invariant value
`List(kind 9)[List(kind 1)[], List(kind None)[]]` encodes (the promotion
emits `BYTE_ARRAY` elements because one inner kind is `BYTE`), but loads
back with the second inner kind *changed* from `None` to `BYTE`: inner
kinds are not preserved. -/
theorem c2_counterexample :
    valOk (default_kind (PyVal.list (some 9)
        [PyVal.list (some 1) [], PyVal.list none []]))
      (PyVal.list (some 9) [PyVal.list (some 1) [], PyVal.list none []]) =
      true ∧
    conSave (PyVal.list (some 9)
        [PyVal.list (some 1) [], PyVal.list none []]) =
      some [9, 0, 0, 7, 0, 0, 0, 2, 0, 0, 0, 0, 0, 0, 0, 0] ∧
    conLoad 40 [9, 0, 0, 7, 0, 0, 0, 2, 0, 0, 0, 0, 0, 0, 0, 0] =
      some (PyVal.list (some 9)
        [PyVal.list (some 1) [], PyVal.list (some 1) []]) ∧
    PyVal.list (some 9) [PyVal.list (some 1) [], PyVal.list (some 1) []] ≠
      PyVal.list (some 9) [PyVal.list (some 1) [], PyVal.list none []] := by
  have e2 : itemsOk 1 ([] : List PyVal) = true := by
    rw [itemsOk.eq_def]
  have e9 : itemsOk 9 ([] : List PyVal) = true := by
    rw [itemsOk.eq_def]
  have eA : valOk 9 (PyVal.list (some 1) []) = true := by
    rw [valOk_list]
    dsimp only
    rw [e2]
    decide
  have eB : valOk 9 (PyVal.list none []) = true := by
    rw [valOk_list]
    rfl
  refine ⟨?_, ?_, rfl, ?_⟩
  · show valOk 9 (PyVal.list (some 9)
      [PyVal.list (some 1) [], PyVal.list none []]) = true
    rw [valOk_list]
    dsimp only
    rw [itemsOk_cons, itemsOk_cons, eA, eB, e9]
    decide
  · show writerSave 9 [] (PyVal.list (some 9)
      [PyVal.list (some 1) [], PyVal.list none []]) =
      some [9, 0, 0, 7, 0, 0, 0, 2, 0, 0, 0, 0, 0, 0, 0, 0]
    have hE : writeElems 7 [PyVal.list (some 1) [], PyVal.list none []] =
        some [0, 0, 0, 0, 0, 0, 0, 0] := by
      have h1 : writeDispatch 7 (PyVal.list (some 1) []) =
          some [0, 0, 0, 0] := by
        rw [writeDispatch_seven_eq]
        decide
      have h2 : writeDispatch 7 (PyVal.list none []) =
          some [0, 0, 0, 0] := by
        rw [writeDispatch_seven_eq]
        decide
      have := writeElems_build 7 (PyVal.list (some 1) [])
        [PyVal.list none []] [0, 0, 0, 0] [0, 0, 0, 0] h1
        (writeElems_build 7 (PyVal.list none []) [] [0, 0, 0, 0] [] h2
          (writeElems_nil 7))
      exact this
    have hL : writeListPayload (some 9)
        [PyVal.list (some 1) [], PyVal.list none []] =
        some [7, 0, 0, 0, 2, 0, 0, 0, 0, 0, 0, 0, 0] := by
      have := writeListPayload_build (some 9)
        [PyVal.list (some 1) [], PyVal.list none []] 7 [7] [0, 0, 0, 2]
        [0, 0, 0, 0, 0, 0, 0, 0] (by decide) (by decide) (by decide) hE
      exact this
    have := writerSave_build 9 []
      (PyVal.list (some 9) [PyVal.list (some 1) [], PyVal.list none []]) 9
      [9] [0, 0] [7, 0, 0, 0, 2, 0, 0, 0, 0, 0, 0, 0, 0] (by decide)
      (by decide) (by decide) (by rw [writeDispatch_nine_eq]; exact hL)
    exact this
  · intro hcon
    injection hcon with hlk hits
    injection hits with hh ht
    injection ht with hh2 ht2
    injection hh2 with hk2 hi2
    exact Option.noConfusion hk2

/-! ### Octet-level facts about the region flow -/

theorem writeBytesAt_outside (f : Nat → Nat) (p : Nat) (bs : List Nat)
    (q : Nat) (h : q < p ∨ p + bs.length ≤ q) :
    writeBytesAt f p bs q = f q := by
  unfold writeBytesAt
  rw [if_neg]
  omega

theorem writeBytesAt_inside (f : Nat → Nat) (p : Nat) (bs : List Nat)
    (q : Nat) (h1 : p ≤ q) (h2 : q < p + bs.length) :
    writeBytesAt f p bs q = bs.getD (q - p) 0 := by
  unfold writeBytesAt
  rw [if_pos ⟨h1, h2⟩]

theorem readBytesAt_congr (f g : Nat → Nat) (p n : Nat)
    (h : ∀ q, p ≤ q → q < p + n → f q = g q) :
    readBytesAt f p n = readBytesAt g p n := by
  unfold readBytesAt
  apply List.map_congr_left
  intro i hi
  exact h (p + i) (by omega) (by have := List.mem_range.mp hi; omega)

theorem readBytesAt_write_shifted (f : Nat → Nat) (p : Nat)
    (bs : List Nat) (off n : Nat) (h : off + n ≤ bs.length) :
    readBytesAt (writeBytesAt f p bs) (p + off) n =
      (bs.drop off).take n := by
  unfold readBytesAt writeBytesAt
  apply List.ext_getElem
  · simp
    omega
  · intro i h1 h2
    have hi : i < n := by
      rw [List.length_map, List.length_range] at h1
      exact h1
    simp only [List.getElem_map, List.getElem_range, List.getElem_take,
               List.getElem_drop]
    rw [if_pos (by constructor <;> omega)]
    rw [show p + off + i - p = off + i from by omega]
    rw [List.getD_eq_getElem bs 0 (by omega)]

theorem readBytesAt_write (f : Nat → Nat) (p : Nat) (bs : List Nat)
    (n : Nat) (h : n ≤ bs.length) :
    readBytesAt (writeBytesAt f p bs) p n = bs.take n := by
  have := readBytesAt_write_shifted f p bs 0 n (by omega)
  simpa using this

/-- Sector-disjoint slots have disjoint octet ranges. -/
theorem sector_byte_disjoint (o1 l1 o2 l2 q : Nat)
    (hdisj : ∀ x, ¬ ((o1 ≤ x ∧ x < o1 + l1) ∧ (o2 ≤ x ∧ x < o2 + l2)))
    (h1 : o1 * 4096 ≤ q) (h2 : q < (o1 + l1) * 4096)
    (h3 : o2 * 4096 ≤ q) (h4 : q < (o2 + l2) * 4096) : False := by
  apply hdisj (q / 4096)
  refine ⟨⟨?_, ?_⟩, ?_, ?_⟩
  · exact (Nat.le_div_iff_mul_le (by norm_num)).mpr h1
  · exact Nat.div_lt_of_lt_mul (by omega)
  · exact (Nat.le_div_iff_mul_le (by norm_num)).mpr h3
  · exact Nat.div_lt_of_lt_mul (by omega)

/-! ### The per-slot read window and the trace invariant -/

/-- A load depends only on the slot's metadata and the octets of its
sector range. -/
theorem loadChunk_frame (V : Type) (dec : List Nat → Option V)
    (s s2 : AnvilState) (k : Nat)
    (hm : s2.toc.getD k default = s.toc.getD k default)
    (hlen : s2.toc.length = s.toc.length)
    (hfile : ∀ q, (s.toc.getD k default).offset * 4096 ≤ q →
      q < ((s.toc.getD k default).offset +
        (s.toc.getD k default).length) * 4096 → s2.file q = s.file q)
    (hsz : slotSizeOk s k) :
    loadChunk dec s2 k = loadChunk dec s k := by
  unfold loadChunk
  rw [hm, hlen]
  by_cases hg : ¬ (k < 1024 ∧ k < s.toc.length)
  · rw [if_pos hg, if_pos hg]
  · rw [if_neg hg, if_neg hg]
    dsimp only
    by_cases h0 : (s.toc.getD k default).length = 0
    · rw [if_pos h0, if_pos h0]
    · rw [if_neg h0, if_neg h0]
      have hbound := hsz h0
      have hl1 : 1 ≤ (s.toc.getD k default).length := by omega
      have hsize : readBytesAt s2.file
          ((s.toc.getD k default).offset * 4096) 4 =
          readBytesAt s.file ((s.toc.getD k default).offset * 4096) 4 := by
        apply readBytesAt_congr
        intro q hq1 hq2
        apply hfile q hq1
        have h44 : ((s.toc.getD k default).offset + 1) * 4096 ≤
            ((s.toc.getD k default).offset +
              (s.toc.getD k default).length) * 4096 :=
          Nat.mul_le_mul_right _ (by omega)
        omega
      rw [hsize]
      have hcomp : s2.file ((s.toc.getD k default).offset * 4096 + 4) =
          s.file ((s.toc.getD k default).offset * 4096 + 4) := by
        apply hfile _ (by omega)
        have h44 : ((s.toc.getD k default).offset + 1) * 4096 ≤
            ((s.toc.getD k default).offset +
              (s.toc.getD k default).length) * 4096 :=
          Nat.mul_le_mul_right _ (by omega)
        omega
      rw [hcomp]
      have hpay : readBytesAt s2.file
          ((s.toc.getD k default).offset * 4096 + 5)
          ((toSigned 4 (beVal (readBytesAt s.file
            ((s.toc.getD k default).offset * 4096) 4)) - 1).toNat) =
          readBytesAt s.file
          ((s.toc.getD k default).offset * 4096 + 5)
          ((toSigned 4 (beVal (readBytesAt s.file
            ((s.toc.getD k default).offset * 4096) 4)) - 1).toNat) := by
        apply readBytesAt_congr
        intro q hq1 hq2
        apply hfile q (by omega)
        omega
      rw [hpay]

/-- Shape of a successful header-and-payload write-back. -/
theorem saveWriteBackFile_eq (i : Nat) (m : Metadata) (bs : List Nat)
    (total : Nat) (pad : Bool) (f0 : Nat → Nat)
    (h1 : m.location < 2 ^ 31) (h2 : m.timestamp < 2 ^ 31)
    (h3 : 4 ≤ total) (h4 : total ≤ 2 ^ 31) :
    ∃ sb, packSigned 4 ((total : Int) - 4) = some sb ∧ sb.length = 4 ∧
      saveWriteBackFile i m bs total pad f0 =
        (none, writeBytesAt
          (writeBytesAt
            (writeBytesAt f0 (4 * i)
              (beBytes 4 (ofSigned 4 (m.location : Int))))
            (4096 + 4 * i) (beBytes 4 (ofSigned 4 (m.timestamp : Int))))
          (m.offset * 4096)
          (sb ++ [2] ++ bs ++ (if pad then
            List.replicate ((4096 - total % 4096) % 4096) 0 else []))) := by
  have hp1 : packSigned 4 ((m.location : Nat) : Int) =
      some (beBytes 4 (ofSigned 4 ((m.location : Nat) : Int))) :=
    packSigned_of_range 4 _ (by push_cast; omega) (by push_cast; omega)
  have hp2 : packSigned 4 ((m.timestamp : Nat) : Int) =
      some (beBytes 4 (ofSigned 4 ((m.timestamp : Nat) : Int))) :=
    packSigned_of_range 4 _ (by push_cast; omega) (by push_cast; omega)
  have hp3 : packSigned 4 ((total : Int) - 4) =
      some (beBytes 4 (ofSigned 4 ((total : Int) - 4))) :=
    packSigned_of_range 4 _ (by push_cast; omega) (by push_cast; omega)
  refine ⟨_, hp3, beBytes_length 4 _, ?_⟩
  unfold saveWriteBackFile
  rw [hp1]
  dsimp only
  rw [hp2]
  dsimp only
  rw [hp3]

/-- The write-back step: starting from a state whose table already
records the new slot but whose flow is still the old one, the writes of
`saveWriteBack` install the value at the slot, leave every other slot's
load unchanged, and keep the read windows. -/
theorem trace_writeback (V : Type) (enc : V → List Nat)
    (dec : List Nat → Option V) (v : V) (hcodec : dec (enc v) = some v)
    (s s1 : AnvilState) (M : Nat → Option V) (i off now : Nat)
    (pad : Bool) (needed total : Nat)
    (hneeded : needed = ((enc v).length + 5 + 4095) / 4096)
    (htotal : total = (enc v).length + 5)
    (hload : ∀ k, k < 1024 → loadChunk dec s k = M k)
    (hszs : ∀ k, k < 1024 → slotSizeOk s k)
    (hi : i < 1024) (hlen1024 : s.toc.length = 1024)
    (htoc : s1.toc = s.toc.set i
      { offset := off, length := needed, timestamp := now })
    (hfile1 : s1.file = s.file)
    (hdis1 : DisjointInv s1)
    (hoff : 2 ≤ off) (hoffb : off * 256 + needed < 2 ^ 31)
    (hnow : now < 2 ^ 31) (htb : total ≤ 255 * 4096)
    (hpadlen : total + (if pad then (4096 - total % 4096) % 4096 else 0) ≤
      needed * 4096) :
    TraceInv V dec (fun k => if i = k then some v else M k)
      (saveWriteBack i { offset := off, length := needed, timestamp := now }
        (enc v) total pad s1).2 := by
  have hil : i < s.toc.length := by omega
  have hneed1 : 1 ≤ needed := by
    subst hneeded htotal
    omega
  obtain ⟨sb, hsb, hsb4, heq⟩ := saveWriteBackFile_eq i
    { offset := off, length := needed, timestamp := now } (enc v) total pad
    s1.file
    (by show off * 256 + needed < 2 ^ 31; omega)
    (by show now < 2 ^ 31; omega)
    (by omega) (by omega)
  obtain ⟨-, hsbrd, hsbval⟩ :=
    read_packSigned 4 ((total : Int) - 4) sb [] (by norm_num) hsb
  have hfintoc : (saveWriteBack i
      { offset := off, length := needed, timestamp := now }
      (enc v) total pad s1).2.toc = s1.toc := rfl
  have hfinfile : (saveWriteBack i
      { offset := off, length := needed, timestamp := now }
      (enc v) total pad s1).2.file =
      (saveWriteBackFile i
        { offset := off, length := needed, timestamp := now }
        (enc v) total pad s1.file).2 := rfl
  rw [heq] at hfinfile
  rw [hfile1] at hfinfile
  dsimp only at hfinfile
  rw [show ({ offset := off, length := needed, timestamp := now } :
    Metadata).location = off * 256 + needed from rfl] at hfinfile
  have hWlen : (sb ++ [2] ++ enc v ++ (if pad then
      List.replicate ((4096 - total % 4096) % 4096) 0 else [])).length =
      total + (if pad then (4096 - total % 4096) % 4096 else 0) := by
    simp only [List.length_append, List.length_cons, List.length_nil,
      List.length_replicate]
    subst htotal
    cases pad <;> simp <;> omega
  have hWtotal : total ≤ (sb ++ [2] ++ enc v ++ (if pad then
      List.replicate ((4096 - total % 4096) % 4096) 0 else [])).length := by
    rw [hWlen]
    omega
  have hf2 : ∀ (lb tb : List Nat), lb.length = 4 → tb.length = 4 →
      ∀ q, 8192 ≤ q →
      writeBytesAt (writeBytesAt s.file (4 * i) lb) (4096 + 4 * i) tb q =
        s.file q := by
    intro lb tb hlb htb2 q hq
    rw [writeBytesAt_outside _ _ _ q (by rw [htb2]; right; omega),
        writeBytesAt_outside _ _ _ q (by rw [hlb]; right; omega)]
  have hframe : ∀ k, k < 1024 → k ≠ i → ∀ q,
      (s.toc.getD k default).offset * 4096 ≤ q →
      q < ((s.toc.getD k default).offset +
        (s.toc.getD k default).length) * 4096 →
      (saveWriteBack i
        { offset := off, length := needed, timestamp := now }
        (enc v) total pad s1).2.file q = s.file q := by
    intro k hk hki q hq1 hq2
    by_cases hk0 : (s.toc.getD k default).length = 0
    · rw [hk0] at hq2
      omega
    · have hmk : s1.toc.getD k default = s.toc.getD k default := by
        rw [htoc]
        exact getD_set_ne s.toc i k _ (fun hcon => hki hcon.symm)
      have hbounds := hdis1.2.2.1 k hk
        (by unfold slotFilled; rw [hmk]; exact hk0)
      rw [hmk] at hbounds
      have hq8192 : 8192 ≤ q := by omega
      rw [hfinfile]
      rw [writeBytesAt_outside]
      · exact hf2 _ _ (beBytes_length 4 _) (beBytes_length 4 _) q hq8192
      · by_contra hcon
        push_neg at hcon
        obtain ⟨hc1, hc2⟩ := hcon
        have hiW : q < (off + needed) * 4096 := by
          rw [hWlen] at hc2
          omega
        have hdisj := hdis1.2.2.2.1 i k hi hk
          (fun hcon2 => hki hcon2.symm)
          (by unfold slotFilled
              rw [htoc, getD_set_self s.toc i _ hil]
              dsimp only
              omega)
          (by unfold slotFilled; rw [hmk]; exact hk0)
        rw [htoc, getD_set_self s.toc i _ hil,
            getD_set_ne s.toc i k _ (fun hcon => hki hcon.symm)] at hdisj
        unfold inSlot at hdisj
        dsimp only at hdisj
        exact sector_byte_disjoint off needed
          (s.toc.getD k default).offset (s.toc.getD k default).length q
          (fun x hx => hdisj x ⟨hx.1, hx.2⟩) (by omega) hiW hq1 hq2
  have hsize : readBytesAt (saveWriteBack i
      { offset := off, length := needed, timestamp := now }
      (enc v) total pad s1).2.file (off * 4096) 4 = sb := by
    rw [hfinfile]
    rw [readBytesAt_write _ _ _ 4 (by omega)]
    simp only [List.append_assoc]
    exact List.take_left' hsb4
  have hcomp : (saveWriteBack i
      { offset := off, length := needed, timestamp := now }
      (enc v) total pad s1).2.file (off * 4096 + 4) = 2 := by
    rw [hfinfile]
    rw [writeBytesAt_inside _ _ _ _ (by omega) (by omega)]
    rw [show off * 4096 + 4 - off * 4096 = 4 from by omega]
    simp only [List.append_assoc]
    rw [List.getD_append_right sb _ 0 4 (by omega)]
    rw [hsb4]
    rfl
  have hpay : readBytesAt (saveWriteBack i
      { offset := off, length := needed, timestamp := now }
      (enc v) total pad s1).2.file (off * 4096 + 5) (enc v).length =
      enc v := by
    rw [hfinfile]
    rw [readBytesAt_write_shifted _ _ _ 5 (enc v).length (by omega)]
    rw [show sb ++ [2] ++ enc v ++ (if pad then
        List.replicate ((4096 - total % 4096) % 4096) 0 else []) =
      (sb ++ [2]) ++ (enc v ++ (if pad then
        List.replicate ((4096 - total % 4096) % 4096) 0 else [])) from by
        simp [List.append_assoc]]
    rw [List.drop_left' (by simp [hsb4])]
    exact List.take_left (enc v) _
  refine ⟨?_, ?_, ?_⟩
  · exact (disjointInv_saveWriteBack i _ (enc v) total pad s1).mpr hdis1
  · intro k hk
    by_cases hki : k = i
    · subst hki
      dsimp only
      rw [if_pos (show k = k from rfl)]
      unfold loadChunk
      rw [hfintoc, htoc]
      rw [if_neg (not_not_intro ⟨hk, by rw [List.length_set]; omega⟩)]
      rw [getD_set_self s.toc k _ hil]
      dsimp only
      rw [if_neg (by omega)]
      rw [hsize, hsbval, hcomp]
      rw [if_pos (by decide)]
      rw [show (((total : Int) - 4) - 1).toNat = (enc v).length from by
        subst htotal; omega]
      rw [hpay]
      exact hcodec
    · dsimp only
      rw [if_neg (fun hcon => hki hcon.symm)]
      rw [← hload k hk]
      apply loadChunk_frame V dec s _ k
      · rw [hfintoc, htoc]
        exact getD_set_ne s.toc i k _ (fun hcon => hki hcon.symm)
      · rw [hfintoc, htoc, List.length_set]
      · exact hframe k hk hki
      · exact hszs k hk
  · intro k hk
    by_cases hki : k = i
    · subst hki
      unfold slotSizeOk
      rw [hfintoc, htoc, getD_set_self s.toc k _ hil]
      dsimp only
      intro hfill0
      rw [hsize, hsbval]
      rw [show (((total : Int) - 4) - 1).toNat = (enc v).length from by
        subst htotal; omega]
      subst hneeded htotal
      have hdm := Nat.div_add_mod ((enc v).length + 5 + 4095) 4096
      have hmlt : ((enc v).length + 5 + 4095) % 4096 < 4096 :=
        Nat.mod_lt _ (by norm_num)
      omega
    · unfold slotSizeOk
      rw [hfintoc, htoc]
      rw [getD_set_ne s.toc i k _ (fun hcon => hki hcon.symm)]
      intro hk0
      have hread4 : readBytesAt (saveWriteBack i
          { offset := off, length := needed, timestamp := now }
          (enc v) total pad s1).2.file
          ((s.toc.getD k default).offset * 4096) 4 =
          readBytesAt s.file ((s.toc.getD k default).offset * 4096) 4 := by
        apply readBytesAt_congr
        intro q hq1 hq2
        apply hframe k hk hki q hq1
        have : ((s.toc.getD k default).offset + 1) * 4096 ≤
            ((s.toc.getD k default).offset +
              (s.toc.getD k default).length) * 4096 :=
          Nat.mul_le_mul_right _ (by omega)
        omega
      rw [hread4]
      exact hszs k hk hk0

/-- An empty slot always loads `None`. -/
theorem loadChunk_empty (V : Type) (dec : List Nat → Option V)
    (s : AnvilState) (i : Nat)
    (h0 : (s.toc.getD i default).length = 0) :
    loadChunk dec s i = none := by
  unfold loadChunk
  by_cases hg : ¬ (i < 1024 ∧ i < s.toc.length)
  · rw [if_pos hg]
  · rw [if_neg hg]
    dsimp only
    rw [if_pos h0]

/-- A state whose slot `i` was emptied, sectors released, and whose flow
changed only in the two header sectors keeps the trace invariant with
the slot mapped to `None`. -/
theorem trace_wiped (V : Type) (dec : List Nat → Option V)
    (s s2 : AnvilState) (M : Nat → Option V) (i : Nat) (m1 : Metadata)
    (hm1 : m1.length = 0)
    (hinv : TraceInv V dec M s)
    (hi : i < 1024)
    (htoc : s2.toc = s.toc.set i m1)
    (hfree : s2.free = releaseSectors s.free (s.toc.getD i default))
    (hnbs : s2.nbSectors = s.nbSectors)
    (hfile : ∀ q, 8192 ≤ q → s2.file q = s.file q) :
    TraceInv V dec (fun k => if i = k then none else M k) s2 := by
  obtain ⟨hdis, hload, hsz⟩ := hinv
  have hil : i < s.toc.length := by rw [hdis.1]; exact hi
  refine ⟨?_, ?_, ?_⟩
  · rw [disjointInv_congr s2
      { s with free := releaseSectors s.free (s.toc.getD i default),
               toc := s.toc.set i m1 }
      (by rw [htoc]) (by rw [hfree]) (by rw [hnbs])]
    exact disjointInv_wipe s i m1 hdis hi hm1
  · intro k hk
    by_cases hki : k = i
    · subst hki
      dsimp only
      rw [if_pos (show k = k from rfl)]
      apply loadChunk_empty
      rw [htoc, getD_set_self s.toc k _ hil]
      exact hm1
    · dsimp only
      rw [if_neg (fun hcon => hki hcon.symm)]
      rw [← hload k hk]
      apply loadChunk_frame V dec s s2 k
      · rw [htoc]
        exact getD_set_ne s.toc i k _ (fun hcon => hki hcon.symm)
      · rw [htoc, List.length_set]
      · intro q hq1 hq2
        by_cases hk0 : (s.toc.getD k default).length = 0
        · rw [hk0] at hq2
          omega
        · have hb := hdis.2.2.1 k hk (by unfold slotFilled; exact hk0)
          exact hfile q (by omega)
      · exact hsz k hk
  · intro k hk
    by_cases hki : k = i
    · subst hki
      unfold slotSizeOk
      rw [htoc, getD_set_self s.toc k _ hil]
      intro hcon
      exact absurd hm1 hcon
    · unfold slotSizeOk
      rw [htoc, getD_set_ne s.toc i k _ (fun hcon => hki hcon.symm)]
      intro hk0
      have hread4 : readBytesAt s2.file
          ((s.toc.getD k default).offset * 4096) 4 =
          readBytesAt s.file ((s.toc.getD k default).offset * 4096) 4 := by
        apply readBytesAt_congr
        intro q hq1 hq2
        have hb := hdis.2.2.1 k hk (by unfold slotFilled; exact hk0)
        exact hfile q (by omega)
      rw [hread4]
      exact hsz k hk hk0

/-- One valid `wipe_chunk` step preserves the trace invariant. -/
theorem trace_step_wipe (V : Type) (enc : V → List Nat)
    (dec : List Nat → Option V)
    (s : AnvilState) (M : Nat → Option V) (i now : Nat)
    (hinv : TraceInv V dec M s)
    (hop : validOpB enc s (.wipe i now) = true) :
    TraceInv V dec (fun k => if i = k then none else M k)
      (applyOp enc s (.wipe i now)).2 := by
  have hop2 : (decide (i < 1024) && decide (now < 2 ^ 31)) = true := hop
  simp only [Bool.and_eq_true, decide_eq_true_eq] at hop2
  obtain ⟨hi, hnow⟩ := hop2
  have hil : i < s.toc.length := by rw [hinv.1.1]; exact hi
  have happly : applyOp enc s (.wipe i now) = wipeChunk now i s := rfl
  rw [happly]
  unfold wipeChunk
  rw [if_neg (not_not_intro ⟨hi, hil⟩)]
  dsimp only
  by_cases h0 : (s.toc.getD i default).length = 0
  · rw [if_pos h0]
    obtain ⟨hdis, hload, hsz⟩ := hinv
    refine ⟨hdis, ?_, hsz⟩
    intro k hk
    by_cases hki : k = i
    · subst hki
      dsimp only
      rw [if_pos (show k = k from rfl)]
      exact loadChunk_empty V dec s k h0
    · dsimp only
      rw [if_neg (fun hcon => hki hcon.symm)]
      exact hload k hk
  · rw [if_neg h0, if_neg (not_not_intro (by omega : now < 2 ^ 32))]
    split
    · -- the location word does not pack: only the table changed
      exact trace_wiped V dec s _ M i _ rfl hinv hi rfl rfl rfl
        (fun q hq => rfl)
    · next lb heq =>
      -- both header words written
      have hlb : lb.length = 4 := packSigned_length 4 _ lb heq
      split
      · next heq2 =>
        exact trace_wiped V dec s _ M i _ rfl hinv hi rfl rfl rfl
          (fun q hq => by
            show writeBytesAt s.file (4 * i) lb q = s.file q
            rw [writeBytesAt_outside _ _ _ q (by right; omega)])
      · next tb heq2 =>
        have htb : tb.length = 4 := packSigned_length 4 _ tb heq2
        exact trace_wiped V dec s _ M i _ rfl hinv hi rfl rfl rfl
          (fun q hq => by
            show writeBytesAt (writeBytesAt s.file (4 * i) lb)
              (4096 + 4 * i) tb q = s.file q
            rw [writeBytesAt_outside _ _ _ q (by right; omega),
                writeBytesAt_outside _ _ _ q (by right; omega)])

/-- One valid `save_chunk` step preserves the trace invariant, mapping
the slot to the saved value. -/
theorem trace_step_save (V : Type) (enc : V → List Nat)
    (dec : List Nat → Option V) (hcodec : ∀ w, dec (enc w) = some w)
    (s : AnvilState) (M : Nat → Option V) (i : Nat) (v : V)
    (ord : List Nat) (now : Nat)
    (hinv : TraceInv V dec M s)
    (hop : validOpB enc s (.save i v ord now) = true) :
    TraceInv V dec (fun k => if i = k then some v else M k)
      (applyOp enc s (.save i v ord now)).2 := by
  obtain ⟨hdis, hload, hsz⟩ := hinv
  have hop2 : (decide (i < 1024) &&
      decide (ord.Perm (releaseSectors s.free (s.toc.getD i default))) &&
      decide ((enc v).length + 5 ≤ 255 * 4096) &&
      decide (now < 2 ^ 31) &&
      decide (s.nbSectors + 256 ≤ 2 ^ 23)) = true := hop
  simp only [Bool.and_eq_true, decide_eq_true_eq] at hop2
  obtain ⟨⟨⟨⟨hi, hperm⟩, hlenb⟩, hnow⟩, hnb⟩ := hop2
  have hil : i < s.toc.length := by rw [hdis.1]; exact hi
  have happly : applyOp enc s (.save i v ord now) =
      saveChunk enc ord now i v s := rfl
  rw [happly]
  have hneeded : ((enc v).length + 5 + 4095) / 4096 < 256 := by omega
  have hneed1 : 1 ≤ ((enc v).length + 5 + 4095) / 4096 := by omega
  have hnow32 : now < 2 ^ 32 := by omega
  cases hfind : ord.find? (fun a =>
      runIsFree (releaseSectors s.free (s.toc.getD i default)) a
        (((enc v).length + 5 + 4095) / 4096)) with
  | none =>
    have hnb2 : 2 ≤ s.nbSectors ∧ s.nbSectors < 2 ^ 24 :=
      ⟨hdis.2.1, by omega⟩
    rw [saveChunk_append_eq V enc ord now i v s hi hil hneeded hnow32
      hfind hnb2]
    refine trace_writeback V enc dec v (hcodec v) s _ M i s.nbSectors now
      true _ _ rfl rfl hload hsz hi hdis.1 rfl rfl ?_ hdis.2.1 ?_ hnow
      hlenb ?_
    · exact disjointInv_append s i _ now hdis hi hneeded
    · omega
    · have hdm := Nat.div_add_mod ((enc v).length + 5 + 4095) 4096
      have hmlt : ((enc v).length + 5 + 4095) % 4096 < 4096 :=
        Nat.mod_lt _ (by norm_num)
      rw [if_pos (show (true : Bool) = true from rfl)]
      omega
  | some a =>
    have hrun0 := List.find?_some hfind
    have hrun : runIsFree (releaseSectors s.free (s.toc.getD i default)) a
        (((enc v).length + 5 + 4095) / 4096) = true := hrun0
    have hamem : a ∈ releaseSectors s.free (s.toc.getD i default) :=
      runIsFree_mem _ a _ a hrun (le_refl a) (by omega)
    have habound := (releaseSectors_sound s i a hdis hi hamem).1
    have ha : 2 ≤ a ∧ a < 2 ^ 24 := ⟨habound.1, by omega⟩
    rw [saveChunk_reuse_eq V enc ord now i v s a hi hil hneeded hnow32
      hfind ha]
    refine trace_writeback V enc dec v (hcodec v) s _ M i a now
      false _ _ rfl rfl hload hsz hi hdis.1 rfl rfl ?_ habound.1 ?_ hnow
      hlenb ?_
    · exact disjointInv_reuse s i a _ now hdis hi hneed1 hneeded hrun
    · omega
    · have hdm := Nat.div_add_mod ((enc v).length + 5 + 4095) 4096
      have hmlt : ((enc v).length + 5 + 4095) % 4096 < 4096 :=
        Nat.mod_lt _ (by norm_num)
      rw [if_neg (show ¬ ((false : Bool) = true) from by decide)]
      omega

/-- Running a valid trace: every slot load equals the fold of the
operations over the starting slot map. -/
theorem trace_run (V : Type) (enc : V → List Nat)
    (dec : List Nat → Option V) (hcodec : ∀ w, dec (enc w) = some w) :
    ∀ (ops : List (AnvilOp V)) (s : AnvilState) (M : Nat → Option V),
    TraceInv V dec M s → validTraceB enc s ops = true →
    ∀ k, k < 1024 →
      loadChunk dec (runOps enc s ops) k =
        ops.foldl (fun acc op =>
          match op with
          | .save i v _ _ => if i = k then some v else acc
          | .wipe i _ => if i = k then none else acc) (M k) := by
  intro ops
  induction ops with
  | nil =>
    intro s M hinv hval k hk
    exact hinv.2.1 k hk
  | cons op rest ih =>
    intro s M hinv hval k hk
    have hval2 : (validOpB enc s op &&
        validTraceB enc (applyOp enc s op).2 rest) = true := hval
    rw [Bool.and_eq_true] at hval2
    obtain ⟨hop, hrest⟩ := hval2
    show loadChunk dec (runOps enc (applyOp enc s op).2 rest) k = _
    cases op with
    | save i v ord now =>
      have hstep := trace_step_save V enc dec hcodec s M i v ord now
        hinv hop
      exact ih (applyOp enc s (.save i v ord now)).2 _ hstep hrest k hk
    | wipe i now =>
      have hstep := trace_step_wipe V enc dec s M i now hinv hop
      exact ih (applyOp enc s (.wipe i now)).2 _ hstep hrest k hk

/-- A fresh store satisfies the trace invariant with the empty slot
map. -/
theorem trace_init (V : Type) (dec : List Nat → Option V)
    (path : Option PyStr) :
    TraceInv V dec (fun _ => none) (initAnvil path) := by
  have hempty : ∀ k, ((initAnvil path).toc.getD k default).length = 0 := by
    intro k
    show ((List.replicate 1024 (default : Metadata)).getD k
      default).length = 0
    rw [getD_replicate_default 1024 k]
    rfl
  refine ⟨disjointInv_init path, ?_, ?_⟩
  · intro k hk
    exact loadChunk_empty V dec _ k (hempty k)
  · intro k hk
    unfold slotSizeOk
    intro hcon
    exact absurd (hempty k) hcon

/-- Claim C3: for every sequence of valid `save_chunk` / `wipe_chunk`
operations on one store starting from a fresh file, `load_chunk k`
returns exactly the value of the most recent `save_chunk(k, ·)`, and
`None` when the most recent operation on `k` was a wipe or no save on
`k` ever occurred.  Modelled from the spec: `save_chunk` / `load_chunk`
call `nbt.save` / `nbt.load` (plus zlib, §4.5), which `Src/nbt.py` does
not define; the payload codec is abstracted as an encoder `enc` with
left inverse `dec`.  Validity of an operation (`validOpB`) is the
conjunction of the source's `assert` preconditions: index below 1024,
the scan enumeration a permutation of the observed free set, the
payload at most 255 sectors, the timestamp below `2 ^ 31`, and sector
count headroom. -/
theorem c3_store_trace (V : Type) (enc : V → List Nat)
    (dec : List Nat → Option V) (path : Option PyStr)
    (hcodec : ∀ w, dec (enc w) = some w)
    (ops : List (AnvilOp V))
    (hvalid : validTraceB enc (initAnvil path) ops = true)
    (k : Nat) (hk : k < 1024) :
    loadChunk dec (runOps enc (initAnvil path) ops) k =
      lastSaved ops k := by
  have h := trace_run V enc dec hcodec ops (initAnvil path)
    (fun _ => none) (trace_init V dec path) hvalid k hk
  rw [h]
  rfl

/-- Concrete instance: after `save_chunk(3, 2)` then `wipe_chunk(5)` on
a fresh byte-flow store with the length codec, slot 3 loads the saved
value. -/
theorem c3_store_trace_witness :
    loadChunk decLen (runOps encLen (initAnvil none)
      [AnvilOp.save 3 2 [] 100, AnvilOp.wipe 5 101]) 3 =
      lastSaved [AnvilOp.save 3 2 [] 100, AnvilOp.wipe 5 101] 3 ∧
    lastSaved [AnvilOp.save 3 2 [] 100, AnvilOp.wipe 5 101] 3 = some 2 :=
  ⟨c3_store_trace Nat encLen decLen none
    (fun w => by simp [encLen, decLen])
    [AnvilOp.save 3 2 [] 100, AnvilOp.wipe 5 101] (by decide) 3
    (by decide),
   by decide⟩

end PyCraft
